import Mathlib

/-!
# Search index library: posting-list codec, index builder and term cursor

A shallow embedding of the C sources of the search index library
(`sil_search_builder.c`, `sil_document_builder.c`, `sil_search_image.c`,
`sil_document_image.c`, `impl/sil_term_impl.h`, `impl/sil_constants.h`).

Conventions of the embedding.

* A byte buffer (`aml_buffer_t`, a loaded file) is a `List Nat` of bytes.
* A pointer into a loaded buffer is a `Nat` offset into it; `rd8`, `rd16`,
  `rd32` are the little-endian loads `*(uint8_t *)p`, `*(uint16_t *)p`,
  `*(uint32_t *)p`.
* `uint8_t`, `uint16_t`, `uint32_t` values are `Nat`s, reduced `% 2 ^ w`
  wherever the C arithmetic can wrap or a store truncates.
* C loops are functions with a fuel argument; every entry point passes a fuel
  that bounds the number of iterations of the loop it runs.
-/

namespace Sil

/-! ## Constants (`impl/sil_constants.h`) -/

def SMALL_GROUP_MASK : Nat := 0x3FF
def SMALL_GROUP_SHIFT : Nat := 6
def SMALL_GROUP_FLAGS : Nat := 0x3F
def SMALL_GROUP_4BYTE_VALUE : Nat := 0x1F
def SMALL_GROUP_2BYTE_VALUE : Nat := 0x1E
def SMALL_GROUP_1BYTE_VALUE : Nat := 0x1D
def SMALL_GROUP_POS_MASK : Nat := 0x20
def SMALL_GROUP_VALUE_PRESENT_MASK : Nat := 0x10
def SMALL_GROUP_4BYTE_POS_VALUE : Nat := 0xFF
def SMALL_GROUP_2BYTE_POS_VALUE : Nat := 0xFE
def FIRST_POSITION_BASE : Nat := 0x180
def SMALL_GROUP_POS_LENGTH_MASK : Nat := 0xF
def SMALL_GROUP_EXTENDED_POS_LENGTH : Nat := 0xC
def GROUP_4BYTE_LENGTH : Nat := 0xFF
def GROUP_2BYTE_LENGTH : Nat := 0xFE

/-- Size in bytes of `sil_term_header_t` (two `uint32_t` fields). -/
def SIZEOF_TERM_HEADER : Nat := 8

/-! ## Loads and stores -/

/-- Load `*(uint8_t *)p`; bytes outside the buffer read as 0. -/
def rd8 (mem : List Nat) (p : Nat) : Nat := mem.getD p 0

/-- Load `*(uint16_t *)p`, little-endian. -/
def rd16 (mem : List Nat) (p : Nat) : Nat := rd8 mem p + 256 * rd8 mem (p + 1)

/-- Load `*(uint32_t *)p`, little-endian. -/
def rd32 (mem : List Nat) (p : Nat) : Nat :=
  rd8 mem p + 256 * rd8 mem (p + 1) + 65536 * rd8 mem (p + 2) + 16777216 * rd8 mem (p + 3)

/-- The two bytes appended for a `uint16_t` (the value is truncated to 16 bits). -/
def le16 (v : Nat) : List Nat := [v % 256, v / 256 % 256]

/-- The four bytes appended for a `uint32_t` (the value is truncated to 32 bits). -/
def le32 (v : Nat) : List Nat :=
  [v % 256, v / 256 % 256, v / 65536 % 256, v / 16777216 % 256]

/-- The difference `a - b` in `uint32_t` arithmetic (modulo 2^32). -/
def sub32 (a b : Nat) : Nat :=
  if b ≤ a then (a - b) % 2 ^ 32 else (2 ^ 32 - (b - a) % 2 ^ 32) % 2 ^ 32

/-! ## Varint codec -/

/-- The `do ... while (value != 0)` loop of `encode_high_bit`. -/
def encode_high_bit_loop : Nat → Nat → List Nat
  | 0, _ => []
  | fuel + 1, value =>
    let byte := value &&& 0x7F
    let value := value >>> 7
    if value ≠ 0 then (byte ||| 0x80) :: encode_high_bit_loop fuel value
    else [byte]

/-- The bytes `encode_high_bit` appends for a `uint32_t` value: five iterations
exhaust every 32-bit value. -/
def encode_high_bit (value : Nat) : List Nat :=
  encode_high_bit_loop 5 (value % 2 ^ 32)

/-- The decoder `__decode_high_bit32(&value, p)` of `sil_term_impl.h`: returns
the decoded value and the advanced pointer. -/
def __decode_high_bit32 (mem : List Nat) (p : Nat) : Nat × Nat :=
  let v := rd8 mem p
  let p := p + 1
  if v &&& 0x80 = 0 then (v, p)
  else
    let v := v - 0x80
    let bits := rd8 mem p
    let p := p + 1
    if bits &&& 0x80 = 0 then (v ||| (bits <<< 7), p)
    else
      let bits := bits - 0x80
      let value := v ||| (bits <<< 7)
      let bits := rd8 mem p
      let p := p + 1
      if bits &&& 0x80 = 0 then (value ||| (bits <<< 14), p)
      else
        let bits := bits - 0x80
        let value := value ||| (bits <<< 14)
        let bits := rd8 mem p
        let p := p + 1
        if bits &&& 0x80 = 0 then (value ||| (bits <<< 21), p)
        else
          let bits := bits - 0x80
          let _value := value ||| (bits <<< 21)
          let bits := rd8 mem p
          let p := p + 1
          ((v ||| (bits <<< 28)) % 2 ^ 32, p)

/-! ## Index builder (`sil_search_builder.c`) -/

/-- One record of the term-data sort, `term_data_t`, without the term bytes. -/
structure term_data_t where
  id : Nat
  position : Nat
  value : Nat
  deriving DecidableEq, Repr

/-- The bytes `encode_single_value` appends (index builder: `sid` is a
`uint16_t` control word). -/
def encode_single_value (sid value : Nat) : List Nat :=
  if value < SMALL_GROUP_1BYTE_VALUE then le16 (sid ||| value)
  else if value < 256 then le16 (sid ||| SMALL_GROUP_1BYTE_VALUE) ++ [value % 256]
  else if value < 65536 then le16 (sid ||| SMALL_GROUP_2BYTE_VALUE) ++ le16 value
  else le16 (sid ||| SMALL_GROUP_4BYTE_VALUE) ++ le32 value

/-- The bytes `encode_position_value` stores in `value_data` (their number is
the returned length). -/
def encode_position_value (value : Nat) : List Nat :=
  if value < SMALL_GROUP_2BYTE_POS_VALUE then [value % 256]
  else if value < SMALL_GROUP_4BYTE_POS_VALUE then SMALL_GROUP_2BYTE_POS_VALUE :: le16 value
  else SMALL_GROUP_4BYTE_POS_VALUE :: le32 value

/-- The `while (p < ep)` loop of `encode_term_positions`: delta-encodes the
positions, starting from `last_pos`. -/
def encode_term_positions_loop : Nat → List Nat → List Nat
  | _, [] => []
  | last_pos, pos :: rest =>
    let delta := sub32 pos last_pos
    encode_high_bit delta ++ encode_term_positions_loop pos rest

/-- The function `encode_term_positions` on the positions of the records
`[p, ep)`: the bytes appended and the returned `first_base`. The range is never
empty where the builders call it; an empty one is given base 0 here. -/
def encode_term_positions (positions : List Nat) : List Nat × Nat :=
  let first_base := positions.headD 0 &&& FIRST_POSITION_BASE
  (encode_term_positions_loop first_base positions, first_base)

/-- The function `compress_single_id`: bytes appended to `group_bh` for the
records `cur :: rest` (the range `[cur, p)`) of one document, and the returned
`num_positions`. `sid` is a `uint16_t`. -/
def compress_single_id (sid : Nat) (cur : term_data_t) (rest : List term_data_t) :
    List Nat × Nat :=
  if rest.length + 1 = 1 ∧ cur.position = 0 then
    (encode_single_value sid cur.value, 0)
  else
    let has_value := decide (cur.position = 0 ∧ cur.value ≠ 0)
    let sid := if has_value then sid ||| SMALL_GROUP_VALUE_PRESENT_MASK else sid
    let value_data := if has_value then encode_position_value cur.value else []
    let p2 := if has_value then rest else cur :: rest
    let num_positions := p2.length % 2 ^ 32
    let enc := encode_term_positions (p2.map term_data_t.position)
    let tmp := enc.1
    let first_base := enc.2
    let len := sub32 tmp.length 1
    let sid := sid ||| SMALL_GROUP_POS_MASK
    let sid := sid ||| (first_base >>> 7)
    if len < 0x3 then
      let sid := sid ||| (len <<< 2)
      (le16 sid ++ value_data ++ tmp, num_positions)
    else
      let sid := sid ||| SMALL_GROUP_EXTENDED_POS_LENGTH
      (le16 sid ++ value_data ++ encode_high_bit len ++ tmp, num_positions)

/-- The outer loop of `compress_small_group_data_into_group`: returns the bytes
of `group_bh`, the number of increments of `*document_frequency` and
`max_positions`. -/
def compress_small_group_loop : Nat → List term_data_t → List Nat × Nat × Nat
  | 0, _ => ([], 0, 0)
  | _ + 1, [] => ([], 0, 0)
  | fuel + 1, cur :: rest =>
    let id := cur.id &&& SMALL_GROUP_MASK
    let same := fun (r : term_data_t) => decide (id = r.id &&& SMALL_GROUP_MASK)
    let run := rest.takeWhile same
    let sid := (id <<< SMALL_GROUP_SHIFT) % 2 ^ 16
    let one := compress_single_id sid cur run
    let more := compress_small_group_loop fuel (rest.dropWhile same)
    (one.1 ++ more.1, 1 + more.2.1, if one.2 > more.2.2 then one.2 else more.2.2)

/-- The function `compress_small_group_data_into_group` on the records
`[p, ep)` of one mid group. -/
def compress_small_group_data_into_group (records : List term_data_t) :
    List Nat × Nat × Nat :=
  compress_small_group_loop records.length records

/-- The bytes `encode_group_to_buffer` appends: group id, length prefix, and
the first `len` bytes of the group, `len` being a `uint32_t`. -/
def encode_group_to_buffer (gid : Nat) (group : List Nat) : List Nat :=
  let len := group.length % 2 ^ 32
  let pre :=
    if len < GROUP_2BYTE_LENGTH then [len % 256]
    else if len < 65536 then GROUP_2BYTE_LENGTH :: le16 len
    else GROUP_4BYTE_LENGTH :: le32 len
  gid % 256 :: (pre ++ group.take len)

/-- The inner `while (p2 < p)` loop of `compress_groups` over the records of
one top group: bytes of `bhs[1]`, document-frequency increments, max positions. -/
def compress_mid_groups_loop : Nat → List term_data_t → List Nat × Nat × Nat
  | 0, _ => ([], 0, 0)
  | _ + 1, [] => ([], 0, 0)
  | fuel + 1, cur2 :: rest =>
    let id := cur2.id &&& 0x3FFFC00
    let same := fun (r : term_data_t) => decide (id = r.id &&& 0x3FFFC00)
    let run := rest.takeWhile same
    let g := compress_small_group_data_into_group (cur2 :: run)
    let group_id := (cur2.id &&& 0x3FC00) >>> 10
    let more := compress_mid_groups_loop fuel (rest.dropWhile same)
    (encode_group_to_buffer group_id g.1 ++ more.1, g.2.1 + more.2.1,
      if g.2.2 > more.2.2 then g.2.2 else more.2.2)

/-- The outer `while (p < ep)` loop of `compress_groups`: bytes of `bhs[0]`,
document-frequency increments, max positions. -/
def compress_groups_loop : Nat → List term_data_t → List Nat × Nat × Nat
  | 0, _ => ([], 0, 0)
  | _ + 1, [] => ([], 0, 0)
  | fuel + 1, cur :: rest =>
    let id := cur.id &&& 0x3FC0000
    let same := fun (r : term_data_t) => decide (id = r.id &&& 0x3FC0000)
    let run := rest.takeWhile same
    let mid := compress_mid_groups_loop (run.length + 1) (cur :: run)
    let group_id := (cur.id &&& 0x3FC0000) >>> 18
    let more := compress_groups_loop fuel (rest.dropWhile same)
    (encode_group_to_buffer group_id mid.1 ++ more.1, mid.2.1 + more.2.1,
      if mid.2.2 > more.2.2 then mid.2.2 else more.2.2)

/-- The function `compress_groups` on the records `[p, ep)` of one term: the
posting blob left in `bhs[0]`, the value added to `*document_frequency`
(a `uint32_t`) and the returned `max_positions`. -/
def compress_groups (records : List term_data_t) : List Nat × Nat × Nat :=
  let r := compress_groups_loop records.length records
  (r.1, r.2.1 % 2 ^ 32, r.2.2)

/-- The record `sil_search_builder_destroy` writes to the term-data file for
one term: `u32 len`, the term header, the posting blob, where
`len = blob length + sizeof(sil_term_header_t)`. -/
def term_record (records : List term_data_t) : List Nat :=
  let c := compress_groups records
  let len := (c.1.length + SIZEOF_TERM_HEADER) % 2 ^ 32
  le32 len ++ (le32 c.2.2 ++ le32 c.2.1) ++ c.1

/-- The term-data file written by `sil_search_builder_destroy` for the terms of
the sorted record stream, given as one record list per term, in term order. -/
def term_data_file : List (List term_data_t) → List Nat
  | [] => []
  | t :: ts => term_record t ++ term_data_file ts

/-- The offsets `offs` written to the term index, one per term: `offs` starts
at 4 and grows by `len + 4` after each term. -/
def term_offsets : Nat → List (List term_data_t) → List Nat
  | _, [] => []
  | offs, t :: ts =>
    offs :: term_offsets (offs + ((compress_groups t).1.length + SIZEOF_TERM_HEADER) % 2 ^ 32 + 4) ts

/-! ## Term cursor (`impl/sil_term_impl.h`, `sil_search_image.c`) -/

/-- The callback stored in `pub.c.advance`. -/
inductive advance_cb where
  | null
  | sil_search_image_first_advance
  | sil_search_image_advance
  | sil_document_image_advance
  | sil_document_image_advance_next
  deriving DecidableEq, Repr

/-- The cursor `sil_term_ext_t` with the public fields of `sil_term_t` it
embeds. Pointers are offsets into the buffer the cursor reads; `term_positions`
is the content of `[term_positions, term_positions_end)`. -/
structure sil_term_ext_t where
  id : Nat
  advance : advance_cb
  value : Nat
  term_positions : List Nat
  max_term_size : Nat
  document_frequency : Nat
  gid : Nat
  first_base : Nat
  wp : Nat
  tp : Nat
  etp : Nat
  p : Nat
  ep : Nat
  deriving DecidableEq, Repr

/-- The cursor as `aml_pool_zalloc` returns it: every field zero. -/
def zalloc_term : sil_term_ext_t :=
  { id := 0, advance := advance_cb.null, value := 0, term_positions := [], max_term_size := 0,
    document_frequency := 0, gid := 0, first_base := 0, wp := 0, tp := 0, etp := 0,
    p := 0, ep := 0 }

/-- The function `extract_group_bytes(&sp, p)`: returns `sp` (start of the
group's bytes) and the returned end pointer. -/
def extract_group_bytes (mem : List Nat) (p : Nat) : Nat × Nat :=
  let control := rd8 mem p
  let p := p + 1
  if control < GROUP_2BYTE_LENGTH then (p, p + control)
  else if control = GROUP_2BYTE_LENGTH then
    let len := rd16 mem p
    let p := p + 2
    (p, p + len)
  else
    let len := rd32 mem p
    let p := p + 4
    (p, p + len)

/-- The function `decode_position_value(&value, p)`: the value and the
returned pointer. -/
def decode_position_value (mem : List Nat) (p : Nat) : Nat × Nat :=
  if rd8 mem p < SMALL_GROUP_2BYTE_POS_VALUE then (rd8 mem p, p + 1)
  else if rd8 mem p < SMALL_GROUP_4BYTE_POS_VALUE then
    let p := p + 1
    (rd16 mem p, p + 2)
  else
    let p := p + 1
    (rd32 mem p, p + 4)

/-- The function `decode_term_positions(&sp, &first_base, flags, p)`: returns
`sp`, `first_base` and the returned pointer. -/
def decode_term_positions (mem : List Nat) (flags p : Nat) : Nat × Nat × Nat :=
  let flags := flags &&& SMALL_GROUP_POS_LENGTH_MASK
  let first_base := (flags &&& 0x3) <<< 7
  let flags := flags >>> 2
  if flags < 0x3 then (p, first_base, p + flags + 1)
  else
    let d := __decode_high_bit32 mem p
    let flags := d.1
    let p := d.2
    (p, first_base, p + flags + 1)

/-- The function `decode_single_value(&value, flags, p)`: the value and the
returned pointer. -/
def decode_single_value (mem : List Nat) (flags p : Nat) : Nat × Nat :=
  if flags < SMALL_GROUP_1BYTE_VALUE then (flags, p)
  else if flags = SMALL_GROUP_1BYTE_VALUE then (rd8 mem p, p + 1)
  else if flags = SMALL_GROUP_2BYTE_VALUE then (rd16 mem p, p + 2)
  else (rd32 mem p, p + 4)

/-- The function `advance_id`: decodes the inner record at `t->p`. `pub.value`
is written only where the C code writes it. -/
def advance_id (mem : List Nat) (t : sil_term_ext_t) : sil_term_ext_t :=
  let p := t.p
  let control := rd16 mem p
  let p := p + 2
  let id := control >>> SMALL_GROUP_SHIFT
  let flags := control &&& SMALL_GROUP_FLAGS
  let t := { t with id := (id + t.gid) % 2 ^ 32 }
  if flags &&& SMALL_GROUP_POS_MASK ≠ 0 then
    let v :=
      if flags &&& SMALL_GROUP_VALUE_PRESENT_MASK ≠ 0 then decode_position_value mem p
      else (t.value, p)
    let d := decode_term_positions mem flags v.2
    { t with value := v.1, wp := d.1, first_base := d.2.1, p := d.2.2 }
  else
    let d := decode_single_value mem flags p
    { t with value := d.1, p := d.2, wp := d.2 }

/-- The function `advance_document_id`: decodes the inner record of a
single-document image, whose control word is one byte. -/
def advance_document_id (mem : List Nat) (t : sil_term_ext_t) : sil_term_ext_t :=
  let p := t.p
  let control := rd8 mem p
  let p := p + 1
  let flags := control
  let t := { t with id := 1 }
  if flags &&& SMALL_GROUP_POS_MASK ≠ 0 then
    let v :=
      if flags &&& SMALL_GROUP_VALUE_PRESENT_MASK ≠ 0 then decode_position_value mem p
      else (t.value, p)
    let d := decode_term_positions mem flags v.2
    { t with value := v.1, wp := d.1, first_base := d.2.1, p := d.2.2 }
  else
    let d := decode_single_value mem flags p
    { t with value := d.1, p := d.2, wp := d.2 }

/-- The `while (p < ep)` loop of `sil_term_decode_positions`: the positions
written to `term_positions`, in order. -/
def decode_positions_loop : Nat → List Nat → Nat → Nat → Nat → List Nat
  | 0, _, _, _, _ => []
  | fuel + 1, mem, p, ep, last_pos =>
    if p < ep then
      let d := __decode_high_bit32 mem p
      let last_pos := (last_pos + d.1) % 2 ^ 32
      last_pos :: decode_positions_loop fuel mem d.2 ep last_pos
    else []

/-- The function `sil_term_decode_positions`: fills `term_positions` from the
bytes `[wp, p)` of the current record. -/
def sil_term_decode_positions (mem : List Nat) (t : sil_term_ext_t) : sil_term_ext_t :=
  { t with term_positions := decode_positions_loop (t.p - t.wp) mem t.wp t.p t.first_base }

/-- The function `advance_group`: fuel counts the calls, each of which but the
last moves `tp` forward. -/
def advance_group_loop : Nat → List Nat → sil_term_ext_t → Bool × sil_term_ext_t
  | 0, _, t => (false, t)
  | fuel + 1, mem, t =>
    if t.ep < t.tp then
      let control := rd8 mem t.ep
      let g := control <<< 10
      let e := extract_group_bytes mem (t.ep + 1)
      (true, { t with p := e.1, ep := e.2, gid := (t.gid &&& 0x3FC0000) ||| g })
    else if t.tp < t.etp then
      let control := rd8 mem t.tp
      let g := control <<< 18
      let e := extract_group_bytes mem (t.tp + 1)
      advance_group_loop fuel mem { t with ep := e.1, tp := e.2, gid := g }
    else (false, t)

/-- The function `advance_group`. -/
def advance_group (mem : List Nat) (t : sil_term_ext_t) : Bool × sil_term_ext_t :=
  advance_group_loop (t.etp - t.tp + 1) mem t

/-- The `while (t->ep < t->tp)` loop of `advance_group_to` with the
`return advance_group(t)` that follows it. -/
def advance_group_to_mid_loop : Nat → List Nat → sil_term_ext_t → Nat → Bool × sil_term_ext_t
  | 0, mem, t, _ => advance_group mem t
  | fuel + 1, mem, t, target =>
    if t.ep < t.tp then
      let control := rd8 mem t.ep
      let e := extract_group_bytes mem (t.ep + 1)
      let t := { t with p := e.1, ep := e.2 }
      if control ≥ target then
        let g := control <<< 10
        (true, { t with gid := (t.gid &&& 0x3FC0000) ||| g })
      else advance_group_to_mid_loop fuel mem t target
    else advance_group mem t

/-- The `while (t->tp < t->etp)` loop of `advance_group_to` with the
`return false` that follows it; `again` is the recursive call
`advance_group_to(t, gid)`. -/
def advance_group_to_top_loop (again : sil_term_ext_t → Bool × sil_term_ext_t) :
    Nat → List Nat → sil_term_ext_t → Nat → Bool × sil_term_ext_t
  | 0, _, t, _ => (false, t)
  | fuel + 1, mem, t, target =>
    if t.tp < t.etp then
      let control := rd8 mem t.tp
      let e := extract_group_bytes mem (t.tp + 1)
      let t := { t with ep := e.1, tp := e.2 }
      if control ≥ target then
        let g := control <<< 18
        again { t with gid := g }
      else advance_group_to_top_loop again fuel mem t target
    else (false, t)

/-- The function `advance_group_to`; fuel counts the nested calls. -/
def advance_group_to_loop : Nat → List Nat → sil_term_ext_t → Nat → Bool × sil_term_ext_t
  | 0, _, t, _ => (false, t)
  | fuel + 1, mem, t, gid =>
    let g := t.gid
    if g ≥ gid then (true, t)
    else if g &&& 0x3FC0000 = gid &&& 0x3FC0000 then
      let target := (gid &&& 0x3FC00) >>> 10
      advance_group_to_mid_loop (t.tp - t.ep) mem t target
    else
      let target := (gid &&& 0x3FC0000) >>> 18
      advance_group_to_top_loop (fun t1 => advance_group_to_loop fuel mem t1 gid)
        (t.etp - t.tp) mem t target

/-- The function `advance_group_to`: a nested call is made with the top group
already at or beyond the target, so it makes no further nested call. -/
def advance_group_to (mem : List Nat) (t : sil_term_ext_t) (gid : Nat) :
    Bool × sil_term_ext_t :=
  advance_group_to_loop 3 mem t gid

/-- The function `sil_search_image_advance`. -/
def sil_search_image_advance (mem : List Nat) (t : sil_term_ext_t) : Bool × sil_term_ext_t :=
  if t.p < t.ep then (true, advance_id mem t)
  else
    let g := advance_group mem t
    if g.1 then (true, advance_id mem g.2)
    else (false, g.2)

/-- The function `sil_search_image_first_advance`. -/
def sil_search_image_first_advance (t : sil_term_ext_t) : Bool × sil_term_ext_t :=
  (true, { t with advance := advance_cb.sil_search_image_advance })

/-- The loop `while (id > t->pub.c.id && t->p < t->ep) advance_id(t)`. -/
def advance_to_id_loop : Nat → List Nat → sil_term_ext_t → Nat → sil_term_ext_t
  | 0, _, t, _ => t
  | fuel + 1, mem, t, id =>
    if id > t.id ∧ t.p < t.ep then advance_to_id_loop fuel mem (advance_id mem t) id
    else t

/-- The tail of `sil_search_image_advance_to` from its `while` loop on. -/
def advance_to_tail (mem : List Nat) (t : sil_term_ext_t) (id : Nat) : Bool × sil_term_ext_t :=
  let t := advance_to_id_loop (t.ep - t.p) mem t id
  if id ≤ t.id then (true, t)
  else
    let g := advance_group mem t
    if ¬ g.1 then (false, g.2)
    else (true, advance_id mem g.2)

/-- The function `sil_search_image_advance_to`. -/
def sil_search_image_advance_to (mem : List Nat) (t : sil_term_ext_t) (id : Nat) :
    Bool × sil_term_ext_t :=
  if id ≤ t.id then (true, t)
  else
    let gid := id &&& 0x3FFFC00
    if t.gid < gid then
      let g := advance_group_to mem t gid
      if ¬ g.1 then (false, g.2)
      else
        let t := advance_id mem g.2
        if gid < t.gid then (true, t)
        else advance_to_tail mem t id
    else advance_to_tail mem t id

/-- The function `fill_term` of `sil_search_image.c`, from the offset `offs`
read from the term index on: `mem` is the loaded term-data file. -/
def fill_term (mem : List Nat) (offs : Nat) : sil_term_ext_t :=
  let r := zalloc_term
  let header := offs
  let tp := header
  let len := rd32 mem (tp - 4)
  let tp := tp + SIZEOF_TERM_HEADER
  let etp := tp + len
  let control := rd8 mem tp
  let e := extract_group_bytes mem (tp + 1)
  let ep := e.1
  let tp := e.2
  let gid := control <<< 18
  let control := rd8 mem ep
  let e := extract_group_bytes mem (ep + 1)
  let p := e.1
  let ep := e.2
  let g := control <<< 10
  let gid := gid ||| g
  let r := { r with tp := tp, etp := etp, ep := ep, p := p, gid := gid, wp := 0, value := 0 }
  let r := advance_id mem r
  let r := { r with max_term_size := rd32 mem header, document_frequency := rd32 mem (header + 4) }
  { r with advance := advance_cb.sil_search_image_first_advance }

/-- The function `sil_document_image_advance`. -/
def sil_document_image_advance (t : sil_term_ext_t) : Bool × sil_term_ext_t :=
  (true, { t with advance := advance_cb.sil_document_image_advance_next })

/-- The function `sil_document_image_advance_next`; the effect of
`atl_cursor_empty` on the cursor is not modelled. -/
def sil_document_image_advance_next (t : sil_term_ext_t) : Bool × sil_term_ext_t :=
  (false, t)

/-- The call `t->advance(t)` through the stored callback (a cursor whose
callback was never set is left alone). -/
def advance (mem : List Nat) (t : sil_term_ext_t) : Bool × sil_term_ext_t :=
  match t.advance with
  | advance_cb.null => (false, t)
  | advance_cb.sil_search_image_first_advance => sil_search_image_first_advance t
  | advance_cb.sil_search_image_advance => sil_search_image_advance mem t
  | advance_cb.sil_document_image_advance => sil_document_image_advance t
  | advance_cb.sil_document_image_advance_next => sil_document_image_advance_next t

/-- Runs `t->advance(t)` `n` times: the result of each call with the id, the
value and the decoded positions the cursor shows after it. -/
def advance_trace (mem : List Nat) : Nat → sil_term_ext_t → List (Bool × Nat × Nat × List Nat)
  | 0, _ => []
  | n + 1, t =>
    let r := advance mem t
    let d := sil_term_decode_positions mem r.2
    (r.1, d.id, d.value, d.term_positions) :: advance_trace mem n r.2

/-! ## Concrete inputs -/

/-- The records of scenario S3: one doc-level record for each of the ids
0, 1023, 1024, 262143, 262144. -/
def s3_records : List term_data_t :=
  [⟨0, 0, 0⟩, ⟨1023, 0, 0⟩, ⟨1024, 0, 0⟩, ⟨262143, 0, 0⟩, ⟨262144, 0, 0⟩]

/-- A term with one record in each of the documents 0..40, each added by
`term_value(65536, ..)`; its term-data record is 258 bytes long. -/
def wide_records : List term_data_t :=
  (List.range 41).map (fun i => ⟨i, 0, 65536⟩)

/-- The set of distinct doc ids among the records of a term. -/
def doc_ids (l : List term_data_t) : Finset Nat := (l.map term_data_t.id).toFinset

/-- The order of the term-data sort within one term after its reducer dropped
equal keys: strictly ascending in `(id, position)`. -/
def sort_lt (a b : term_data_t) : Prop :=
  a.id < b.id ∨ (a.id = b.id ∧ a.position < b.position)

instance (a b : term_data_t) : Decidable (sort_lt a b) := by
  unfold sort_lt; infer_instance

/-- The records of document `d` among the records of a term. -/
def doc_records (l : List term_data_t) (d : Nat) : List term_data_t :=
  l.filter (fun r => decide (r.id = d))

/-- The largest number in a list, 0 for the empty list. -/
def list_max (l : List Nat) : Nat := l.foldr max 0

/-- The largest value of a per-document count `f` over the documents of a term. -/
def max_over_docs (f : List term_data_t → Nat) (l : List term_data_t) : Nat :=
  list_max (l.map (fun r => f (doc_records l r.id)))

/-- The position count of a document as the data model reads it: the number
of its records whose position is not 0. -/
def position_count (rs : List term_data_t) : Nat :=
  (rs.filter (fun r => decide (r.position ≠ 0))).length

/-- The number of positions the builder stores for a document: its records
with a position other than 0, and one more for a record with position 0 and
value 0 that shares the document with a record at another position. -/
def stored_position_count (rs : List term_data_t) : Nat :=
  position_count rs +
    (if rs.any (fun r => decide (r.position = 0 ∧ r.value = 0)) ∧
        rs.any (fun r => decide (r.position ≠ 0)) then 1 else 0)

/-! ## Single-document builder and image (`sil_document_builder.c`, `sil_document_image.c`)

`encode_high_bit`, `encode_position_value` and `encode_term_positions` of
`sil_document_builder.c` are copies of the functions of the same names in
`sil_search_builder.c` and share their embedding. -/

/-- The `strlen` scan from `p`, stopping at the first zero byte. -/
def strlen_loop : Nat → List Nat → Nat → Nat
  | 0, _, _ => 0
  | fuel + 1, mem, p => if rd8 mem p = 0 then 0 else 1 + strlen_loop fuel mem (p + 1)

/-- The call `strlen(p)` on a string inside the buffer. -/
def strlen (mem : List Nat) (p : Nat) : Nat := strlen_loop (mem.length - p) mem p

namespace document_builder

/-- One pending record of the single-document builder, `term_data_t` of
`sil_document_builder.c`, without the term bytes. -/
structure term_data_t where
  position : Nat
  value : Nat
  deriving DecidableEq, Repr

/-- The bytes `encode_single_value` of `sil_document_builder.c` appends: here
`sid` is a `uint8_t` control byte. -/
def encode_single_value (sid value : Nat) : List Nat :=
  if value < SMALL_GROUP_1BYTE_VALUE then [(sid ||| value) % 256]
  else if value < 256 then [(sid ||| SMALL_GROUP_1BYTE_VALUE) % 256] ++ [value % 256]
  else if value < 65536 then [(sid ||| SMALL_GROUP_2BYTE_VALUE) % 256] ++ le16 value
  else [(sid ||| SMALL_GROUP_4BYTE_VALUE) % 256] ++ le32 value

/-- The function `compress_term`: the bytes appended to `bh` for the records
`cur :: rest` (the range `[cur, p)`) of one term, `term` being the bytes of
the term without the terminating zero. -/
def compress_term (term : List Nat) (cur : term_data_t) (rest : List term_data_t) :
    List Nat :=
  let name := term ++ [0]
  let sid := 0
  if rest.length + 1 = 1 ∧ cur.position = 0 then
    name ++ encode_single_value sid cur.value
  else
    let has_value := decide (cur.position = 0 ∧ cur.value ≠ 0)
    let sid := if has_value then sid ||| SMALL_GROUP_VALUE_PRESENT_MASK else sid
    let value_data := if has_value then encode_position_value cur.value else []
    let p2 := if has_value then rest else cur :: rest
    let enc := encode_term_positions (p2.map term_data_t.position)
    let tmp := enc.1
    let first_base := enc.2
    let len := sub32 tmp.length 1
    let sid := sid ||| SMALL_GROUP_POS_MASK
    let sid := sid ||| (first_base >>> 7)
    if len < 0x3 then
      let sid := sid ||| (len <<< 2)
      name ++ [sid % 256] ++ value_data ++ tmp
    else
      let sid := sid ||| SMALL_GROUP_EXTENDED_POS_LENGTH
      name ++ [sid % 256] ++ value_data ++ encode_high_bit len ++ tmp

end document_builder

namespace document_image

/-- The function `fill_term` of `sil_document_image.c`: `mem` is the document
buffer, `termp` the offset of the term's entry in its term block; the cursor
comes from `aml_pool_zalloc`. -/
def fill_term (mem : List Nat) (termp : Nat) : sil_term_ext_t :=
  let r := zalloc_term
  let p := termp
  let p := p + strlen mem p + 1
  let r := { r with gid := 1, id := 1, p := p, wp := 0 }
  let r := advance_document_id mem r
  let r := { r with max_term_size := r.p - r.wp, document_frequency := 1 }
  { r with advance := advance_cb.sil_document_image_advance }

end document_image

/-! ## Buffers holding given bytes -/

/-- The buffer `mem` holds the bytes `bs` from offset `p` on. -/
def holds (mem : List Nat) : Nat → List Nat → Prop
  | _, [] => True
  | p, b :: bs => rd8 mem p = b ∧ holds mem (p + 1) bs

/-! ## Auxiliary views of the record codec

The definitions below restate parts of the functions above in a form shared by
the index builder and the single-document builder; the theorems relate them to
the embedded functions. -/

/-- The flag bits and trailing bytes of the single-value form of an inner
record (`encode_single_value` without the id bits of the control word). -/
def value_code (v : Nat) : Nat × List Nat :=
  if v < SMALL_GROUP_1BYTE_VALUE then (v, [])
  else if v < 256 then (SMALL_GROUP_1BYTE_VALUE, [v % 256])
  else if v < 65536 then (SMALL_GROUP_2BYTE_VALUE, le16 v)
  else (SMALL_GROUP_4BYTE_VALUE, le32 v)

/-- The flag bits and trailing bytes of the positional form of an inner
record: `hv` tells whether a value `v` precedes the positions `ps`. -/
def positions_code (hv : Bool) (v : Nat) (ps : List Nat) : Nat × List Nat :=
  let enc := encode_term_positions ps
  let len := sub32 enc.1.length 1
  let h := if hv then SMALL_GROUP_VALUE_PRESENT_MASK else 0
  let vd := if hv then encode_position_value v else []
  if len < 0x3 then
    (((h ||| SMALL_GROUP_POS_MASK) ||| (enc.2 >>> 7)) ||| (len <<< 2), vd ++ enc.1)
  else
    (((h ||| SMALL_GROUP_POS_MASK) ||| (enc.2 >>> 7)) ||| SMALL_GROUP_EXTENDED_POS_LENGTH,
      vd ++ encode_high_bit len ++ enc.1)

/-- The positions blob `tmp_bh` that `compress_single_id` builds for the
records `cur :: rest` of one document: the varints of the records behind the
value record, if there is one. -/
def single_id_blob (cur : term_data_t) (rest : List term_data_t) : List Nat :=
  (encode_term_positions
    ((if cur.position = 0 ∧ cur.value ≠ 0 then rest else cur :: rest).map
      term_data_t.position)).1

/-- The positions blob `tmp_bh` that `compress_term` builds for the records
`cur :: rest` of one term of a single document. -/
def document_builder.term_blob (cur : document_builder.term_data_t)
    (rest : List document_builder.term_data_t) : List Nat :=
  (encode_term_positions
    ((if cur.position = 0 ∧ cur.value ≠ 0 then rest else cur :: rest).map
      document_builder.term_data_t.position)).1

/-- The inner record the index builder writes for the records `rs` of one
document: the bytes `compress_single_id` appends when
`compress_small_group_data_into_group` calls it on them, with the control word
made of the low ten bits of the doc id. -/
def inner_record (rs : List term_data_t) : List Nat :=
  match rs with
  | [] => []
  | cur :: run =>
    (compress_single_id (((cur.id &&& SMALL_GROUP_MASK) <<< SMALL_GROUP_SHIFT) % 2 ^ 16)
      cur run).1

/-- A term with the positions 5 and 9 in document 1 and the position 4 in
document 2, each added by `term_position`. -/
def pos_records : List term_data_t := [⟨1, 5, 0⟩, ⟨1, 9, 0⟩, ⟨2, 4, 0⟩]

/-- A cursor over the posting blob of `pos_records` standing at the start of
its only small group (offset 4, behind the two group headers). -/
def pos_cursor : sil_term_ext_t :=
  { zalloc_term with p := 4, ep := 11, tp := 11, etp := 11,
                     advance := advance_cb.sil_search_image_advance }

/-- The records of a term added to document 0 by `term_position` at each of
the positions 1, 2, ..., n. -/
def run_records (n : Nat) : List term_data_t :=
  (List.range' 1 n).map (fun i => ⟨0, i, 0⟩)

/-- The common part of `advance_id` and `advance_document_id` after the
control word is read: `flags` are its flag bits, `p` points behind it. -/
def decode_body (mem : List Nat) (t : sil_term_ext_t) (flags p : Nat) : sil_term_ext_t :=
  if flags &&& SMALL_GROUP_POS_MASK ≠ 0 then
    let v :=
      if flags &&& SMALL_GROUP_VALUE_PRESENT_MASK ≠ 0 then decode_position_value mem p
      else (t.value, p)
    let d := decode_term_positions mem flags v.2
    { t with value := v.1, wp := d.1, first_base := d.2.1, p := d.2.2 }
  else
    let d := decode_single_value mem flags p
    { t with value := d.1, p := d.2, wp := d.2 }

/-- Successive positions that the delta encoding represents exactly: each is at
least its predecessor, less than 2^28 above it, and a `uint32_t`. -/
def deltas_ok : Nat → List Nat → Prop
  | _, [] => True
  | last, x :: xs => last ≤ x ∧ x - last < 2 ^ 28 ∧ x < 2 ^ 32 ∧ deltas_ok x xs

/-! ## C strings -/

/-- The bytes of a C string argument: the bytes before its first zero byte. -/
def cstring (s : List Nat) : List Nat := s.takeWhile (fun c => decide (c ≠ 0))

/-- The C string stored in the buffer at `p`. -/
def cstring_at (mem : List Nat) (p : Nat) : List Nat :=
  (List.range (strlen mem p)).map (fun i => rd8 mem (p + i))

/-- The call `strcmp(a, b)` on two strings given by their bytes (without the
terminating zero): negative, zero or positive; bytes compare as
`unsigned char`. -/
def strcmp : List Nat → List Nat → Int
  | [], [] => 0
  | [], y :: _ => 0 - (y : Int)
  | x :: _, [] => (x : Int)
  | x :: xs, y :: ys => if x = y then strcmp xs ys else (x : Int) - (y : Int)

namespace document_builder

/-- A pending entry of the single-document builder: the `term_data_t` header
and the term bytes stored behind it. -/
structure record where
  data : term_data_t
  term : List Nat
  deriving DecidableEq, Repr

/-- The state `sil_document_builder_s` as far as the term operations and
`sil_document_builder_global` use it: the pending entries of `term_bh` in
insertion order and the BM25 document length. -/
structure sil_document_builder_t where
  term_bh : List record
  document_length_for_bm25 : Nat
  deriving DecidableEq, Repr

/-- The function `sil_document_builder_init`. -/
def sil_document_builder_init : sil_document_builder_t :=
  { term_bh := [], document_length_for_bm25 := 0 }

/-- The byte copied for one byte of the term: `*term - 'A' + 'a'` for a byte in
`'A'..'Z'`, the byte itself otherwise. -/
def fold_byte (c : Nat) : Nat := if c ≥ 65 ∧ c ≤ 90 then c - 65 + 97 else c

/-- The loop `while(*term)` of `_sil_document_builder_term` over the bytes at
`term`: the bytes written behind the `term_data_t` header (the terminating
zero apart). Bytes at the end of the list without a zero after them are
followed by the zero that ends every C string. -/
def copy_term : List Nat → List Nat
  | [] => []
  | c :: term => if c ≠ 0 then fold_byte c :: copy_term term else []

/-- The function `_sil_document_builder_term`: copies the term, folding
`A..Z`, and appends the entry to `term_bh`. -/
def _sil_document_builder_term (h : sil_document_builder_t) (value pos : Nat)
    (term : List Nat) : sil_document_builder_t :=
  let t : term_data_t := { position := pos, value := value }
  { h with term_bh := h.term_bh ++ [{ data := t, term := copy_term term }] }

/-- The function `sil_document_builder_term`. -/
def sil_document_builder_term (h : sil_document_builder_t) (term : List Nat) :
    sil_document_builder_t :=
  _sil_document_builder_term h 0 0 term

/-- The function `sil_document_builder_term_position`. -/
def sil_document_builder_term_position (h : sil_document_builder_t) (pos : Nat)
    (term : List Nat) : sil_document_builder_t :=
  let h := { h with document_length_for_bm25 := (h.document_length_for_bm25 + 1) % 2 ^ 32 }
  _sil_document_builder_term h 0 pos term

/-- The function `sil_document_builder_term_value`. -/
def sil_document_builder_term_value (h : sil_document_builder_t) (value : Nat)
    (term : List Nat) : sil_document_builder_t :=
  _sil_document_builder_term h value 0 term

/-- The function `valid_expansion_term`: its first statement is `return false`. -/
def valid_expansion_term (_term : List Nat) (_len : Nat) : Bool := false

/-- The loop `for (i = term_len + 1; i > sp; i--)` of the `wterm` operations:
`n` counts the iterations left, `i` is the loop variable; each iteration adds
the first `i - 1` bytes of the term followed by `*`. -/
def expansion_loop (add : sil_document_builder_t → List Nat → sil_document_builder_t)
    (term : List Nat) : Nat → Nat → sil_document_builder_t → sil_document_builder_t
  | 0, _, h => h
  | n + 1, i, h => expansion_loop add term n (i - 1) (add h (term.take (i - 1) ++ [42]))

/-- The function `sil_document_builder_wterm`. -/
def sil_document_builder_wterm (h : sil_document_builder_t) (sp : Nat) (term : List Nat) :
    sil_document_builder_t :=
  let h := sil_document_builder_term h term
  let term_len := (cstring term).length
  if ¬ valid_expansion_term term term_len then h
  else expansion_loop sil_document_builder_term (cstring term) (term_len + 1 - sp)
    (term_len + 1) h

/-- The function `sil_document_builder_wterm_position`. -/
def sil_document_builder_wterm_position (h : sil_document_builder_t) (pos sp : Nat)
    (term : List Nat) : sil_document_builder_t :=
  let h := sil_document_builder_term_position h pos term
  let term_len := (cstring term).length
  if ¬ valid_expansion_term term term_len then h
  else expansion_loop (fun h r => _sil_document_builder_term h 0 pos r) (cstring term)
    (term_len + 1 - sp) (term_len + 1) h

/-- The function `sil_document_builder_wterm_value`. -/
def sil_document_builder_wterm_value (h : sil_document_builder_t) (value sp : Nat)
    (term : List Nat) : sil_document_builder_t :=
  let h := sil_document_builder_term_value h value term
  let term_len := (cstring term).length
  if ¬ valid_expansion_term term term_len then h
  else expansion_loop (fun h r => sil_document_builder_term_value h value r) (cstring term)
    (term_len + 1 - sp) (term_len + 1) h

/-- The comparison `compare_term_data`: by term, then by position. -/
def compare_term_data (a b : record) : Bool :=
  let n := strcmp a.term b.term
  if n ≠ 0 then decide (n < 0) else decide (a.data.position < b.data.position)

/-- Modelled from the spec: `sort_term_data`, the instance of `macro_sort`
(the-macro-library, not part of the sources) for `compare_term_data`; the spec
has the pending records sorted by `(term, position)`. The model is an
insertion sort, which keeps the insertion order of records that compare equal. -/
def sort_term_data (l : List record) : List record :=
  l.insertionSort (fun a b => compare_term_data b a = false)

/-- The `while (p < ep)` loop of `sil_document_builder_global` over the
sorted entries: the term block left in `h->bh`. -/
def term_block_loop : Nat → List record → List Nat
  | 0, _ => []
  | _ + 1, [] => []
  | fuel + 1, cur :: rest =>
    let same := fun (r : record) => decide (strcmp cur.term r.term = 0)
    compress_term cur.term cur.data ((rest.takeWhile same).map record.data) ++
      term_block_loop fuel (rest.dropWhile same)

end document_builder

/-- The header `sil_document_header_t`. -/
structure sil_document_header_t where
  document_length_for_bm25 : Nat
  term_length : Nat
  data_length : Nat
  content_length : Nat
  num_embeddings : Nat
  num_terms : Nat
  deriving DecidableEq, Repr

/-- The 24 bytes of a `sil_document_header_t` in memory. -/
def header_bytes (h : sil_document_header_t) : List Nat :=
  le32 h.document_length_for_bm25 ++ le32 h.term_length ++ le32 h.data_length ++
    le32 h.content_length ++ le32 h.num_embeddings ++ le32 h.num_terms

namespace document_builder

/-- The term block `sil_document_builder_global` builds from the pending entries. -/
def term_block (h : sil_document_builder_t) : List Nat :=
  term_block_loop h.term_bh.length (sort_term_data h.term_bh)

/-- The header `sil_document_builder_global` fills in. -/
def global_header (h : sil_document_builder_t) (num_embeddings content_length len : Nat) :
    sil_document_header_t :=
  { document_length_for_bm25 := h.document_length_for_bm25,
    term_length := (term_block h).length % 2 ^ 32,
    data_length := len,
    content_length := content_length,
    num_embeddings := num_embeddings,
    num_terms := (sort_term_data h.term_bh).length % 2 ^ 32 }

/-- The function `sil_document_builder_global`: the bytes left in
`document_bh` and the cleared builder. The pointer arguments `embeddings`,
`content` and `d` are the bytes found there; the call appends
`num_embeddings * 512` (a `uint32_t` product), `content_length` and `len` of
them. -/
def sil_document_builder_global (h : sil_document_builder_t) (embeddings : List Nat)
    (num_embeddings : Nat) (content : List Nat) (content_length : Nat) (d : List Nat)
    (len : Nat) : List Nat × sil_document_builder_t :=
  let bh := term_block h
  let header := global_header h num_embeddings content_length len
  let document_bh := le32 0
  let document_bh := document_bh ++ header_bytes header
  let document_bh := document_bh ++ d.take len
  let document_bh := document_bh ++ bh
  let document_bh := document_bh ++ content.take content_length
  let buffer_length := document_bh.length % 2 ^ 32
  let padding := (64 - (buffer_length &&& 63)) &&& 63
  let document_bh := if padding ≠ 0 then document_bh ++ List.replicate padding 0 else document_bh
  let document_bh := document_bh ++ embeddings.take ((num_embeddings * 512) % 2 ^ 32)
  let document_bh := le32 (sub32 (document_bh.length % 2 ^ 32) 4) ++ document_bh.drop 4
  (document_bh, { term_bh := [], document_length_for_bm25 := 0 })

end document_builder

namespace document_builder

/-- The calls of `compress_term` the loop of `sil_document_builder_global`
makes, in order: for each the term, the first record and the further records
of the term. -/
def term_entries : Nat → List record → List (List Nat × term_data_t × List term_data_t)
  | 0, _ => []
  | _ + 1, [] => []
  | fuel + 1, cur :: rest =>
    let same := fun (r : record) => decide (strcmp cur.term r.term = 0)
    (cur.term, cur.data, (rest.takeWhile same).map record.data) ::
      term_entries fuel (rest.dropWhile same)

/-- The bytes `compress_term` appends for one entry of `term_entries`. -/
def entry_bytes (e : List Nat × term_data_t × List term_data_t) : List Nat :=
  compress_term e.1 e.2.1 e.2.2

/-- The offsets at which the entries begin when the first begins at `base`. -/
def entry_starts : Nat → List (List Nat × term_data_t × List term_data_t) → List Nat
  | _, [] => []
  | base, e :: es => base :: entry_starts (base + (entry_bytes e).length) es

end document_builder

/-! ## Single-document image reader -/

/-- The function `skip_single_value`. -/
def skip_single_value (flags p : Nat) : Nat :=
  if flags < SMALL_GROUP_1BYTE_VALUE then p
  else if flags = SMALL_GROUP_1BYTE_VALUE then p + 1
  else if flags = SMALL_GROUP_2BYTE_VALUE then p + 2
  else p + 4

/-- The function `skip_term_positions`. -/
def skip_term_positions (mem : List Nat) (flags p : Nat) : Nat :=
  let flags := flags &&& SMALL_GROUP_POS_LENGTH_MASK
  let flags := flags >>> 2
  if flags < 0x3 then p + flags + 1
  else
    let d := __decode_high_bit32 mem p
    d.2 + d.1 + 1

/-- The function `skip_position_value`. -/
def skip_position_value (mem : List Nat) (p : Nat) : Nat :=
  if rd8 mem p < SMALL_GROUP_2BYTE_POS_VALUE then p + 1
  else if rd8 mem p < SMALL_GROUP_4BYTE_POS_VALUE then p + 1 + 2
  else p + 1 + 4

/-- The function `sil_skip_id`. -/
def sil_skip_id (mem : List Nat) (p : Nat) : Nat :=
  let control := rd8 mem p
  let p := p + 1
  let flags := control
  if flags &&& SMALL_GROUP_POS_MASK ≠ 0 then
    let p := if flags &&& SMALL_GROUP_VALUE_PRESENT_MASK ≠ 0 then skip_position_value mem p else p
    skip_term_positions mem flags p
  else skip_single_value flags p

/-- The image `sil_document_image_s`; pointers are offsets into the buffer. -/
structure sil_document_image_t where
  document : Nat
  length : Nat
  header : sil_document_header_t
  terms : Nat
  data : Nat
  content : Nat
  embeddings : Nat
  deriving DecidableEq, Repr

/-- The function `sil_document_image_init(image, document, length)`: `mem` is
the memory in which `document` points, taken to start at an address that is a
multiple of 64 (the embeddings pointer is rounded up to such an address). -/
def sil_document_image_init (mem : List Nat) (document length : Nat) : sil_document_image_t :=
  let header : sil_document_header_t :=
    { document_length_for_bm25 := rd32 mem document,
      term_length := rd32 mem (document + 4),
      data_length := rd32 mem (document + 8),
      content_length := rd32 mem (document + 12),
      num_embeddings := rd32 mem (document + 16),
      num_terms := rd32 mem (document + 20) }
  let data := document + 24
  let terms := data + header.data_length
  let content := terms + header.term_length
  let p := content + header.content_length
  let p := (p + 63) / 64 * 64
  { document := document, length := length, header := header, terms := terms, data := data,
    content := content, embeddings := p }

/-- The `while (p < ep)` loop of `sil_document_image_terms`: the pointers
written to the `terms` array, in order. -/
def image_terms_loop : Nat → List Nat → Nat → Nat → List Nat
  | 0, _, _, _ => []
  | fuel + 1, mem, p, ep =>
    if p < ep then
      let q := p + strlen mem p + 1
      let q := sil_skip_id mem q
      p :: image_terms_loop fuel mem q ep
    else []

/-- The function `sil_document_image_terms`: the value stored in `*num_terms`
and the pointers written to the returned array, whose capacity is
`header.num_terms` entries. -/
def sil_document_image_terms (mem : List Nat) (img : sil_document_image_t) : Nat × List Nat :=
  (img.header.num_terms, image_terms_loop (img.content - img.terms) mem img.terms img.content)

/-- The `while (p < ep)` loop of `sil_document_image_match_term`. -/
def match_term_loop : Nat → List Nat → List Nat → Nat → Nat → Option Nat
  | 0, _, _, _, _ => none
  | fuel + 1, mem, term, p, ep =>
    if p < ep then
      let n := strcmp term (cstring_at mem p)
      if n < 0 then none
      else if n = 0 then some p
      else
        let q := p + strlen mem p + 1
        let q := sil_skip_id mem q
        match_term_loop fuel mem term q ep
    else none

/-- The function `sil_document_image_match_term`: `none` is `NULL`. -/
def sil_document_image_match_term (mem : List Nat) (img : sil_document_image_t)
    (term : List Nat) : Option Nat :=
  match_term_loop (img.content - img.terms) mem (cstring term) img.terms img.content

/-- The function `sil_document_image_term`: `none` is `NULL`. A term that is
not found and ends in `*` is looked up again without the `*`. -/
def sil_document_image_term (mem : List Nat) (img : sil_document_image_t) (term : List Nat) :
    Option sil_term_ext_t :=
  let term := cstring term
  match sil_document_image_match_term mem img term with
  | some termp => some (document_image.fill_term mem termp)
  | none =>
    if term ≠ [] ∧ term.getLast? = some 42 then
      let t := term.dropLast
      match sil_document_image_match_term mem img t with
      | some termp => some (document_image.fill_term mem termp)
      | none => none
    else none

/-- The builder of scenario S1 after `term("example")`,
`term_position(10, "positional")`, `term_position(20, "positional")` and
`term_value(42, "vterm")`. -/
def s1_builder : document_builder.sil_document_builder_t :=
  document_builder.sil_document_builder_term_value
    (document_builder.sil_document_builder_term_position
      (document_builder.sil_document_builder_term_position
        (document_builder.sil_document_builder_term document_builder.sil_document_builder_init
          [101, 120, 97, 109, 112, 108, 101, 0])
        10 [112, 111, 115, 105, 116, 105, 111, 110, 97, 108, 0])
      20 [112, 111, 115, 105, 116, 105, 111, 110, 97, 108, 0])
    42 [118, 116, 101, 114, 109, 0]

/-- The buffer `sil_document_builder_global` emits for scenario S1 with no
embeddings, the content `hi` and the four user-data bytes `01 00 00 00`. -/
def s1_document : List Nat :=
  (document_builder.sil_document_builder_global s1_builder [] 0 [104, 105] 2 [1, 0, 0, 0] 4).1

/-- The builder after `term_position(5, "a")` is called twice. -/
def dup_builder : document_builder.sil_document_builder_t :=
  document_builder.sil_document_builder_term_position
    (document_builder.sil_document_builder_term_position
      document_builder.sil_document_builder_init 5 [97, 0])
    5 [97, 0]

/-- The buffer `sil_document_builder_global` emits for `dup_builder` with no
embeddings, no content and no user data. -/
def dup_document : List Nat :=
  (document_builder.sil_document_builder_global dup_builder [] 0 [] 0 [] 0).1

/-! ## Index builder: documents, term operations and the files of `destroy` -/

/-- A `uint64_t` in memory, little-endian. -/
def le64 (v : Nat) : List Nat := le32 (v % 2 ^ 32) ++ le32 (v / 2 ^ 32 % 2 ^ 32)

/-- The header `sil_global_header_t`; `content_offset` is a 36-bit and
`embeddings_offset` a 28-bit field of one `uint64_t`. -/
structure sil_global_header_t where
  document_length : Nat
  num_embeddings : Nat
  content_offset : Nat
  embeddings_offset : Nat
  deriving DecidableEq, Repr

/-- The 16 bytes of a `sil_global_header_t` in memory; the bitfields are packed
low-to-high in the 64-bit word. -/
def global_header_bytes (gh : sil_global_header_t) : List Nat :=
  le32 gh.document_length ++ le32 gh.num_embeddings ++
    le64 (gh.content_offset % 2 ^ 36 + gh.embeddings_offset % 2 ^ 28 * 2 ^ 36)

/-- The constant `sizeof(sil_global_header_t)`. -/
def SIZEOF_GLOBAL_HEADER : Nat := 16

namespace search_builder

/-- A record written to the `term_data` sort: the `term_data_t` header and the
term bytes stored behind it. -/
structure record where
  data : term_data_t
  term : List Nat
  deriving DecidableEq, Repr

/-- The contents of `global_bh`, which is also a record of the `global_data`
sort: the header at its start and the bytes behind the header. -/
structure global_record where
  gh : sil_global_header_t
  rest : List Nat
  deriving DecidableEq, Repr

/-- The bytes of a global record in memory. -/
def global_record.bytes (r : global_record) : List Nat := global_header_bytes r.gh ++ r.rest

/-- The state `sil_search_builder_s` as far as the operations below use it:
`global_bh` is `none` while the buffer is empty; `term_data` and `global_data`
are the records written to the two sorts so far, in the order written. -/
structure sil_search_builder_t where
  global_bh : Option global_record
  term_data : List record
  global_data : List global_record
  max_id : Nat
  current_id : Nat
  document_length : Nat
  total_terms : Nat
  total_documents : Nat
  deriving DecidableEq, Repr

/-- The function `sil_search_builder_init`: the state comes from `aml_zalloc`. -/
def sil_search_builder_init : sil_search_builder_t :=
  { global_bh := none, term_data := [], global_data := [], max_id := 0, current_id := 0,
    document_length := 0, total_terms := 0, total_documents := 0 }

/-- The function `_finish_document`; `total_documents` and `total_terms` are
`size_t`. -/
def _finish_document (h : sil_search_builder_t) : sil_search_builder_t :=
  match h.global_bh with
  | some g =>
    let g := { g with gh := { g.gh with document_length := h.document_length } }
    { h with global_bh := some g,
             total_documents := (h.total_documents + 1) % 2 ^ 64,
             total_terms := (h.total_terms + h.document_length) % 2 ^ 64,
             global_data := h.global_data ++ [g] }
  | none => h

/-- The function `sil_search_builder_global`. The pointer arguments
`embeddings`, `content` and `d` are the bytes found there. -/
def sil_search_builder_global (h : sil_search_builder_t) (embeddings : List Nat)
    (num_embeddings : Nat) (content : List Nat) (content_length : Nat) (d : List Nat)
    (len : Nat) : sil_search_builder_t :=
  let h := _finish_document h
  let gh : sil_global_header_t :=
    { document_length := 0,
      content_offset := (content_length + 4) % 2 ^ 36,
      embeddings_offset := (len + SIZEOF_GLOBAL_HEADER) % 2 ^ 28,
      num_embeddings := num_embeddings }
  let global_bh : List Nat := []
  let global_bh := global_bh ++ d.take len
  let global_bh := global_bh ++ embeddings.take ((num_embeddings * 512) % 2 ^ 32)
  let global_bh := global_bh ++ le32 content_length
  let global_bh := global_bh ++ content.take content_length
  let id := rd32 d 0
  let max_id := if id > h.max_id then id else h.max_id
  { h with global_bh := some { gh := gh, rest := global_bh }, max_id := max_id,
           current_id := id, document_length := 0 }

/-- The function `_sil_search_builder_term`: the record is the `term_data_t`
followed by the `strlen(term) + 1` bytes at `term`. -/
def _sil_search_builder_term (h : sil_search_builder_t) (value pos : Nat) (term : List Nat) :
    sil_search_builder_t :=
  let t : term_data_t := { id := h.current_id, position := pos, value := value }
  { h with term_data := h.term_data ++ [{ data := t, term := cstring term }] }

/-- The function `sil_search_builder_term`. -/
def sil_search_builder_term (h : sil_search_builder_t) (term : List Nat) : sil_search_builder_t :=
  _sil_search_builder_term h 0 0 term

/-- The function `sil_search_builder_term_position`. -/
def sil_search_builder_term_position (h : sil_search_builder_t) (pos : Nat) (term : List Nat) :
    sil_search_builder_t :=
  let h := { h with document_length := (h.document_length + 1) % 2 ^ 32 }
  _sil_search_builder_term h 0 pos term

/-- The function `sil_search_builder_term_value`. -/
def sil_search_builder_term_value (h : sil_search_builder_t) (value : Nat) (term : List Nat) :
    sil_search_builder_t :=
  _sil_search_builder_term h value 0 term

/-- The function `valid_expansion_term` of `sil_search_builder.c`: its first
statement is `return false`. -/
def valid_expansion_term (_term : List Nat) (_len : Nat) : Bool := false

/-- The loop `for (i = term_len + 1; i > sp; i--)` of the `wterm` operations:
`n` counts the iterations left, `i` is the loop variable; each iteration adds
the first `i - 1` bytes of the term followed by `*`. -/
def expansion_loop (add : sil_search_builder_t → List Nat → sil_search_builder_t)
    (term : List Nat) : Nat → Nat → sil_search_builder_t → sil_search_builder_t
  | 0, _, h => h
  | n + 1, i, h => expansion_loop add term n (i - 1) (add h (term.take (i - 1) ++ [42]))

/-- The function `sil_search_builder_wterm`. -/
def sil_search_builder_wterm (h : sil_search_builder_t) (sp : Nat) (term : List Nat) :
    sil_search_builder_t :=
  let h := sil_search_builder_term h term
  let term_len := (cstring term).length
  if ¬ valid_expansion_term term term_len then h
  else expansion_loop sil_search_builder_term (cstring term) (term_len + 1 - sp) (term_len + 1) h

/-- The function `sil_search_builder_wterm_position`. -/
def sil_search_builder_wterm_position (h : sil_search_builder_t) (pos sp : Nat)
    (term : List Nat) : sil_search_builder_t :=
  let h := sil_search_builder_term_position h pos term
  let term_len := (cstring term).length
  if ¬ valid_expansion_term term term_len then h
  else expansion_loop (fun h r => _sil_search_builder_term h 0 pos r) (cstring term)
    (term_len + 1 - sp) (term_len + 1) h

/-- The function `sil_search_builder_wterm_value`. -/
def sil_search_builder_wterm_value (h : sil_search_builder_t) (value sp : Nat)
    (term : List Nat) : sil_search_builder_t :=
  let h := sil_search_builder_term_value h value term
  let term_len := (cstring term).length
  if ¬ valid_expansion_term term term_len then h
  else expansion_loop (fun h r => sil_search_builder_term_value h value r) (cstring term)
    (term_len + 1 - sp) (term_len + 1) h

/-- The files the first loop of `sil_search_builder_destroy` writes. -/
structure global_files where
  out_gbl : List Nat
  out_emb : List Nat
  out_content : List Nat
  deriving DecidableEq, Repr

/-- The loop `while((r=io_in_advance(in)) != NULL)` of
`sil_search_builder_destroy` over the records of the `global_data` sort, in
the order the sort delivers them; `total_embeddings` is a `uint32_t`,
`content_offset` a `uint64_t`. -/
def global_drain_loop : List global_record → Nat → Nat → global_files → global_files
  | [], _, _, out => out
  | r :: rs, total_embeddings, content_offset, out =>
    let main_global_length := r.gh.embeddings_offset % 2 ^ 32
    let content_length := r.gh.content_offset % 2 ^ 32
    let embedding_data := main_global_length
    let content_data := embedding_data + (r.gh.num_embeddings * 512) % 2 ^ 32
    let r : global_record :=
      { r with gh := { r.gh with content_offset := content_offset % 2 ^ 36,
                                 embeddings_offset := total_embeddings % 2 ^ 28 } }
    let out_gbl := out.out_gbl ++ le32 main_global_length
    let out_gbl := out_gbl ++ r.bytes.take main_global_length
    let out_emb := out.out_emb ++
      (r.bytes.drop embedding_data).take ((r.gh.num_embeddings * 512) % 2 ^ 32)
    let out_content := out.out_content ++ (r.bytes.drop content_data).take content_length
    let total_embeddings := (total_embeddings + r.gh.num_embeddings) % 2 ^ 32
    let content_offset := (content_offset + content_length) % 2 ^ 64
    global_drain_loop rs total_embeddings content_offset
      { out_gbl := out_gbl, out_emb := out_emb, out_content := out_content }

/-- The first part of `sil_search_builder_destroy`: the files `_gbl`,
`_embeddings` and `_content`, from the records `sorted` that the `global_data`
sort delivers. -/
def destroy_global_files (sorted : List global_record) : global_files :=
  global_drain_loop sorted 0 0 { out_gbl := [], out_emb := [], out_content := [] }

end search_builder

/-- The function `sil_search_image_content`: the offset in the loaded `_content`
file of the pointer it returns. -/
def sil_search_image_content (gh : sil_global_header_t) : Nat := gh.content_offset

namespace search_builder

/-- One call of the index builder's interface. -/
inductive op where
  | global (embeddings : List Nat) (num_embeddings : Nat) (content : List Nat)
      (content_length : Nat) (d : List Nat) (len : Nat)
  | term (term : List Nat)
  | wterm (sp : Nat) (term : List Nat)
  | term_position (pos : Nat) (term : List Nat)
  | wterm_position (pos sp : Nat) (term : List Nat)
  | term_value (value : Nat) (term : List Nat)
  | wterm_value (value sp : Nat) (term : List Nat)
  deriving DecidableEq, Repr

/-- The builder after one call. -/
def op.apply (h : sil_search_builder_t) : op → sil_search_builder_t
  | .global embeddings num_embeddings content content_length d len =>
    sil_search_builder_global h embeddings num_embeddings content content_length d len
  | .term s => sil_search_builder_term h s
  | .wterm sp s => sil_search_builder_wterm h sp s
  | .term_position pos s => sil_search_builder_term_position h pos s
  | .wterm_position pos sp s => sil_search_builder_wterm_position h pos sp s
  | .term_value value s => sil_search_builder_term_value h value s
  | .wterm_value value sp s => sil_search_builder_wterm_value h value sp s

/-- The builder after a sequence of calls. -/
def run (h : sil_search_builder_t) (ops : List op) : sil_search_builder_t :=
  ops.foldl op.apply h

/-- The call is `sil_search_builder_global`. -/
def op.is_global : op → Bool
  | .global _ _ _ _ _ _ => true
  | _ => false

/-- The call is `term_position` or `wterm_position`. -/
def op.is_term_position : op → Bool
  | .term_position _ _ => true
  | .wterm_position _ _ _ => true
  | _ => false

end search_builder

namespace search_builder

/-- The arguments of one `sil_search_builder_global` call together with the
`document_length` the builder has counted when the document is finished. -/
structure document where
  embeddings : List Nat
  num_embeddings : Nat
  content : List Nat
  content_length : Nat
  d : List Nat
  len : Nat
  document_length : Nat
  deriving DecidableEq, Repr

/-- The record `_finish_document` writes to the `global_data` sort for a
document (see `finish_document_writes_record`). -/
def document.record (doc : document) : global_record :=
  { gh := { document_length := doc.document_length,
            num_embeddings := doc.num_embeddings,
            content_offset := (doc.content_length + 4) % 2 ^ 36,
            embeddings_offset := (doc.len + SIZEOF_GLOBAL_HEADER) % 2 ^ 28 },
    rest := doc.d.take doc.len ++ doc.embeddings.take ((doc.num_embeddings * 512) % 2 ^ 32) ++
      le32 doc.content_length ++ doc.content.take doc.content_length }

/-- The `_gbl` file for documents in the order of the file, the first of them
with the content offset `co` and the embeddings offset `te`: per document the
`u32` length of header and user data, the header, the user data. -/
def gbl_layout : List document → Nat → Nat → List Nat
  | [], _, _ => []
  | doc :: docs, co, te =>
    le32 (doc.len + SIZEOF_GLOBAL_HEADER) ++
      global_header_bytes { document_length := doc.document_length,
                            num_embeddings := doc.num_embeddings,
                            content_offset := co, embeddings_offset := te } ++
      doc.d ++ gbl_layout docs (co + (doc.content_length + 4)) (te + doc.num_embeddings)

/-- The `content_offset` of the `i`-th document of the `_gbl` file. -/
def content_offset_of (docs : List document) (i : Nat) : Nat :=
  ((docs.take i).map (fun doc => doc.content_length + 4)).sum

end search_builder

/-- The totals kept by the builder: `total_terms` is the sum of the
`document_length`s of the records written so far, `total_documents` their
number (both as `size_t`). -/
def totals_ok (h : search_builder.sil_search_builder_t) : Prop :=
  h.total_terms = (h.global_data.map (fun r => r.gh.document_length)).sum % 2 ^ 64 ∧
  h.total_documents = h.global_data.length % 2 ^ 64

/-- The arguments of the `global` call hold the bytes they announce, and the
lengths fit the fields that carry them: user data and header in the 28-bit
field, content and its length prefix in a `uint32_t`. -/
def search_builder.document.ok (doc : search_builder.document) : Prop :=
  doc.d.length = doc.len ∧ doc.len + SIZEOF_GLOBAL_HEADER < 2 ^ 28 ∧
  doc.content.length = doc.content_length ∧ doc.content_length + 4 < 2 ^ 32 ∧
  doc.embeddings.length = doc.num_embeddings * 512 ∧ doc.num_embeddings * 512 < 2 ^ 32

/-- A document with id 1, user data `01 00 00 00`, no embeddings, the content
`hi` and three counted positions. -/
def content_doc_a : search_builder.document :=
  { embeddings := [], num_embeddings := 0, content := [104, 105], content_length := 2,
    d := [1, 0, 0, 0], len := 4, document_length := 3 }

/-- A document with id 2, user data `02 00 00 00`, no embeddings and the
content `abc`. -/
def content_doc_b : search_builder.document :=
  { embeddings := [], num_embeddings := 0, content := [97, 98, 99], content_length := 3,
    d := [2, 0, 0, 0], len := 4, document_length := 0 }

/-! ## Ranking primitives (`impl/sil_term_impl.h`) -/

/-- The constant `UINT32_MAX`. -/
def UINT32_MAX : Nat := 4294967295

/-- The `while (true)` loop of `sil_pair_proximity`: the two lists are the
positions from `*i` and from `*j` to the ends of their arrays; the loop is
left when `++j == ep2` or `++i == ep1`. -/
def pair_proximity_loop : Nat → List Nat → List Nat → Nat → Nat
  | 0, _, _, min_distance => min_distance
  | _ + 1, [], _, min_distance => min_distance
  | _ + 1, _ :: _, [], min_distance => min_distance
  | fuel + 1, i :: is, j :: js, min_distance =>
    if i > j then
      let diff := (sub32 i j + 1) % 2 ^ 32
      let min_distance := if diff < min_distance then diff else min_distance
      match js with
      | [] => min_distance
      | _ :: _ => pair_proximity_loop fuel (i :: is) js min_distance
    else if i < j then
      let diff := sub32 j i
      let min_distance := if diff < min_distance then diff else min_distance
      match is with
      | [] => min_distance
      | _ :: _ => pair_proximity_loop fuel is (j :: js) min_distance
    else
      match js with
      | [] => min_distance
      | _ :: _ => pair_proximity_loop fuel (i :: is) js min_distance

/-- The function `sil_pair_proximity` on the decoded positions of two terms
(`term_positions .. term_positions_end`). -/
def sil_pair_proximity (t1 t2 : List Nat) : Nat :=
  match t1, t2 with
  | [], _ => UINT32_MAX
  | _ :: _, [] => UINT32_MAX
  | i :: is, j :: js => pair_proximity_loop (is.length + js.length + 2) (i :: is) (j :: js) UINT32_MAX

/-- The table `sil_spread_distance_thresholds`. -/
def sil_spread_distance_thresholds : List Nat := [30, 70, 200, 400]

/-- The table `sil_spread_decay_factors`; a `double` is taken as the exact
rational it denotes, and `double` arithmetic as exact. -/
def sil_spread_decay_factors : List ℚ := [1, 7 / 10, 1 / 2, 3 / 10, 1 / 5]

/-- The constant `SIL_SPREAD_MAX_OCCURRENCES`. -/
def SIL_SPREAD_MAX_OCCURRENCES : Nat := 5

/-- The `weight` computed in iteration `i` of the loop of
`sil_term_spread_score`, from `prev_position` and `positions[i]`. -/
def spread_weight (i prev_position position : Nat) : ℚ :=
  let dist := sub32 position prev_position
  let threshold := sil_spread_distance_thresholds.getD (i - 1) 0
  (sil_spread_decay_factors.getD i 0 *
    (((if dist < threshold then dist else threshold : Nat) : ℚ) / (threshold : ℚ))) /
    (position : ℚ)

/-- The loop `for (i = 1; i < count; i++)` of `sil_term_spread_score`. -/
def spread_loop (positions : List Nat) (count : Nat) : Nat → Nat → Nat → ℚ → ℚ
  | 0, _, _, score => score
  | fuel + 1, i, prev_position, score =>
    if i < count then
      let weight := spread_weight i prev_position (positions.getD i 0)
      spread_loop positions count fuel (i + 1) (positions.getD i 0) (score + weight)
    else score

/-- The function `sil_term_spread_score(positions, size)`, `size` being the
number of positions. -/
def sil_term_spread_score (positions : List Nat) : ℚ :=
  let size := positions.length
  if size = 0 then 0
  else if size = 1 then sil_spread_decay_factors.getD 0 0 / (positions.getD 0 0 : ℚ)
  else
    let score : ℚ := 0
    let prev_position := positions.getD 0 0
    let score := score + sil_spread_decay_factors.getD 0 0 / (positions.getD 0 0 : ℚ)
    let count := if size > SIL_SPREAD_MAX_OCCURRENCES then SIL_SPREAD_MAX_OCCURRENCES else size
    spread_loop positions count count 1 prev_position score / (count : ℚ)

/-! ## Snippet extractor (`snippets.c`)

A `double` is taken as the exact rational it denotes and `double` arithmetic as
exact; the C library's `log` is a parameter of the functions that call it. -/

/-- The difference `a - b` in `size_t` arithmetic (modulo 2^64). -/
def sub64 (a b : Nat) : Nat :=
  if b ≤ a then (a - b) % 2 ^ 64 else (2 ^ 64 - (b - a) % 2 ^ 64) % 2 ^ 64

/-- The struct `snippet_position_t`. -/
structure snippet_position_t where
  position : Nat
  weight : ℚ
  term_index : Nat
  query_mask : Nat
  deriving DecidableEq, Repr

/-- The struct `snippet_t`; the member `end` is named `end_` here. -/
structure snippet_t where
  start : Nat
  end_ : Nat
  index : Nat
  density : ℚ
  first_instance_weight : ℚ
  match_count : Nat
  distinct_match_count : Nat
  mask : Nat
  score : ℚ
  query_index : Int
  next_in_cluster : Bool
  deriving DecidableEq, Repr

/-- The constant `MAX_QUERIES`. -/
def MAX_QUERIES : Nat := 32

/-- The constant `SUMMARY_SNIPPET` (250.0). -/
def SUMMARY_SNIPPET : Nat := 250

/-- The function `macro_highest_bit_index` as `tests/src/get_context.c` defines
it (`snippets.c` takes it from the-macro-library): `-1` for 0, else the index
of the highest set bit. -/
def macro_highest_bit_index (x : Nat) : Int :=
  if x = 0 then -1 else (Nat.log2 x : Int)

/-- The C library's `round` on a non-negative value: halfway cases away from
zero; the result converted to `size_t`. -/
def round_to_size_t (x : ℚ) : Nat := ⌊x + 1 / 2⌋₊

/-- The function `position_ratio`. -/
def position_ratio (start : Nat) : ℚ :=
  if start ≥ SUMMARY_SNIPPET then 1
  else
    let a : ℚ := (start : ℚ)
    let ratio := ((SUMMARY_SNIPPET : ℚ) - a) / (SUMMARY_SNIPPET : ℚ)
    1 + ratio

/-- The function `adjusted_max_snippet`. -/
def adjusted_max_snippet (start max_snippet : Nat) : Nat :=
  if start ≥ SUMMARY_SNIPPET then max_snippet
  else
    let snippet_factor := position_ratio start
    let b : ℚ := (max_snippet : ℚ)
    let snippet_size_d := snippet_factor * b
    round_to_size_t snippet_size_d

/-- The per-query accumulators of `find_best_snippet_for_range_multi`, one
entry of each of its six arrays. -/
structure query_acc where
  query_score : ℚ
  query_first_weight : ℚ
  query_match_count : Nat
  query_distinct_count : Nat
  first_mask : Nat
  second_mask : Nat
  deriving DecidableEq, Repr

/-- The arrays after `= {0}`. -/
def query_acc.zero : query_acc :=
  { query_score := 0, query_first_weight := 0, query_match_count := 0,
    query_distinct_count := 0, first_mask := 0, second_mask := 0 }

/-- The value `(uint64_t)1 << term_index`; a shift by 64 or more, undefined in
C, gives 0 here. -/
def term_bit (term_index : Nat) : Nat := (1 <<< term_index) % 2 ^ 64

/-- The snippet `*best` on entry of `find_best_snippet_for_range_multi`, after
its first four assignments; the members the function does not initialise
(they are assigned before `found` is set) are 0 here. -/
def best_init : snippet_t :=
  { start := 0, end_ := 0, index := 0, density := 0, first_instance_weight := 0,
    match_count := 0, distinct_match_count := 0, mask := 0, score := 0, query_index := 0,
    next_in_cluster := false }

/-- The per-query accumulators of the base case of `segment_document`. -/
structure region_acc where
  query_first_weight : ℚ
  query_distinct_count : Nat
  query_match_count : Nat
  first_mask : Nat
  deriving DecidableEq, Repr

/-- The arrays after `= {0}`. -/
def region_acc.zero : region_acc :=
  { query_first_weight := 0, query_distinct_count := 0, query_match_count := 0, first_mask := 0 }

/-- The body of the loop `for (q ...)` in the base case of `segment_document`
for the entry `pos`, for one `q`. -/
def region_query (pos : snippet_position_t) (q : Nat) (a : region_acc) : region_acc :=
  let bit := term_bit pos.term_index
  if pos.query_mask &&& (1 <<< q) ≠ 0 then
    let a := { a with query_match_count := a.query_match_count + 1 }
    if a.first_mask &&& bit = 0 then
      { a with first_mask := a.first_mask ||| bit,
               query_first_weight := a.query_first_weight + pos.weight,
               query_distinct_count := a.query_distinct_count + 1 }
    else a
  else a

/-- The loop `for (i = 0; i < num_positions; i++)` in the base case of
`segment_document`: the total weight of the region and the arrays. -/
def region_loop (highest_bit region_start region_end : Nat) :
    List snippet_position_t → ℚ × (Nat → region_acc) → ℚ × (Nat → region_acc)
  | [], st => st
  | pos :: rest, st =>
    if pos.position ≥ region_start ∧ pos.position ≤ region_end then
      let region_total_weight := st.1 + pos.weight
      let accs := fun q => if q < highest_bit then region_query pos q (st.2 q) else st.2 q
      region_loop highest_bit region_start region_end rest (region_total_weight, accs)
    else region_loop highest_bit region_start region_end rest st

/-- The body of the loop that determines the best query in the base case of
`segment_document`: `best_score` and `best_query` after the iteration `q`. -/
def region_best_query (density : ℚ) (accs : Nat → region_acc) (st : ℚ × Int) (q : Nat) :
    ℚ × Int :=
  if (accs q).query_match_count > 0 then
    let combined := (density + (accs q).query_first_weight) * ((accs q).query_distinct_count : ℚ)
    if combined > st.1 then (combined, (q : Int)) else st
  else st

/-- The base case of `segment_document`: the single snippet of the region. -/
def region_snippet (positions : List snippet_position_t)
    (query_mask region_start region_end : Nat) : snippet_t :=
  let highest_bit := (macro_highest_bit_index query_mask + 1).toNat
  let r := region_loop highest_bit region_start region_end positions
    (0, fun _ => region_acc.zero)
  let region_total_weight := r.1
  let accs := r.2
  let span : Nat := (sub64 region_end region_start + 1) % 2 ^ 64
  let density : ℚ := if span > 0 then region_total_weight / (span : ℚ) else 0
  let b := (List.range highest_bit).foldl (region_best_query density accs) (0, -1)
  let best_score := b.1
  let best_query := b.2
  { start := region_start,
    end_ := region_end,
    index := 0,
    match_count := if best_query ≥ 0 then (accs best_query.toNat).query_match_count else 0,
    distinct_match_count :=
      if best_query ≥ 0 then (accs best_query.toNat).query_distinct_count else 0,
    first_instance_weight :=
      if best_query ≥ 0 then (accs best_query.toNat).query_first_weight else 0,
    density := density,
    mask := if best_query ≥ 0 then (accs best_query.toNat).first_mask else 0,
    score := best_score,
    query_index := best_query,
    next_in_cluster := true }

/-- The inner loop `while (p < ep && gap < adjusted_max_snippet(...))` of
`snippets_create`: `prev` is the entry `p - 1`, the list the entries from `p`
on; returns the entries added to the cluster, the cluster's `query_mask` (an
OR of `uint32_t` values) and the entries that remain. -/
def cluster_scan (max_snippet : Nat) :
    snippet_position_t → List snippet_position_t → Nat →
      List snippet_position_t × Nat × List snippet_position_t
  | _, [], query_mask => ([], query_mask, [])
  | prev, p :: rest, query_mask =>
    if sub64 p.position prev.position < adjusted_max_snippet prev.position max_snippet then
      let r := cluster_scan max_snippet p rest (query_mask ||| p.query_mask)
      (p :: r.1, r.2.1, r.2.2)
    else ([], query_mask, p :: rest)

/-- The test of the inner loop of `snippets_create` on two neighbouring
entries: the gap from `x` to `y` (a `size_t` difference) is below the snippet
budget at `x`. -/
def same_cluster_gap (max_snippet : Nat) (x y : snippet_position_t) : Prop :=
  sub64 y.position x.position < adjusted_max_snippet x.position max_snippet

/-- The comparison `compare_snippet_position`: by position, then by term index. -/
def compare_snippet_position (a b : snippet_position_t) : Bool :=
  if a.position ≠ b.position then decide (a.position < b.position)
  else decide (a.term_index < b.term_index)

/-- The inner loop `while (q < ep && q->position == p->position && ...)` of
`snippet_position_sort`: the entry `*p` with the masks of the following equal
entries OR-ed in, and the entries from `q` on when the loop ends. -/
def merge_run : snippet_position_t → List snippet_position_t →
    snippet_position_t × List snippet_position_t
  | p, [] => (p, [])
  | p, q :: rest =>
    if q.position = p.position ∧ q.term_index = p.term_index then
      merge_run { p with query_mask := p.query_mask ||| q.query_mask } rest
    else (p, q :: rest)

/-- The loop `while (p < ep)` of `snippet_position_sort` on the sorted array:
the entries written through `wp`, in order. -/
def merge_loop : Nat → List snippet_position_t → List snippet_position_t
  | 0, _ => []
  | _ + 1, [] => []
  | fuel + 1, p :: rest =>
    let r := merge_run p rest
    r.1 :: merge_loop fuel r.2

/-- The function `snippet_position_sort`: the returned count `wp - positions`
and the first that many entries of the array on return.
`sort_snippet_positions` is the instance of `macro_sort` (the-macro-library,
not part of the sources) for `compare_snippet_position`, taken as a parameter. -/
def snippet_position_sort
    (sort_snippet_positions : List snippet_position_t → List snippet_position_t)
    (positions : List snippet_position_t) : Nat × List snippet_position_t :=
  let sorted := sort_snippet_positions positions
  let merged := merge_loop sorted.length sorted
  (merged.length, merged)

/-- The pair `(position, term_index)` of an entry. -/
def snippet_position_t.key (a : snippet_position_t) : Nat × Nat := (a.position, a.term_index)

/-- The order of `compare_snippet_position` on the pairs. -/
def key_lt (a b : Nat × Nat) : Prop := a.1 < b.1 ∨ (a.1 = b.1 ∧ a.2 < b.2)

/-- The bitwise OR of the `query_mask`s of the entries of `l` with the pair `k`. -/
def mask_of (l : List snippet_position_t) (k : Nat × Nat) : Nat :=
  ((l.filter (fun x => decide (x.key = k))).map snippet_position_t.query_mask).foldl
    (fun m x => m ||| x) 0

/-- The comparison `compare_snippet`. -/
def compare_snippet (a b : snippet_t) : Bool :=
  if a.score ≠ b.score then decide (a.score > b.score)
  else if a.distinct_match_count ≠ b.distinct_match_count then
    decide (a.distinct_match_count > b.distinct_match_count)
  else if a.match_count ≠ b.match_count then decide (a.match_count > b.match_count)
  else if a.density ≠ b.density then decide (a.density > b.density)
  else if a.first_instance_weight ≠ b.first_instance_weight then
    decide (a.first_instance_weight > b.first_instance_weight)
  else decide (a.start < b.start)

/-- The comparison `compare_snippet_index`. -/
def compare_snippet_index (a b : snippet_t) : Bool := decide (a.index < b.index)

/-- Modelled from the spec: `macro_bit_count64` of the-macro-library, which is
not part of the sources; the spec has it count the bits set (`popcount`) in a
64-bit mask. -/
def macro_bit_count64 (x : Nat) : Nat := ((x % 2 ^ 64).bits.filter id).length

/-- The complement `~mask` of a `uint64_t`. -/
def not64 (mask : Nat) : Nat := 2 ^ 64 - 1 - mask % 2 ^ 64

/-- The body of the loop `for (i = 1; i < num_snippets; i++)` of
`_snippets_top`: the snippet `snippets[i]` after the iteration, `first` being
`snippets[0]` and `mask` its mask. -/
def rescore (first : snippet_t) (mask : Nat) (s : snippet_t) : snippet_t :=
  if s.query_index ≠ first.query_index then s
  else
    let common := s.mask &&& mask
    if common ≠ 0 then
      let num_bits := macro_bit_count64 common
      let current_bits := macro_bit_count64 s.mask
      { s with score := s.score * (1 - (num_bits : ℚ) / (current_bits : ℚ)),
               mask := s.mask &&& not64 mask }
    else s

/-- The function `_snippets_top`: the returned count and the array on return.
`sort_snippets` is the instance of `macro_sort` (the-macro-library, not part
of the sources) for `compare_snippet`, taken as a parameter. The recursion is
on the `fuel`; each call is on an array one entry shorter. -/
def _snippets_top (sort_snippets : List snippet_t → List snippet_t) :
    Nat → List snippet_t → Nat × List snippet_t
  | 0, snippets => (0, snippets)
  | fuel + 1, snippets =>
    if snippets.length = 0 then (0, snippets)
    else
      match sort_snippets snippets with
      | [] => (0, [])
      | first :: rest =>
        let mask := first.mask
        if mask = 0 then (0, first :: rest)
        else
          let rest := rest.map (rescore first mask)
          if mask ≠ 0 ∧ snippets.length > 1 then
            let r := _snippets_top sort_snippets fuel rest
            (r.1 + 1, first :: r.2)
          else (1, first :: rest)

/-- The function `snippets_top`: the returned count and the array on return.
`sort_snippet_by_index` is the instance of `macro_sort` for
`compare_snippet_index`, taken as a parameter; it is applied to the first
`num_snippets` entries. -/
def snippets_top (sort_snippets sort_snippet_by_index : List snippet_t → List snippet_t)
    (snippets : List snippet_t) : Nat × List snippet_t :=
  let r := _snippets_top sort_snippets snippets.length snippets
  let num_snippets := r.1
  (num_snippets, sort_snippet_by_index (r.2.take num_snippets) ++ r.2.drop num_snippets)

theorem and_mask (x a b : Nat) (h : a ≤ b) :
    x &&& (2 ^ b - 2 ^ a) = x % 2 ^ b / 2 ^ a * 2 ^ a := by
  apply Nat.eq_of_testBit_eq
  intro i
  have h2 : 2 ^ b - 2 ^ a = 2 ^ a * (2 ^ (b - a) - 1) := by
    rw [Nat.mul_sub, ← pow_add, Nat.add_sub_cancel' h, mul_one]
  rw [Nat.testBit_and, h2, Nat.testBit_mul_pow_two, Nat.testBit_two_pow_sub_one, Nat.mul_comm,
    Nat.testBit_mul_pow_two, ← Nat.shiftRight_eq_div_pow, Nat.testBit_shiftRight,
    Nat.testBit_mod_two_pow]
  by_cases h1 : a ≤ i
  · simp [h1, Nat.add_sub_cancel' h1]
    by_cases h3 : i < b
    · simp [h3, show i - a < b - a by omega]
    · simp [h3, show ¬ (i - a < b - a) by omega]
  · simp [h1]

theorem or_eq_add_of_lt (a b k : Nat) (hb : b < 2 ^ k) : (a * 2 ^ k) ||| b = a * 2 ^ k + b := by
  rw [Nat.mul_comm]; exact (Nat.mul_add_lt_is_or hb a).symm

theorem and_top_mask (x : Nat) (h : x < 2 ^ 26) : x &&& 0x3FC0000 = x / 262144 * 262144 := by
  have := and_mask x 18 26 (by norm_num)
  rw [Nat.mod_eq_of_lt h] at this
  exact this

theorem and_group_mask (x : Nat) (h : x < 2 ^ 26) : x &&& 0x3FFFC00 = x / 1024 * 1024 := by
  have := and_mask x 10 26 (by norm_num)
  rw [Nat.mod_eq_of_lt h] at this
  exact this

theorem and_small_mask (x : Nat) : x &&& SMALL_GROUP_MASK = x % 1024 :=
  Nat.and_pow_two_sub_one_eq_mod x 10

/-! ## Runs of records with equal keys -/

theorem mem_takeWhile_key (k : Nat → Nat) (c : Nat) (rest : List term_data_t) :
    ∀ r ∈ rest.takeWhile (fun r => decide (c = k r.id)), k r.id = c := by
  intro r hr
  have := List.mem_takeWhile_imp hr
  simp only [decide_eq_true_eq] at this
  exact this.symm

theorem mem_dropWhile_key (k : Nat → Nat) (c : Nat) (rest : List term_data_t)
    (hs : rest.Pairwise (fun a b => k a.id ≤ k b.id)) (hc : ∀ r ∈ rest, c ≤ k r.id) :
    ∀ r ∈ rest.dropWhile (fun r => decide (c = k r.id)), c < k r.id := by
  induction rest with
  | nil => simp
  | cons a rest ih =>
    rw [List.pairwise_cons] at hs
    by_cases ha : c = k a.id
    · rw [List.dropWhile_cons_of_pos (by simpa using ha)]
      exact ih hs.2 (fun r hr => hc r (List.mem_cons_of_mem _ hr))
    · rw [List.dropWhile_cons_of_neg (by simpa using ha)]
      intro r hr
      have h1 : c ≤ k a.id := hc a (List.mem_cons_self _ _)
      have h2 : c < k a.id := lt_of_le_of_ne h1 ha
      rcases List.mem_cons.1 hr with h | h
      · rw [h]; exact h2
      · exact lt_of_lt_of_le h2 (hs.1 r h)

/-- The generic step shared by the three grouping loops of `compress_groups`:
a loop that combines with `op` the value `inner` of each maximal run of equal
keys computes a measure `F` that is additive over id-disjoint concatenation. -/
theorem level_fold (k : Nat → Nat) (Q : term_data_t → Prop)
    (R : term_data_t → term_data_t → Prop) (N : Nat)
    (op : Nat → Nat → Nat) (F inner : List term_data_t → Nat)
    (loopv : Nat → List term_data_t → Nat)
    (h0 : ∀ fuel, loopv fuel [] = F [])
    (hstep : ∀ fuel cur rest, loopv (fuel + 1) (cur :: rest) =
      op (inner (cur :: rest.takeWhile (fun r => decide (k cur.id = k r.id))))
        (loopv fuel (rest.dropWhile (fun r => decide (k cur.id = k r.id)))))
    (hF : ∀ A B, (∀ a ∈ A, ∀ b ∈ B, a.id ≠ b.id) → F (A ++ B) = op (F A) (F B))
    (hinner : ∀ cur run, (cur :: run).length ≤ N → (cur :: run).Pairwise R →
      (∀ r ∈ cur :: run, Q r) →
      (∀ r ∈ run, k r.id = k cur.id) → inner (cur :: run) = F (cur :: run))
    (hR : ∀ a b, R a b → a.id ≤ b.id)
    (hmono : ∀ a b, Q a → Q b → a.id ≤ b.id → k a.id ≤ k b.id) :
    ∀ fuel l, l.length ≤ fuel → l.length ≤ N → l.Pairwise R → (∀ r ∈ l, Q r) →
      loopv fuel l = F l := by
  intro fuel
  induction fuel with
  | zero =>
    intro l hl _ _ _
    have : l = [] := List.length_eq_zero.1 (Nat.le_zero.1 hl)
    rw [this, h0]
  | succ fuel ih =>
    intro l hl hN hs hQ
    cases l with
    | nil => rw [h0]
    | cons cur rest =>
      rw [hstep]
      set same := fun (r : term_data_t) => decide (k cur.id = k r.id) with hsame
      have hsplit : rest = rest.takeWhile same ++ rest.dropWhile same :=
        (List.takeWhile_append_dropWhile same rest).symm
      have hs' := hs
      rw [List.pairwise_cons] at hs'
      have hrun : ∀ r ∈ rest.takeWhile same, k r.id = k cur.id :=
        mem_takeWhile_key k (k cur.id) rest
      have hQrest : ∀ r ∈ rest, Q r := fun r hr => hQ r (List.mem_cons_of_mem _ hr)
      have hQcur : Q cur := hQ cur (List.mem_cons_self _ _)
      have hkeys : rest.Pairwise (fun a b => k a.id ≤ k b.id) := by
        refine List.Pairwise.imp_of_mem ?_ hs'.2
        intro a b ha hb hab
        exact hmono a b (hQrest a ha) (hQrest b hb) (hR a b hab)
      have hdrop : ∀ r ∈ rest.dropWhile same, k cur.id < k r.id :=
        mem_dropWhile_key k (k cur.id) rest hkeys
          (fun r hr => hmono cur r hQcur (hQrest r hr) (hR cur r (hs'.1 r hr)))
      have htw_sub : List.Sublist (rest.takeWhile same) rest := List.takeWhile_sublist _
      have hdw_sub : List.Sublist (rest.dropWhile same) rest := List.dropWhile_sublist _
      have hin : inner (cur :: rest.takeWhile same) = F (cur :: rest.takeWhile same) := by
        apply hinner
        · have := htw_sub.length_le
          simp only [List.length_cons] at hN ⊢
          omega
        · exact hs.sublist (List.Sublist.cons₂ _ htw_sub)
        · intro r hr
          rcases List.mem_cons.1 hr with h | h
          · rw [h]; exact hQcur
          · exact hQrest r (htw_sub.subset h)
        · exact hrun
      have hmore : loopv fuel (rest.dropWhile same) = F (rest.dropWhile same) := by
        apply ih
        · have := hdw_sub.length_le
          simp only [List.length_cons] at hl
          omega
        · have := hdw_sub.length_le
          simp only [List.length_cons] at hN
          omega
        · exact hs'.2.sublist hdw_sub
        · exact fun r hr => hQrest r (hdw_sub.subset hr)
      rw [hin, hmore]
      have hdisj : ∀ a ∈ cur :: rest.takeWhile same, ∀ b ∈ rest.dropWhile same, a.id ≠ b.id := by
        intro a ha b hb hab
        have hb' := hdrop b hb
        have ha' : k a.id = k cur.id := by
          rcases List.mem_cons.1 ha with h | h
          · rw [h]
          · exact hrun a h
        rw [← hab, ha'] at hb'
        exact lt_irrefl _ hb'
      rw [← hF _ _ hdisj]
      congr 1
      rw [List.cons_append, ← hsplit]

/-! ## Document frequency -/

theorem doc_ids_append (A B : List term_data_t) :
    doc_ids (A ++ B) = doc_ids A ∪ doc_ids B := by
  simp [doc_ids, List.toFinset_append]

theorem mem_doc_ids (d : Nat) (l : List term_data_t) : d ∈ doc_ids l ↔ ∃ r ∈ l, r.id = d := by
  simp [doc_ids]

theorem doc_ids_disjoint (A B : List term_data_t) (h : ∀ a ∈ A, ∀ b ∈ B, a.id ≠ b.id) :
    Disjoint (doc_ids A) (doc_ids B) := by
  rw [Finset.disjoint_left]
  intro d hA hB
  obtain ⟨a, ha, rfl⟩ := (mem_doc_ids _ _).1 hA
  obtain ⟨b, hb, hab⟩ := (mem_doc_ids _ _).1 hB
  exact h a ha b hb hab.symm

theorem card_doc_ids_append (A B : List term_data_t) (h : ∀ a ∈ A, ∀ b ∈ B, a.id ≠ b.id) :
    (doc_ids (A ++ B)).card = (doc_ids A).card + (doc_ids B).card := by
  rw [doc_ids_append, Finset.card_union_of_disjoint (doc_ids_disjoint A B h)]

theorem doc_ids_const (cur : term_data_t) (run : List term_data_t)
    (h : ∀ r ∈ run, r.id = cur.id) : doc_ids (cur :: run) = {cur.id} := by
  ext d
  rw [mem_doc_ids, Finset.mem_singleton]
  constructor
  · rintro ⟨r, hr, rfl⟩
    rcases List.mem_cons.1 hr with h1 | h1
    · rw [h1]
    · exact h r h1
  · intro hd
    exact ⟨cur, List.mem_cons_self _ _, hd.symm⟩

/-- Records in one mid group with equal small ids belong to one document. -/
theorem id_eq_of_keys (a b c : Nat) (ha : a < 2 ^ 26) (hb : b < 2 ^ 26)
    (ha2 : a &&& 0x3FFFC00 = c) (hb2 : b &&& 0x3FFFC00 = c)
    (h1 : b &&& SMALL_GROUP_MASK = a &&& SMALL_GROUP_MASK) : b = a := by
  rw [and_group_mask a ha] at ha2
  rw [and_group_mask b hb] at hb2
  rw [and_small_mask, and_small_mask] at h1
  omega

theorem small_group_df (c : Nat) (fuel : Nat) (l : List term_data_t) (hl : l.length ≤ fuel)
    (hs : l.Pairwise (fun a b => a.id ≤ b.id))
    (hQ : ∀ r ∈ l, r.id < 2 ^ 26 ∧ r.id &&& 0x3FFFC00 = c) :
    (compress_small_group_loop fuel l).2.1 = (doc_ids l).card := by
  refine level_fold (fun x => x &&& SMALL_GROUP_MASK)
    (fun r => r.id < 2 ^ 26 ∧ r.id &&& 0x3FFFC00 = c) (fun a b => a.id ≤ b.id) l.length
    (fun a b => a + b) (fun l => (doc_ids l).card) (fun _ => 1)
    (fun fuel l => (compress_small_group_loop fuel l).2.1)
    ?_ ?_ ?_ ?_ ?_ ?_ fuel l hl (le_refl _) hs hQ
  · intro fuel; cases fuel <;> rfl
  · intro fuel cur rest; rfl
  · exact card_doc_ids_append
  · intro cur run _ _ hQ hk
    have hcur := hQ cur (List.mem_cons_self _ _)
    show 1 = (doc_ids (cur :: run)).card
    rw [doc_ids_const cur run, Finset.card_singleton]
    intro r hr
    have hr2 := hQ r (List.mem_cons_of_mem _ hr)
    exact id_eq_of_keys cur.id r.id c hcur.1 hr2.1 hcur.2 hr2.2 (hk r hr)
  · intro a b h; exact h
  · intro a b ha hb hab
    have h1 := ha.2
    have h2 := hb.2
    rw [and_group_mask a.id ha.1] at h1
    rw [and_group_mask b.id hb.1] at h2
    show a.id &&& SMALL_GROUP_MASK ≤ b.id &&& SMALL_GROUP_MASK
    rw [and_small_mask, and_small_mask]
    omega

theorem mid_groups_df (c : Nat) (fuel : Nat) (l : List term_data_t) (hl : l.length ≤ fuel)
    (hs : l.Pairwise (fun a b => a.id ≤ b.id))
    (hQ : ∀ r ∈ l, r.id < 2 ^ 26 ∧ r.id &&& 0x3FC0000 = c) :
    (compress_mid_groups_loop fuel l).2.1 = (doc_ids l).card := by
  refine level_fold (fun x => x &&& 0x3FFFC00)
    (fun r => r.id < 2 ^ 26 ∧ r.id &&& 0x3FC0000 = c) (fun a b => a.id ≤ b.id) l.length
    (fun a b => a + b) (fun l => (doc_ids l).card)
    (fun l => (compress_small_group_data_into_group l).2.1)
    (fun fuel l => (compress_mid_groups_loop fuel l).2.1)
    ?_ ?_ ?_ ?_ ?_ ?_ fuel l hl (le_refl _) hs hQ
  · intro fuel; cases fuel <;> rfl
  · intro fuel cur rest; rfl
  · exact card_doc_ids_append
  · intro cur run _ hs hQ hk
    refine small_group_df (cur.id &&& 0x3FFFC00) _ _ (le_refl _) hs ?_
    intro r hr
    refine ⟨(hQ r hr).1, ?_⟩
    rcases List.mem_cons.1 hr with h | h
    · rw [h]
    · exact hk r h
  · intro a b h; exact h
  · intro a b ha hb hab
    show a.id &&& 0x3FFFC00 ≤ b.id &&& 0x3FFFC00
    rw [and_group_mask a.id ha.1, and_group_mask b.id hb.1]
    omega

theorem groups_df (fuel : Nat) (l : List term_data_t) (hl : l.length ≤ fuel)
    (hs : l.Pairwise (fun a b => a.id ≤ b.id))
    (hQ : ∀ r ∈ l, r.id < 2 ^ 26) :
    (compress_groups_loop fuel l).2.1 = (doc_ids l).card := by
  refine level_fold (fun x => x &&& 0x3FC0000)
    (fun r => r.id < 2 ^ 26) (fun a b => a.id ≤ b.id) l.length
    (fun a b => a + b) (fun l => (doc_ids l).card)
    (fun l => (compress_mid_groups_loop l.length l).2.1)
    (fun fuel l => (compress_groups_loop fuel l).2.1)
    ?_ ?_ ?_ ?_ ?_ ?_ fuel l hl (le_refl _) hs hQ
  · intro fuel; cases fuel <;> rfl
  · intro fuel cur rest; rfl
  · exact card_doc_ids_append
  · intro cur run _ hs hQ hk
    refine mid_groups_df (cur.id &&& 0x3FC0000) _ _ (le_refl _) hs ?_
    intro r hr
    refine ⟨hQ r hr, ?_⟩
    rcases List.mem_cons.1 hr with h | h
    · rw [h]
    · exact hk r h
  · intro a b h; exact h
  · intro a b ha hb hab
    show a.id &&& 0x3FC0000 ≤ b.id &&& 0x3FC0000
    rw [and_top_mask a.id ha, and_top_mask b.id hb]
    omega

theorem card_doc_ids_le (l : List term_data_t) (hQ : ∀ r ∈ l, r.id < 2 ^ 26) :
    (doc_ids l).card ≤ 2 ^ 26 := by
  have : doc_ids l ⊆ Finset.range (2 ^ 26) := by
    intro d hd
    obtain ⟨r, hr, rfl⟩ := (mem_doc_ids _ _).1 hd
    exact Finset.mem_range.2 (hQ r hr)
  simpa using Finset.card_le_card this

theorem rd8_cons_zero (b : Nat) (l : List Nat) : rd8 (b :: l) 0 = b := rfl

theorem rd8_cons_succ (b : Nat) (l : List Nat) (i : Nat) : rd8 (b :: l) (i + 1) = rd8 l i := rfl

theorem rd32_le32 (v : Nat) (hv : v < 2 ^ 32) (tail : List Nat) : rd32 (le32 v ++ tail) 0 = v := by
  simp only [rd32, le32, List.cons_append, List.nil_append, rd8_cons_zero, rd8_cons_succ,
    show (0:Nat) + 1 = 1 from rfl, show (0:Nat) + 2 = 2 from rfl, show (0:Nat) + 3 = 3 from rfl]
  omega

/-- C8: for a term whose records (in the order of the sort, ascending doc
id) all have doc ids below 2^26, the `document_frequency` field of the term
header that `sil_search_builder_destroy` writes (bytes 8..11 of the term's
record in the term-data file) is the number of distinct doc ids among the
term's records. -/
theorem document_frequency_eq_distinct_ids (records : List term_data_t)
    (hsorted : records.Pairwise (fun a b => a.id ≤ b.id))
    (hid : ∀ r ∈ records, r.id < 2 ^ 26) :
    (compress_groups records).2.1 = (doc_ids records).card ∧
    rd32 ((term_record records).drop 8) 0 = (doc_ids records).card := by
  have h1 : (compress_groups records).2.1 = (doc_ids records).card := by
    show (compress_groups_loop records.length records).2.1 % 2 ^ 32 = _
    rw [groups_df _ _ (le_refl _) hsorted hid]
    have := card_doc_ids_le records hid
    omega
  refine ⟨h1, ?_⟩
  have h2 : (term_record records).drop 8 =
      le32 (compress_groups records).2.1 ++ (compress_groups records).1 := by
    simp [term_record, le32]
  rw [h2, rd32_le32, h1]
  rw [h1]
  have := card_doc_ids_le records hid
  omega

/-- C8, at the S3 records: ids 0, 1023, 1024, 262143, 262144 give
`document_frequency = 5`. -/
theorem document_frequency_s3 :
    s3_records.Pairwise (fun a b => a.id ≤ b.id) ∧ (∀ r ∈ s3_records, r.id < 2 ^ 26) ∧
    (compress_groups s3_records).2.1 = 5 ∧ (doc_ids s3_records).card = 5 ∧
    rd32 ((term_record s3_records).drop 8) 0 = (doc_ids s3_records).card :=
  ⟨by decide, by decide, by decide, by decide,
    (document_frequency_eq_distinct_ids s3_records (by decide) (by decide)).2⟩

/-! ## The record codec -/

theorem advance_id_eq (mem : List Nat) (t : sil_term_ext_t) :
    advance_id mem t =
      decode_body mem { t with id := (rd16 mem t.p >>> SMALL_GROUP_SHIFT + t.gid) % 2 ^ 32 }
        (rd16 mem t.p &&& SMALL_GROUP_FLAGS) (t.p + 2) := rfl

theorem advance_document_id_eq (mem : List Nat) (t : sil_term_ext_t) :
    advance_document_id mem t = decode_body mem { t with id := 1 } (rd8 mem t.p) (t.p + 1) := rfl

theorem compress_single_id_eq (sid : Nat) (cur : term_data_t) (rest : List term_data_t) :
    compress_single_id sid cur rest =
      if rest.length + 1 = 1 ∧ cur.position = 0 then
        (le16 (sid ||| (value_code cur.value).1) ++ (value_code cur.value).2, 0)
      else
        let hv := decide (cur.position = 0 ∧ cur.value ≠ 0)
        let p2 := if hv then rest else cur :: rest
        let c := positions_code hv cur.value (p2.map term_data_t.position)
        (le16 (sid ||| c.1) ++ c.2, p2.length % 2 ^ 32) := by
  unfold compress_single_id
  by_cases h1 : rest.length + 1 = 1 ∧ cur.position = 0
  · simp only [if_pos h1]
    unfold encode_single_value value_code
    by_cases a1 : cur.value < SMALL_GROUP_1BYTE_VALUE
    · simp only [a1, if_true, List.append_nil]
    · by_cases a2 : cur.value < 256
      · simp only [a1, a2, if_true, if_false]
      · by_cases a3 : cur.value < 65536
        · simp only [a1, a2, a3, if_true, if_false]
        · simp only [a1, a2, a3, if_false]
  · simp only [if_neg h1, positions_code]
    by_cases h2 : cur.position = 0 ∧ cur.value ≠ 0
    · simp only [h2, and_self, ne_eq, not_false_eq_true, decide_True, if_true]
      split_ifs
      · simp only [Nat.or_assoc, List.append_assoc]
      · simp only [Nat.or_assoc, List.append_assoc]
    · simp only [h2, decide_False, if_false, Bool.false_eq_true]
      split_ifs
      · simp only [Nat.or_assoc, List.append_assoc, Nat.zero_or, List.nil_append]
      · simp only [Nat.or_assoc, List.append_assoc, Nat.zero_or, List.nil_append]

theorem compress_term_eq (term : List Nat) (cur : document_builder.term_data_t)
    (rest : List document_builder.term_data_t) :
    document_builder.compress_term term cur rest =
      if rest.length + 1 = 1 ∧ cur.position = 0 then
        term ++ [0] ++ ([(value_code cur.value).1 % 256] ++ (value_code cur.value).2)
      else
        let hv := decide (cur.position = 0 ∧ cur.value ≠ 0)
        let p2 := if hv then rest else cur :: rest
        let c := positions_code hv cur.value (p2.map document_builder.term_data_t.position)
        term ++ [0] ++ ([c.1 % 256] ++ c.2) := by
  unfold document_builder.compress_term
  by_cases h1 : rest.length + 1 = 1 ∧ cur.position = 0
  · simp only [if_pos h1]
    unfold document_builder.encode_single_value value_code
    by_cases a1 : cur.value < SMALL_GROUP_1BYTE_VALUE
    · simp only [a1, if_true, List.append_nil, Nat.zero_or]
    · by_cases a2 : cur.value < 256
      · simp only [a1, a2, if_true, if_false, Nat.zero_or]
      · by_cases a3 : cur.value < 65536
        · simp only [a1, a2, a3, if_true, if_false, Nat.zero_or]
        · simp only [a1, a2, a3, if_false, Nat.zero_or]
  · simp only [if_neg h1, positions_code]
    by_cases h2 : cur.position = 0 ∧ cur.value ≠ 0
    · simp only [h2, and_self, ne_eq, not_false_eq_true, decide_True, if_true]
      split_ifs
      · simp only [Nat.or_assoc, List.append_assoc, Nat.zero_or]
      · simp only [Nat.or_assoc, List.append_assoc, Nat.zero_or]
    · simp only [h2, decide_False, if_false, Bool.false_eq_true]
      split_ifs
      · simp only [Nat.or_assoc, List.append_assoc, Nat.zero_or, List.nil_append]
      · simp only [Nat.or_assoc, List.append_assoc, Nat.zero_or, List.nil_append]

/-! ## Maximum number of positions -/

theorem list_max_append (a b : List Nat) : list_max (a ++ b) = max (list_max a) (list_max b) := by
  induction a with
  | nil => simp [list_max]
  | cons x a ih =>
    simp only [list_max, List.cons_append, List.foldr_cons] at ih ⊢
    rw [ih, max_assoc]

theorem doc_records_append_left (A B : List term_data_t) (d : Nat)
    (h : ∀ b ∈ B, b.id ≠ d) : doc_records (A ++ B) d = doc_records A d := by
  unfold doc_records
  rw [List.filter_append]
  have : B.filter (fun r => decide (r.id = d)) = [] := by
    rw [List.filter_eq_nil_iff]
    intro b hb
    simpa using h b hb
  rw [this, List.append_nil]

theorem doc_records_append_right (A B : List term_data_t) (d : Nat)
    (h : ∀ a ∈ A, a.id ≠ d) : doc_records (A ++ B) d = doc_records B d := by
  unfold doc_records
  rw [List.filter_append]
  have : A.filter (fun r => decide (r.id = d)) = [] := by
    rw [List.filter_eq_nil_iff]
    intro a ha
    simpa using h a ha
  rw [this, List.nil_append]

theorem max_over_docs_append (f : List term_data_t → Nat) (A B : List term_data_t)
    (h : ∀ a ∈ A, ∀ b ∈ B, a.id ≠ b.id) :
    max_over_docs f (A ++ B) = max (max_over_docs f A) (max_over_docs f B) := by
  unfold max_over_docs
  rw [List.map_append, list_max_append]
  congr 2
  · apply List.map_congr_left
    intro a ha
    rw [doc_records_append_left A B a.id (fun b hb hab => h a ha b hb hab.symm)]
  · apply List.map_congr_left
    intro b hb
    rw [doc_records_append_right A B b.id (fun a ha => h a ha b hb)]

theorem list_max_replicate (n v : Nat) : list_max (List.replicate (n + 1) v) = v := by
  induction n with
  | zero => simp [list_max, List.replicate]
  | succ n ih =>
    rw [List.replicate_succ]
    simp only [list_max, List.foldr_cons] at ih ⊢
    rw [ih, max_self]

theorem max_over_docs_const (f : List term_data_t → Nat) (cur : term_data_t)
    (run : List term_data_t) (h : ∀ r ∈ run, r.id = cur.id) :
    max_over_docs f (cur :: run) = f (cur :: run) := by
  unfold max_over_docs
  have hall : ∀ r ∈ cur :: run, r.id = cur.id := by
    intro r hr
    rcases List.mem_cons.1 hr with h1 | h1
    · rw [h1]
    · exact h r h1
  have hmap : (cur :: run).map (fun r => f (doc_records (cur :: run) r.id)) =
      List.replicate (run.length + 1) (f (cur :: run)) := by
    rw [List.eq_replicate_iff]
    refine ⟨by simp, ?_⟩
    intro b hb
    obtain ⟨r, hr, rfl⟩ := List.mem_map.1 hb
    congr 1
    unfold doc_records
    rw [List.filter_eq_self]
    intro a ha
    simp [hall a ha, hall r hr]
  rw [hmap, list_max_replicate]

/-- In one document of the sorted stream only the first record can have
position 0. -/
theorem run_positions_ne_zero (cur : term_data_t) (run : List term_data_t)
    (hs : (cur :: run).Pairwise sort_lt) (h : ∀ r ∈ run, r.id = cur.id) :
    ∀ r ∈ run, r.position ≠ 0 := by
  intro r hr
  rw [List.pairwise_cons] at hs
  have := hs.1 r hr
  unfold sort_lt at this
  have := h r hr
  omega

theorem filter_all {α : Type} (p : α → Bool) (l : List α) (h : ∀ a ∈ l, p a = true) :
    l.filter p = l := List.filter_eq_self.2 h

theorem compress_single_id_snd (sid : Nat) (cur : term_data_t) (run : List term_data_t) :
    (compress_single_id sid cur run).2 =
      if run.length + 1 = 1 ∧ cur.position = 0 then 0
      else (if cur.position = 0 ∧ cur.value ≠ 0 then run.length else run.length + 1) % 2 ^ 32 := by
  rw [compress_single_id_eq]
  by_cases h1 : run.length + 1 = 1 ∧ cur.position = 0
  · rw [if_pos h1, if_pos h1]
  · rw [if_neg h1, if_neg h1]
    by_cases h2 : cur.position = 0 ∧ cur.value ≠ 0
    · simp only [h2, and_self, ne_eq, not_false_eq_true, decide_True, if_true]
    · simp only [h2, decide_False, if_false, Bool.false_eq_true, List.length_cons]

theorem stored_position_count_run (cur : term_data_t) (run : List term_data_t)
    (hne : ∀ r ∈ run, r.position ≠ 0) :
    stored_position_count (cur :: run) =
      if run.length + 1 = 1 ∧ cur.position = 0 then 0
      else (if cur.position = 0 ∧ cur.value ≠ 0 then run.length else run.length + 1) := by
  have hfilter : run.filter (fun r => decide (r.position ≠ 0)) = run :=
    filter_all _ _ (fun r hr => by simpa using hne r hr)
  have hany0 : run.any (fun r => decide (r.position = 0 ∧ r.value = 0)) = false := by
    rw [List.any_eq_false]
    intro r hr
    simp [hne r hr]
  have hany1 : run ≠ [] → run.any (fun r => decide (r.position ≠ 0)) = true := by
    intro h
    cases run with
    | nil => exact absurd rfl h
    | cons r run =>
      have := hne r (List.mem_cons_self _ _)
      simp [this]
  unfold stored_position_count position_count
  by_cases hp : cur.position = 0
  · rw [List.filter_cons_of_neg (by simp [hp]), hfilter, List.any_cons, List.any_cons, hany0]
    by_cases hv : cur.value = 0
    · cases run with
      | nil => simp [hp, hv]
      | cons r run =>
        rw [hany1 (List.cons_ne_nil _ _)]
        simp [hp, hv]
    · cases run with
      | nil => simp [hp, hv]
      | cons r run => simp [hp, hv]
  · rw [List.filter_cons_of_pos (by simp [hp]), hfilter, List.any_cons, hany0]
    simp [hp]

/-- What `compress_single_id` returns for one document of the sorted stream. -/
theorem compress_single_id_num_positions (sid : Nat) (cur : term_data_t)
    (run : List term_data_t) (hlen : (cur :: run).length < 2 ^ 32)
    (hs : (cur :: run).Pairwise sort_lt) (h : ∀ r ∈ run, r.id = cur.id) :
    (compress_single_id sid cur run).2 = stored_position_count (cur :: run) := by
  have hne := run_positions_ne_zero cur run hs h
  rw [compress_single_id_snd, stored_position_count_run cur run hne]
  simp only [List.length_cons] at hlen
  split
  · rfl
  · apply Nat.mod_eq_of_lt
    split <;> omega

theorem ite_gt_eq_max (a b : Nat) : (if a > b then a else b) = max a b := by
  split <;> omega

theorem max_over_docs_append_ite (f : List term_data_t → Nat) (A B : List term_data_t)
    (h : ∀ a ∈ A, ∀ b ∈ B, a.id ≠ b.id) :
    max_over_docs f (A ++ B) =
      if max_over_docs f A > max_over_docs f B then max_over_docs f A else max_over_docs f B := by
  rw [ite_gt_eq_max, max_over_docs_append f A B h]

theorem sort_lt_id_le (a b : term_data_t) (h : sort_lt a b) : a.id ≤ b.id := by
  unfold sort_lt at h; omega

theorem small_group_max (c : Nat) (fuel : Nat) (l : List term_data_t) (hl : l.length ≤ fuel)
    (hN : l.length ≤ 2 ^ 32 - 1) (hs : l.Pairwise sort_lt)
    (hQ : ∀ r ∈ l, r.id < 2 ^ 26 ∧ r.id &&& 0x3FFFC00 = c) :
    (compress_small_group_loop fuel l).2.2 = max_over_docs stored_position_count l := by
  refine level_fold (fun x => x &&& SMALL_GROUP_MASK)
    (fun r => r.id < 2 ^ 26 ∧ r.id &&& 0x3FFFC00 = c) sort_lt (2 ^ 32 - 1)
    (fun a b => if a > b then a else b) (max_over_docs stored_position_count)
    (fun l => match l with
      | [] => 0
      | cur :: run =>
        (compress_single_id (((cur.id &&& SMALL_GROUP_MASK) <<< SMALL_GROUP_SHIFT) % 2 ^ 16)
          cur run).2)
    (fun fuel l => (compress_small_group_loop fuel l).2.2)
    ?_ ?_ ?_ ?_ ?_ ?_ fuel l hl hN hs hQ
  · intro fuel; cases fuel <;> rfl
  · intro fuel cur rest; rfl
  · exact max_over_docs_append_ite _
  · intro cur run hlen hs hQ hk
    have hcur := hQ cur (List.mem_cons_self _ _)
    have hids : ∀ r ∈ run, r.id = cur.id := by
      intro r hr
      have hr2 := hQ r (List.mem_cons_of_mem _ hr)
      exact id_eq_of_keys cur.id r.id c hcur.1 hr2.1 hcur.2 hr2.2 (hk r hr)
    show (compress_single_id _ cur run).2 = _
    rw [max_over_docs_const _ cur run hids]
    exact compress_single_id_num_positions _ cur run (by omega) hs hids
  · exact sort_lt_id_le
  · intro a b ha hb hab
    have h1 := ha.2
    have h2 := hb.2
    rw [and_group_mask a.id ha.1] at h1
    rw [and_group_mask b.id hb.1] at h2
    show a.id &&& SMALL_GROUP_MASK ≤ b.id &&& SMALL_GROUP_MASK
    rw [and_small_mask, and_small_mask]
    omega

theorem mid_groups_max (c : Nat) (fuel : Nat) (l : List term_data_t) (hl : l.length ≤ fuel)
    (hN : l.length ≤ 2 ^ 32 - 1) (hs : l.Pairwise sort_lt)
    (hQ : ∀ r ∈ l, r.id < 2 ^ 26 ∧ r.id &&& 0x3FC0000 = c) :
    (compress_mid_groups_loop fuel l).2.2 = max_over_docs stored_position_count l := by
  refine level_fold (fun x => x &&& 0x3FFFC00)
    (fun r => r.id < 2 ^ 26 ∧ r.id &&& 0x3FC0000 = c) sort_lt (2 ^ 32 - 1)
    (fun a b => if a > b then a else b) (max_over_docs stored_position_count)
    (fun l => (compress_small_group_data_into_group l).2.2)
    (fun fuel l => (compress_mid_groups_loop fuel l).2.2)
    ?_ ?_ ?_ ?_ ?_ ?_ fuel l hl hN hs hQ
  · intro fuel; cases fuel <;> rfl
  · intro fuel cur rest; rfl
  · exact max_over_docs_append_ite _
  · intro cur run hlen hs hQ hk
    refine small_group_max (cur.id &&& 0x3FFFC00) _ _ (le_refl _) hlen hs ?_
    intro r hr
    refine ⟨(hQ r hr).1, ?_⟩
    rcases List.mem_cons.1 hr with h | h
    · rw [h]
    · exact hk r h
  · exact sort_lt_id_le
  · intro a b ha hb hab
    show a.id &&& 0x3FFFC00 ≤ b.id &&& 0x3FFFC00
    rw [and_group_mask a.id ha.1, and_group_mask b.id hb.1]
    omega

theorem groups_max (fuel : Nat) (l : List term_data_t) (hl : l.length ≤ fuel)
    (hN : l.length ≤ 2 ^ 32 - 1) (hs : l.Pairwise sort_lt)
    (hQ : ∀ r ∈ l, r.id < 2 ^ 26) :
    (compress_groups_loop fuel l).2.2 = max_over_docs stored_position_count l := by
  refine level_fold (fun x => x &&& 0x3FC0000)
    (fun r => r.id < 2 ^ 26) sort_lt (2 ^ 32 - 1)
    (fun a b => if a > b then a else b) (max_over_docs stored_position_count)
    (fun l => (compress_mid_groups_loop l.length l).2.2)
    (fun fuel l => (compress_groups_loop fuel l).2.2)
    ?_ ?_ ?_ ?_ ?_ ?_ fuel l hl hN hs hQ
  · intro fuel; cases fuel <;> rfl
  · intro fuel cur rest; rfl
  · exact max_over_docs_append_ite _
  · intro cur run hlen hs hQ hk
    refine mid_groups_max (cur.id &&& 0x3FC0000) _ _ (le_refl _) hlen hs ?_
    intro r hr
    refine ⟨hQ r hr, ?_⟩
    rcases List.mem_cons.1 hr with h | h
    · rw [h]
    · exact hk r h
  · exact sort_lt_id_le
  · intro a b ha hb hab
    show a.id &&& 0x3FC0000 ≤ b.id &&& 0x3FC0000
    rw [and_top_mask a.id ha, and_top_mask b.id hb]
    omega

theorem list_max_le (l : List Nat) (n : Nat) (h : ∀ x ∈ l, x ≤ n) : list_max l ≤ n := by
  induction l with
  | nil => simp [list_max]
  | cons x l ih =>
    simp only [list_max, List.foldr_cons] at ih ⊢
    exact max_le (h x (List.mem_cons_self _ _)) (ih (fun y hy => h y (List.mem_cons_of_mem _ hy)))

theorem stored_position_count_le (rs : List term_data_t) :
    stored_position_count rs ≤ rs.length := by
  unfold stored_position_count position_count
  have h1 := List.length_filter_le (fun r : term_data_t => decide (r.position ≠ 0)) rs
  split
  · rename_i h
    have h2 : (rs.filter (fun r => decide (r.position ≠ 0))).length < rs.length := by
      obtain ⟨r, hr, hr0⟩ := List.any_eq_true.1 h.1
      rw [List.length_filter_lt_length_iff_exists]
      refine ⟨r, hr, ?_⟩
      simp only [decide_eq_true_eq] at hr0
      simp [hr0.1]
    omega
  · omega

theorem max_over_docs_stored_le (l : List term_data_t) :
    max_over_docs stored_position_count l ≤ l.length := by
  unfold max_over_docs
  apply list_max_le
  intro x hx
  obtain ⟨r, _, rfl⟩ := List.mem_map.1 hx
  refine le_trans (stored_position_count_le _) ?_
  exact List.length_filter_le _ _

/-- C9, as the code has it: for a term with fewer than 2^32 records, given in
the order of the sort (strictly ascending `(id, position)`) and with doc ids
below 2^26, the `max_positions` returned by `compress_groups` and written to
the term header (bytes 4..7 of the term's record) is the largest, over the
term's documents, of the number of positions stored for the document: its
records with a position other than 0, plus one for a record with position 0
and value 0 that shares the document with a record at another position. -/
theorem max_positions_eq_max_stored (records : List term_data_t)
    (hlen : records.length < 2 ^ 32)
    (hsorted : records.Pairwise sort_lt)
    (hid : ∀ r ∈ records, r.id < 2 ^ 26) :
    (compress_groups records).2.2 = max_over_docs stored_position_count records ∧
    rd32 ((term_record records).drop 4) 0 = max_over_docs stored_position_count records := by
  have h1 : (compress_groups records).2.2 = max_over_docs stored_position_count records :=
    groups_max _ _ (le_refl _) (by omega) hsorted hid
  refine ⟨h1, ?_⟩
  have h2 : (term_record records).drop 4 =
      le32 (compress_groups records).2.2 ++
        (le32 (compress_groups records).2.1 ++ (compress_groups records).1) := by
    simp [term_record, le32]
  rw [h2, rd32_le32, h1]
  rw [h1]
  have := max_over_docs_stored_le records
  omega

/-- C9, witness of the amended statement: document 1 with a doc-level `term()`
record and positions 5 and 9, document 2 with one position. -/
theorem max_positions_eq_max_stored_witness :
    max_over_docs stored_position_count
      [⟨1, 0, 0⟩, ⟨1, 5, 0⟩, ⟨1, 9, 0⟩, ⟨2, 4, 0⟩] = 3 ∧
    (compress_groups [⟨1, 0, 0⟩, ⟨1, 5, 0⟩, ⟨1, 9, 0⟩, ⟨2, 4, 0⟩]).2.2
      = max_over_docs stored_position_count [⟨1, 0, 0⟩, ⟨1, 5, 0⟩, ⟨1, 9, 0⟩, ⟨2, 4, 0⟩] :=
  ⟨by decide,
    (max_positions_eq_max_stored [⟨1, 0, 0⟩, ⟨1, 5, 0⟩, ⟨1, 9, 0⟩, ⟨2, 4, 0⟩]
      (by decide) (by decide) (by decide)).1⟩

/-- C9, as stated, fails: a term added to document 1 by `term()` and by
`term_position(5, ..)` has one position in its only document, and the
`max_positions` written for it is 2. -/
theorem max_positions_counts_doc_level_record :
    max_over_docs position_count [⟨1, 0, 0⟩, ⟨1, 5, 0⟩] = 1 ∧
    (compress_groups [⟨1, 0, 0⟩, ⟨1, 5, 0⟩]).2.2 = 2 ∧
    rd32 ((term_record [⟨1, 0, 0⟩, ⟨1, 5, 0⟩]).drop 4) 0 = 2 := by
  decide

/-! ## Buffers -/

theorem holds_append (mem : List Nat) (p : Nat) (a b : List Nat) :
    holds mem p (a ++ b) ↔ holds mem p a ∧ holds mem (p + a.length) b := by
  induction a generalizing p with
  | nil => simp [holds]
  | cons x a ih =>
    show (rd8 mem p = x ∧ holds mem (p + 1) (a ++ b)) ↔
      ((rd8 mem p = x ∧ holds mem (p + 1) a) ∧ holds mem (p + (a.length + 1)) b)
    rw [ih (p + 1), show p + 1 + a.length = p + (a.length + 1) by omega, and_assoc]

theorem rd8_append_right (a b : List Nat) (i : Nat) : rd8 (a ++ b) (a.length + i) = rd8 b i := by
  unfold rd8
  rw [List.getD_eq_getElem?_getD, List.getD_eq_getElem?_getD,
    List.getElem?_append_right (by omega)]
  simp

theorem holds_shift (pre mem : List Nat) (p : Nat) (bs : List Nat) :
    holds (pre ++ mem) (pre.length + p) bs ↔ holds mem p bs := by
  induction bs generalizing p with
  | nil => simp [holds]
  | cons x bs ih =>
    show (rd8 (pre ++ mem) (pre.length + p) = x ∧ holds (pre ++ mem) (pre.length + p + 1) bs) ↔
      (rd8 mem p = x ∧ holds mem (p + 1) bs)
    rw [rd8_append_right, Nat.add_assoc, ih]

theorem holds_self (a b : List Nat) : holds (a ++ b) 0 a := by
  induction a with
  | nil => trivial
  | cons x a ih =>
    refine ⟨rfl, ?_⟩
    have := (holds_shift [x] (a ++ b) 0 a).2 ih
    simpa using this

theorem holds_mid (pre bs post : List Nat) : holds (pre ++ bs ++ post) pre.length bs := by
  rw [List.append_assoc]
  have := (holds_shift pre (bs ++ post) 0 bs).2 (holds_self bs post)
  simpa using this

theorem sub32_of_le (a b : Nat) (h : b ≤ a) (h2 : a - b < 2 ^ 32) : sub32 a b = a - b := by
  unfold sub32
  rw [if_pos h, Nat.mod_eq_of_lt h2]

/-! ## Varint round trip below 2^28 -/

theorem and_7F (x : Nat) : x &&& 0x7F = x % 128 := Nat.and_pow_two_sub_one_eq_mod x 7

theorem shr_7 (x : Nat) : x >>> 7 = x / 128 := Nat.shiftRight_eq_div_pow x 7

theorem or_80 (b : Nat) (h : b < 128) : b ||| 0x80 = b + 128 := by
  rw [Nat.or_comm]
  have := or_eq_add_of_lt 1 b 7 h
  simpa [Nat.add_comm] using this

theorem or_shl (a b k : Nat) (ha : a < 2 ^ k) : a ||| (b <<< k) = a + b * 2 ^ k := by
  rw [Nat.shiftLeft_eq, Nat.or_comm, or_eq_add_of_lt _ _ _ ha, Nat.add_comm]

theorem and_80_low : ∀ b, b < 128 → b &&& 0x80 = 0 := by decide

theorem and_80_high : ∀ b, b < 128 → (b + 128) &&& 0x80 ≠ 0 := by decide

theorem encode_high_bit_loop_step (fuel v : Nat) :
    encode_high_bit_loop (fuel + 1) v =
      if v / 128 ≠ 0 then (v % 128 + 128) :: encode_high_bit_loop fuel (v / 128)
      else [v % 128] := by
  show (if v >>> 7 ≠ 0 then ((v &&& 0x7F) ||| 0x80) :: encode_high_bit_loop fuel (v >>> 7)
      else [v &&& 0x7F]) = _
  rw [shr_7, and_7F, or_80 _ (Nat.mod_lt _ (by norm_num))]

theorem encode_high_bit_1 (v : Nat) (h : v < 2 ^ 7) : encode_high_bit v = [v] := by
  unfold encode_high_bit
  rw [Nat.mod_eq_of_lt (by omega), encode_high_bit_loop_step]
  rw [if_neg (by omega)]
  congr 1; omega

theorem encode_high_bit_2 (v : Nat) (h1 : 2 ^ 7 ≤ v) (h : v < 2 ^ 14) :
    encode_high_bit v = [v % 128 + 128, v / 128] := by
  unfold encode_high_bit
  rw [Nat.mod_eq_of_lt (by omega), encode_high_bit_loop_step, if_pos (by omega),
    encode_high_bit_loop_step, if_neg (by omega)]
  congr 2; omega

theorem encode_high_bit_3 (v : Nat) (h1 : 2 ^ 14 ≤ v) (h : v < 2 ^ 21) :
    encode_high_bit v = [v % 128 + 128, v / 128 % 128 + 128, v / 16384] := by
  unfold encode_high_bit
  rw [Nat.mod_eq_of_lt (by omega), encode_high_bit_loop_step, if_pos (by omega),
    encode_high_bit_loop_step, if_pos (by omega), encode_high_bit_loop_step, if_neg (by omega)]
  congr 3; omega

theorem encode_high_bit_4 (v : Nat) (h1 : 2 ^ 21 ≤ v) (h : v < 2 ^ 28) :
    encode_high_bit v =
      [v % 128 + 128, v / 128 % 128 + 128, v / 16384 % 128 + 128, v / 2097152] := by
  unfold encode_high_bit
  rw [Nat.mod_eq_of_lt (by omega), encode_high_bit_loop_step, if_pos (by omega),
    encode_high_bit_loop_step, if_pos (by omega), encode_high_bit_loop_step, if_pos (by omega),
    encode_high_bit_loop_step, if_neg (by omega)]
  congr 3
  · omega
  · congr 1; omega

/-- The number of bytes of a varint. -/
theorem encode_high_bit_length (v : Nat) (h : v < 2 ^ 28) :
    (encode_high_bit v).length =
      if v < 2 ^ 7 then 1 else if v < 2 ^ 14 then 2 else if v < 2 ^ 21 then 3 else 4 := by
  by_cases h1 : v < 2 ^ 7
  · rw [encode_high_bit_1 v h1, if_pos h1]; rfl
  · by_cases h2 : v < 2 ^ 14
    · rw [encode_high_bit_2 v (by omega) h2, if_neg h1, if_pos h2]; rfl
    · by_cases h3 : v < 2 ^ 21
      · rw [encode_high_bit_3 v (by omega) h3, if_neg h1, if_neg h2, if_pos h3]; rfl
      · rw [encode_high_bit_4 v (by omega) h, if_neg h1, if_neg h2, if_neg h3]; rfl

/-- Decoding a varint below 2^28 from a buffer that holds its bytes returns the
value and the pointer behind the last byte. -/
theorem decode_encode_high_bit (mem : List Nat) (p v : Nat) (hv : v < 2 ^ 28)
    (h : holds mem p (encode_high_bit v)) :
    __decode_high_bit32 mem p = (v, p + (encode_high_bit v).length) := by
  by_cases h1 : v < 2 ^ 7
  · rw [encode_high_bit_1 v h1] at h ⊢
    simp only [holds, and_true] at h
    unfold __decode_high_bit32
    simp only [h]
    rw [if_pos (and_80_low v h1)]
    rfl
  · by_cases h2 : v < 2 ^ 14
    · rw [encode_high_bit_2 v (by omega) h2] at h ⊢
      simp only [holds, and_true] at h
      unfold __decode_high_bit32
      simp only [h.1, h.2]
      rw [if_neg (and_80_high _ (Nat.mod_lt _ (by norm_num))),
        if_pos (and_80_low _ (by omega))]
      simp only [Nat.add_sub_cancel]
      rw [or_shl (v % 128) (v / 128) 7 (by omega)]
      simp only [List.length_cons, List.length_nil, Prod.mk.injEq, Nat.reducePow]
      constructor <;> first | omega | trivial
    · by_cases h3 : v < 2 ^ 21
      · rw [encode_high_bit_3 v (by omega) h3] at h ⊢
        simp only [holds, and_true] at h
        unfold __decode_high_bit32
        simp only [h.1, h.2.1, h.2.2]
        rw [if_neg (and_80_high _ (Nat.mod_lt _ (by norm_num))),
          if_neg (and_80_high _ (Nat.mod_lt _ (by norm_num))),
          if_pos (and_80_low _ (by omega))]
        simp only [Nat.add_sub_cancel]
        rw [or_shl (v % 128) (v / 128 % 128) 7 (by omega),
          or_shl (v % 128 + v / 128 % 128 * 2 ^ 7) (v / 16384) 14 (by omega)]
        simp only [List.length_cons, List.length_nil, Prod.mk.injEq, Nat.reducePow]
        constructor <;> first | omega | trivial
      · rw [encode_high_bit_4 v (by omega) hv] at h ⊢
        simp only [holds, and_true] at h
        unfold __decode_high_bit32
        simp only [h.1, h.2.1, h.2.2.1, h.2.2.2]
        rw [if_neg (and_80_high _ (Nat.mod_lt _ (by norm_num))),
          if_neg (and_80_high _ (Nat.mod_lt _ (by norm_num))),
          if_neg (and_80_high _ (Nat.mod_lt _ (by norm_num))),
          if_pos (and_80_low _ (by omega))]
        simp only [Nat.add_sub_cancel]
        rw [or_shl (v % 128) (v / 128 % 128) 7 (by omega),
          or_shl (v % 128 + v / 128 % 128 * 2 ^ 7) (v / 16384 % 128) 14 (by omega),
          or_shl (v % 128 + v / 128 % 128 * 2 ^ 7 + v / 16384 % 128 * 2 ^ 14) (v / 2097152) 21
            (by omega)]
        simp only [List.length_cons, List.length_nil, Prod.mk.injEq, Nat.reducePow]
        constructor <;> first | omega | trivial

theorem rd16_holds (mem : List Nat) (p v : Nat) (hv : v < 65536) (h : holds mem p (le16 v)) :
    rd16 mem p = v := by
  simp only [le16, holds, and_true] at h
  unfold rd16
  rw [h.1, h.2]
  omega

theorem rd32_holds (mem : List Nat) (p v : Nat) (hv : v < 2 ^ 32) (h : holds mem p (le32 v)) :
    rd32 mem p = v := by
  simp only [le32, holds, and_true] at h
  unfold rd32
  rw [h.1, h.2.1, h.2.2.1, h.2.2.2]
  omega

theorem flags_low : ∀ f, f < 32 → f &&& SMALL_GROUP_POS_MASK = 0 := by decide

theorem value_code_lt (v : Nat) : (value_code v).1 < 32 := by
  unfold value_code SMALL_GROUP_1BYTE_VALUE SMALL_GROUP_2BYTE_VALUE SMALL_GROUP_4BYTE_VALUE
  split_ifs <;> omega

/-- Decoding the single-value form returns the stored value and the pointer
behind the record; `wp` is set to the same pointer. -/
theorem decode_value_code (mem : List Nat) (t : sil_term_ext_t) (v p : Nat) (hv : v < 2 ^ 32)
    (h : holds mem p (value_code v).2) :
    decode_body mem t (value_code v).1 p =
      { t with value := v, p := p + (value_code v).2.length,
               wp := p + (value_code v).2.length } := by
  unfold decode_body
  rw [if_neg (by rw [flags_low _ (value_code_lt v)]; simp)]
  unfold decode_single_value
  unfold value_code at h ⊢
  simp only [SMALL_GROUP_1BYTE_VALUE, SMALL_GROUP_2BYTE_VALUE, SMALL_GROUP_4BYTE_VALUE] at h ⊢
  by_cases h1 : v < 29
  · simp [h1]
  · by_cases h2 : v < 256
    · simp only [h1, h2, if_true, if_false] at h ⊢
      simp only [holds, and_true] at h
      simp [h, Nat.mod_eq_of_lt h2]
    · by_cases h3 : v < 65536
      · simp only [h1, h2, h3, if_true, if_false] at h ⊢
        rw [rd16_holds mem p v h3 h]
        simp [le16]
      · simp only [h1, h2, h3, if_false] at h ⊢
        rw [rd32_holds mem p v hv h]
        simp [le32]

theorem decode_position_value_holds (mem : List Nat) (v p : Nat) (hv : v < 2 ^ 32)
    (h : holds mem p (encode_position_value v)) :
    decode_position_value mem p = (v, p + (encode_position_value v).length) := by
  unfold encode_position_value at h ⊢
  unfold decode_position_value
  simp only [SMALL_GROUP_2BYTE_POS_VALUE, SMALL_GROUP_4BYTE_POS_VALUE] at h ⊢
  by_cases h1 : v < 254
  · simp only [h1, if_true, holds, and_true] at h ⊢
    rw [h, Nat.mod_eq_of_lt (by omega)]
    simp [h1]
  · by_cases h2 : v < 255
    · simp only [h1, h2, if_true, if_false, holds] at h ⊢
      rw [h.1]
      simp only [show ¬ (254 < 254) by omega, show (254 < 255) by omega, if_true, if_false]
      rw [rd16_holds mem (p + 1) v (by omega) h.2]
      simp [le16]
    · simp only [h1, h2, if_false, holds] at h ⊢
      rw [h.1]
      simp only [show ¬ (255 < 254) by omega, show ¬ (255 < 255) by omega, if_false]
      rw [rd32_holds mem (p + 1) v hv h.2]
      simp [le32]

theorem flag_facts : ∀ h, h < 2 → ∀ fb, fb < 4 → ∀ l, l < 4 →
    (((h * 16 ||| 0x20) ||| fb) ||| (l <<< 2)) < 64 ∧
    (((h * 16 ||| 0x20) ||| fb) ||| (l <<< 2)) &&& 0x20 ≠ 0 ∧
    ((((h * 16 ||| 0x20) ||| fb) ||| (l <<< 2)) &&& 0x10 ≠ 0 ↔ h = 1) ∧
    (((((h * 16 ||| 0x20) ||| fb) ||| (l <<< 2)) &&& 0xF) &&& 0x3) = fb ∧
    ((((h * 16 ||| 0x20) ||| fb) ||| (l <<< 2)) &&& 0xF) >>> 2 = l := by
  decide

theorem first_base_bits (x : Nat) :
    (x &&& FIRST_POSITION_BASE) >>> 7 < 4 ∧
    ((x &&& FIRST_POSITION_BASE) >>> 7) <<< 7 = x &&& FIRST_POSITION_BASE ∧
    x &&& FIRST_POSITION_BASE ≤ x ∧ x &&& FIRST_POSITION_BASE < 512 := by
  have h := and_mask x 7 9 (by norm_num)
  have h2 : x &&& FIRST_POSITION_BASE = x % 512 / 128 * 128 := h
  rw [h2, Nat.shiftRight_eq_div_pow, Nat.shiftLeft_eq]
  refine ⟨?_, ?_, ?_, ?_⟩ <;> omega

theorem encode_high_bit_ne_nil (v : Nat) : 1 ≤ (encode_high_bit v).length := by
  unfold encode_high_bit
  rw [encode_high_bit_loop_step]
  split <;> simp

theorem encode_term_positions_length (ps : List Nat) (h : ps ≠ []) :
    1 ≤ (encode_term_positions ps).1.length := by
  cases ps with
  | nil => exact absurd rfl h
  | cons x xs =>
    unfold encode_term_positions
    simp only [encode_term_positions_loop, List.length_append]
    have := encode_high_bit_ne_nil (sub32 x (List.headD (x :: xs) 0 &&& FIRST_POSITION_BASE))
    omega

/-- Decoding the positional form: the value (when one is stored), the start of
the positions blob, the first base and the pointer behind the record. Without
a stored value `pub.value` keeps what it held. The positions blob must be at
most 2^28 bytes long. -/
theorem decode_positions_code (mem : List Nat) (t : sil_term_ext_t) (hv : Bool) (v : Nat)
    (ps : List Nat) (p : Nat) (hv32 : v < 2 ^ 32) (hps : ps ≠ [])
    (hlen : (encode_term_positions ps).1.length ≤ 2 ^ 28)
    (h : holds mem p (positions_code hv v ps).2) :
    (positions_code hv v ps).1 < 64 ∧
    decode_body mem t (positions_code hv v ps).1 p =
      { t with value := if hv then v else t.value,
               wp := p + (positions_code hv v ps).2.length - (encode_term_positions ps).1.length,
               first_base := (encode_term_positions ps).2,
               p := p + (positions_code hv v ps).2.length } := by
  have hfb := first_base_bits (ps.headD 0)
  have hl1 := encode_term_positions_length ps hps
  have henc2 : (encode_term_positions ps).2 = ps.headD 0 &&& FIRST_POSITION_BASE := rfl
  set tmp := (encode_term_positions ps).1 with htmp
  set fb := (encode_term_positions ps).2 >>> 7 with hfbdef
  have hfb4 : fb < 4 := by rw [hfbdef, henc2]; exact hfb.1
  have hfbs : fb <<< 7 = (encode_term_positions ps).2 := by rw [hfbdef, henc2]; exact hfb.2.1
  set len := sub32 tmp.length 1 with hlendef
  have hlen_eq : len = tmp.length - 1 := by
    rw [hlendef]; exact sub32_of_le _ _ hl1 (by omega)
  set hb : Nat := if hv then 1 else 0 with hhb
  have hhb2 : hb < 2 := by rw [hhb]; split <;> omega
  have hh : (if hv then SMALL_GROUP_VALUE_PRESENT_MASK else 0) = hb * 16 := by
    rw [hhb]; cases hv <;> rfl
  -- the flags and the tail, in both length classes
  set l : Nat := if len < 3 then len else 3 with hl
  have hl4 : l < 4 := by rw [hl]; split <;> omega
  have hflags : (positions_code hv v ps).1 = ((hb * 16 ||| 0x20) ||| fb) ||| (l <<< 2) := by
    unfold positions_code
    simp only [← htmp, ← hlendef, hh, SMALL_GROUP_POS_MASK, SMALL_GROUP_EXTENDED_POS_LENGTH]
    by_cases h3 : len < 3
    · rw [if_pos h3, hl, if_pos h3]
    · rw [if_neg h3, hl, if_neg h3]; rfl
  have htail : (positions_code hv v ps).2 =
      (if hv then encode_position_value v else []) ++
        ((if len < 3 then [] else encode_high_bit len) ++ tmp) := by
    unfold positions_code
    simp only [← htmp, ← hlendef]
    by_cases h3 : len < 3
    · rw [if_pos h3, if_pos h3]
      simp only [List.nil_append]
    · rw [if_neg h3, if_neg h3]
      simp only [List.append_assoc]
  obtain ⟨f1, f2, f3, f4, f5⟩ := flag_facts hb hhb2 fb hfb4 l hl4
  rw [hflags]
  refine ⟨f1, ?_⟩
  rw [htail] at h ⊢
  rw [holds_append, holds_append] at h
  unfold decode_body
  simp only [SMALL_GROUP_POS_MASK, SMALL_GROUP_VALUE_PRESENT_MASK]
  rw [if_pos f2]
  -- the value
  have hval : (if ((((hb * 16 ||| 0x20) ||| fb) ||| (l <<< 2)) &&& 0x10) ≠ 0
        then decode_position_value mem p else (t.value, p)) =
      (if hv then v else t.value, p + (if hv then encode_position_value v else []).length) := by
    cases hv with
    | true =>
      have : hb = 1 := by rw [hhb]; rfl
      rw [if_pos (f3.2 this)]
      simp only [if_true] at h ⊢
      exact decode_position_value_holds mem v p hv32 h.1
    | false =>
      have : ¬ hb = 1 := by rw [hhb]; simp
      rw [if_neg (fun hc => this (f3.1 hc))]
      simp
  rw [hval]
  simp only
  set q := p + (if hv then encode_position_value v else []).length with hq
  unfold decode_term_positions
  simp only [SMALL_GROUP_POS_LENGTH_MASK]
  rw [f4, f5, hfbs]
  by_cases h3 : len < 3
  · have hl' : l = len := by rw [hl, if_pos h3]
    rw [if_pos (show l < 3 by omega)]
    simp only [if_pos h3, List.length_append, List.nil_append, List.length_nil]
    have e1 : q + l + 1 = q + tmp.length := by omega
    have e2 : p + ((if hv then encode_position_value v else []).length + tmp.length)
        - tmp.length = q := by omega
    have e3 : p + ((if hv then encode_position_value v else []).length + tmp.length)
        = q + tmp.length := by omega
    rw [e1, e2, e3]
  · have hl' : l = 3 := by rw [hl, if_neg h3]
    rw [if_neg (show ¬ l < 3 by omega)]
    simp only [if_neg h3, List.length_append] at h ⊢
    rw [decode_encode_high_bit mem q len (by omega) h.2.1]
    simp only
    have e1 : q + (encode_high_bit len).length + len + 1 =
        q + ((encode_high_bit len).length + tmp.length) := by omega
    have e2 : p + ((if hv then encode_position_value v else []).length +
        ((encode_high_bit len).length + tmp.length)) - tmp.length =
        q + (encode_high_bit len).length := by omega
    have e3 : p + ((if hv then encode_position_value v else []).length +
        ((encode_high_bit len).length + tmp.length)) =
        q + ((encode_high_bit len).length + tmp.length) := by omega
    rw [e1, e2, e3]

/-! ## Positions round trip -/

theorem decode_positions_roundtrip (mem : List Nat) :
    ∀ (ps : List Nat) (p last fuel : Nat), deltas_ok last ps →
      holds mem p (encode_term_positions_loop last ps) →
      (encode_term_positions_loop last ps).length ≤ fuel →
      decode_positions_loop fuel mem p (p + (encode_term_positions_loop last ps).length) last
        = ps := by
  intro ps
  induction ps with
  | nil =>
    intro p last fuel _ _ _
    cases fuel with
    | zero => rfl
    | succ fuel =>
      show (if p < p + 0 then _ else []) = []
      rw [if_neg (by omega)]
  | cons x xs ih =>
    intro p last fuel hok h hfuel
    obtain ⟨h1, h2, h3, h4⟩ := hok
    have hd : sub32 x last = x - last := sub32_of_le x last h1 (by omega)
    have henc : encode_term_positions_loop last (x :: xs) =
        encode_high_bit (x - last) ++ encode_term_positions_loop x xs := by
      show encode_high_bit (sub32 x last) ++ _ = _
      rw [hd]
    rw [henc] at h hfuel ⊢
    rw [holds_append] at h
    have hE := encode_high_bit_ne_nil (x - last)
    rw [List.length_append] at hfuel ⊢
    cases fuel with
    | zero => omega
    | succ fuel =>
      show (if p < _ then _ else []) = _
      rw [if_pos (by omega)]
      rw [decode_encode_high_bit mem p (x - last) h2 h.1]
      simp only
      have hx : (last + (x - last)) % 2 ^ 32 = x := by
        rw [Nat.add_sub_cancel' h1, Nat.mod_eq_of_lt h3]
      rw [hx]
      have hp : p + ((encode_high_bit (x - last)).length + (encode_term_positions_loop x xs).length)
          = p + (encode_high_bit (x - last)).length + (encode_term_positions_loop x xs).length := by
        omega
      rw [hp, ih (p + (encode_high_bit (x - last)).length) x fuel h4 h.2 (by omega)]

theorem encode_high_bit_length_le (d : Nat) (h1 : 1 ≤ d) (h2 : d < 2 ^ 28) :
    (encode_high_bit d).length ≤ d := by
  rw [encode_high_bit_length d h2]
  split_ifs <;> omega

/-- Strictly ascending positions below 2^28 are represented exactly. -/
theorem deltas_ok_of_ascending : ∀ (ps : List Nat) (last : Nat),
    (last :: ps).Pairwise (fun a b => a < b) → (∀ x ∈ ps, x < 2 ^ 28) → deltas_ok last ps := by
  intro ps
  induction ps with
  | nil => intro _ _ _; trivial
  | cons x xs ih =>
    intro last hs hb
    rw [List.pairwise_cons] at hs
    have hx := hs.1 x (List.mem_cons_self _ _)
    have hx2 := hb x (List.mem_cons_self _ _)
    refine ⟨by omega, by omega, by omega, ?_⟩
    exact ih x hs.2 (fun y hy => hb y (List.mem_cons_of_mem _ hy))

theorem encode_loop_length_le : ∀ (ps : List Nat) (last B : Nat),
    (last :: ps).Pairwise (fun a b => a < b) → (∀ x ∈ ps, x ≤ B) → last ≤ B → B < 2 ^ 28 →
    (encode_term_positions_loop last ps).length ≤ B - last := by
  intro ps
  induction ps with
  | nil => intro _ _ _ _ _ _; simp [encode_term_positions_loop]
  | cons x xs ih =>
    intro last B hs hb hl hB
    rw [List.pairwise_cons] at hs
    have hx := hs.1 x (List.mem_cons_self _ _)
    have hx2 := hb x (List.mem_cons_self _ _)
    show (encode_high_bit (sub32 x last) ++ encode_term_positions_loop x xs).length ≤ _
    rw [sub32_of_le x last (by omega) (by omega), List.length_append]
    have h1 := encode_high_bit_length_le (x - last) (by omega) (by omega)
    have h2 := ih x B hs.2 (fun y hy => hb y (List.mem_cons_of_mem _ hy)) hx2 hB
    omega

theorem list_le_of_ascending (x : Nat) (xs : List Nat) (B : Nat)
    (hb : ∀ y ∈ x :: xs, y < B) : ∀ y ∈ xs, y ≤ B - 1 := by
  intro y hy
  have := hb y (List.mem_cons_of_mem _ hy)
  omega

/-- The positions blob of strictly ascending positions in `[1, 2^28)` is
shorter than 2^28 bytes and decodes to the positions. -/
theorem ascending_positions_facts (x : Nat) (xs : List Nat)
    (hs : (x :: xs).Pairwise (fun a b => a < b)) (hb : ∀ y ∈ x :: xs, 1 ≤ y ∧ y < 2 ^ 28) :
    (encode_term_positions (x :: xs)).1.length ≤ 2 ^ 28 ∧
    deltas_ok (encode_term_positions (x :: xs)).2 (x :: xs) := by
  have hfb := first_base_bits x
  have hx := hb x (List.mem_cons_self _ _)
  have hs' := hs
  rw [List.pairwise_cons] at hs'
  constructor
  · show (encode_high_bit (sub32 x (x &&& FIRST_POSITION_BASE)) ++
        encode_term_positions_loop x xs).length ≤ _
    rw [sub32_of_le x _ hfb.2.2.1 (by omega), List.length_append]
    have h2 := encode_loop_length_le xs x (2 ^ 28 - 1) hs
      (fun y hy => by have := (hb y (List.mem_cons_of_mem _ hy)).2; omega) (by omega) (by omega)
    have h1 : (encode_high_bit (x - (x &&& FIRST_POSITION_BASE))).length ≤ x := by
      by_cases h0 : x - (x &&& FIRST_POSITION_BASE) = 0
      · rw [h0, encode_high_bit_1 0 (by norm_num)]
        simp only [List.length_cons, List.length_nil]
        omega
      · have := encode_high_bit_length_le (x - (x &&& FIRST_POSITION_BASE)) (by omega) (by omega)
        omega
    omega
  · show deltas_ok (x &&& FIRST_POSITION_BASE) (x :: xs)
    refine ⟨hfb.2.2.1, by omega, by omega, ?_⟩
    exact deltas_ok_of_ascending xs x hs
      (fun y hy => (hb y (List.mem_cons_of_mem _ hy)).2)

/-! ## Strings -/

theorem strlen_loop_holds (mem : List Nat) : ∀ (term : List Nat) (p fuel : Nat),
    (∀ b ∈ term, b ≠ 0) → holds mem p (term ++ [0]) → term.length ≤ fuel →
    strlen_loop fuel mem p = term.length := by
  intro term
  induction term with
  | nil =>
    intro p fuel _ h _
    cases fuel with
    | zero => rfl
    | succ fuel =>
      have h0 : rd8 mem p = 0 := h.1
      show (if rd8 mem p = 0 then 0 else _) = 0
      rw [if_pos h0]
  | cons x xs ih =>
    intro p fuel hne h hfuel
    have hx : rd8 mem p = x := h.1
    have hx0 : x ≠ 0 := hne x (List.mem_cons_self _ _)
    cases fuel with
    | zero => simp at hfuel
    | succ fuel =>
      show (if rd8 mem p = 0 then 0 else 1 + strlen_loop fuel mem (p + 1)) = _
      rw [if_neg (by rw [hx]; exact hx0)]
      rw [ih (p + 1) fuel (fun b hb => hne b (List.mem_cons_of_mem _ hb)) h.2
        (by simp only [List.length_cons] at hfuel; omega)]
      simp only [List.length_cons]
      omega

theorem holds_in_bounds (mem : List Nat) : ∀ (term : List Nat) (p : Nat),
    (∀ b ∈ term, b ≠ 0) → holds mem p term → p + term.length ≤ mem.length ∨ term = [] := by
  intro term
  induction term with
  | nil => intro _ _ _; right; rfl
  | cons x xs ih =>
    intro p hne h
    left
    have hx : rd8 mem p = x := h.1
    have hx0 : x ≠ 0 := hne x (List.mem_cons_self _ _)
    have hp : p < mem.length := by
      by_contra hcon
      have : rd8 mem p = 0 := by
        unfold rd8
        rw [List.getD_eq_getElem?_getD, List.getElem?_eq_none (by omega)]
        rfl
      rw [this] at hx
      exact hx0 hx.symm
    rcases ih (p + 1) (fun b hb => hne b (List.mem_cons_of_mem _ hb)) h.2 with h1 | h1
    · simp only [List.length_cons]; omega
    · rw [h1]; simp only [List.length_cons, List.length_nil]; omega

theorem strlen_holds (mem : List Nat) (term : List Nat) (p : Nat)
    (hne : ∀ b ∈ term, b ≠ 0) (h : holds mem p (term ++ [0])) :
    strlen mem p = term.length := by
  unfold strlen
  apply strlen_loop_holds mem term p _ hne h
  rw [holds_append] at h
  rcases holds_in_bounds mem term p hne h.1 with h1 | h1
  · omega
  · rw [h1]; simp

/-! ## Single-document round trip -/

theorem positions_code_tail (hv : Bool) (v : Nat) (ps : List Nat) :
    ∃ pre, (positions_code hv v ps).2 = pre ++ (encode_term_positions ps).1 := by
  unfold positions_code
  simp only
  split_ifs <;> exact ⟨_, rfl⟩

set_option maxRecDepth 1000000 in
/-- C11 on scenario S1: the image is initialised at the document header (offset
4 of the emitted buffer). `sil_document_image_terms` writes the three entries
of `example`, `positional` and `vterm`, in this order, but stores 4 in
`*num_terms`: the header's `num_terms` is the number of pending records (the
term `positional` was added twice), not the number of terms. -/
theorem document_image_terms_counts_records :
    (sil_document_image_terms s1_document (sil_document_image_init s1_document 4 124)).1 = 4 ∧
    (sil_document_image_terms s1_document (sil_document_image_init s1_document 4 124)).2
      = [32, 41, 55] ∧
    ((sil_document_image_terms s1_document (sil_document_image_init s1_document 4 124)).2.map
      (cstring_at s1_document))
      = [[101, 120, 97, 109, 112, 108, 101], [112, 111, 115, 105, 116, 105, 111, 110, 97, 108],
         [118, 116, 101, 114, 109]] := by
  decide

set_option maxRecDepth 1000000 in
/-- C12 on scenario S1: the emitted buffer has 128 bytes and starts with the
`u32` 124; the builder wrote the header 2, 31, 4, 2, 0, 4 and a term block of
31 bytes at offset 32. `sil_document_image_init` at the first byte of the
buffer reads the header fields 124, 2, 31, 4, 2, 0 (every field is the
builder's previous one, the first the length prefix) and places the term block
at offset 55 with length 2. -/
theorem document_image_init_at_buffer_start :
    s1_document.length = 128 ∧
    document_builder.global_header s1_builder 0 2 4 =
      { document_length_for_bm25 := 2, term_length := 31, data_length := 4,
        content_length := 2, num_embeddings := 0, num_terms := 4 } ∧
    (s1_document.drop 32).take 31 = document_builder.term_block s1_builder ∧
    (sil_document_image_init s1_document 0 128).header =
      { document_length_for_bm25 := 124, term_length := 2, data_length := 31,
        content_length := 4, num_embeddings := 2, num_terms := 0 } ∧
    (sil_document_image_init s1_document 0 128).terms = 55 ∧
    (sil_document_image_init s1_document 0 128).content = 57 := by
  decide

theorem header_bytes_length (hd : sil_document_header_t) : (header_bytes hd).length = 24 := by
  simp [header_bytes, le32]

theorem le32_length (v : Nat) : (le32 v).length = 4 := by simp [le32]

theorem and_63 (x : Nat) : x &&& 63 = x % 64 :=
  Nat.and_pow_two_sub_one_eq_mod x 6

/-- The padding `sil_document_builder_global` computes for a buffer of `n` bytes. -/
theorem padding_eq (n : Nat) : (64 - (n % 2 ^ 32 &&& 63)) &&& 63 = (64 - n % 64) % 64 := by
  rw [and_63, and_63]
  have : n % 2 ^ 32 % 64 = n % 64 := Nat.mod_mod_of_dvd n (by norm_num)
  rw [this]

/-- The buffer `sil_document_builder_global` emits, section by section. -/
theorem global_buffer_eq (h : document_builder.sil_document_builder_t)
    (embeddings : List Nat) (num_embeddings : Nat) (content : List Nat) (content_length : Nat)
    (d : List Nat) (len : Nat) :
    (document_builder.sil_document_builder_global h embeddings num_embeddings content
        content_length d len).1 =
      le32 (sub32 ((4 + (24 + ((d.take len).length + ((document_builder.term_block h).length +
            ((content.take content_length).length +
              ((64 - (28 + (d.take len).length + (document_builder.term_block h).length +
                  (content.take content_length).length) % 64) % 64 +
                (embeddings.take ((num_embeddings * 512) % 2 ^ 32)).length)))))) % 2 ^ 32) 4) ++
        (header_bytes (document_builder.global_header h num_embeddings content_length len) ++
          (d.take len ++ (document_builder.term_block h ++ (content.take content_length ++
            (List.replicate ((64 - (28 + (d.take len).length +
                (document_builder.term_block h).length +
                (content.take content_length).length) % 64) % 64) 0 ++
              embeddings.take ((num_embeddings * 512) % 2 ^ 32)))))) := by
  unfold document_builder.sil_document_builder_global
  dsimp only
  have hlen : (le32 0 ++ header_bytes (document_builder.global_header h num_embeddings
      content_length len) ++ List.take len d ++ document_builder.term_block h ++
      List.take content_length content).length =
      28 + (d.take len).length + (document_builder.term_block h).length +
        (content.take content_length).length := by
    simp only [List.length_append, le32_length, header_bytes_length]
  rw [hlen, padding_eq]
  have hpad : ∀ (l : List Nat) (n : Nat),
      (if n ≠ 0 then l ++ List.replicate n 0 else l) = l ++ List.replicate n 0 := by
    intro l n
    by_cases hn : n = 0
    · simp [hn]
    · simp [hn]
  rw [hpad]
  simp only [List.append_assoc, List.length_append, le32_length, header_bytes_length,
    List.length_replicate]
  have hdrop : ∀ (l : List Nat), (le32 0 ++ l).drop 4 = l := by
    intro l
    simp [le32]
  rw [hdrop]

/-- C13: for a call of `sil_document_builder_global` whose pointer arguments
hold exactly `len`, `content_length` and `num_embeddings * 512` bytes and whose
emitted buffer is shorter than 2^32 bytes, the buffer is the `u32` number of
bytes that follow it, the 24-byte header, the user data, the term block, the
content, fewer than 64 zero bytes and the embedding bytes, in this order; the
header's `data_length`, `term_length` and `content_length` are the lengths of
their sections. -/
theorem document_buffer_layout (h : document_builder.sil_document_builder_t)
    (embeddings : List Nat) (num_embeddings : Nat) (content : List Nat) (content_length : Nat)
    (d : List Nat) (len : Nat)
    (hd : d.length = len) (hc : content.length = content_length)
    (he : embeddings.length = num_embeddings * 512)
    (hsize : 4 + 24 + len + (document_builder.term_block h).length + content_length + 63 +
      num_embeddings * 512 < 2 ^ 32) :
    ∃ padding rest, padding < 64 ∧
      (document_builder.sil_document_builder_global h embeddings num_embeddings content
        content_length d len).1 = le32 rest.length ++ rest ∧
      rest.length < 2 ^ 32 ∧
      rest = header_bytes (document_builder.global_header h num_embeddings content_length len) ++
        (d ++ (document_builder.term_block h ++ (content ++
          (List.replicate padding 0 ++ embeddings)))) ∧
      (document_builder.global_header h num_embeddings content_length len).data_length
        = d.length ∧
      (document_builder.global_header h num_embeddings content_length len).term_length
        = (document_builder.term_block h).length ∧
      (document_builder.global_header h num_embeddings content_length len).content_length
        = content.length := by
  have h1 : d.take len = d := by rw [← hd]; exact List.take_length _
  have h2 : content.take content_length = content := by rw [← hc]; exact List.take_length _
  have h3 : (num_embeddings * 512) % 2 ^ 32 = num_embeddings * 512 :=
    Nat.mod_eq_of_lt (by omega)
  have h4 : embeddings.take (num_embeddings * 512) = embeddings := by
    rw [← he]; exact List.take_length _
  have hpad : (64 - (28 + d.length + (document_builder.term_block h).length +
      content.length) % 64) % 64 < 64 := Nat.mod_lt _ (by norm_num)
  refine ⟨(64 - (28 + d.length + (document_builder.term_block h).length +
      content.length) % 64) % 64, _, hpad, ?_, ?_, rfl, ?_, ?_, ?_⟩
  · rw [global_buffer_eq, h1, h2, h3, h4]
    congr 2
    simp only [List.length_append, header_bytes_length, List.length_replicate]
    generalize (64 - (28 + d.length + (document_builder.term_block h).length +
      content.length) % 64) % 64 = P at hpad
    have hlt : 4 + (24 + (d.length + ((document_builder.term_block h).length +
        (content.length + (P + embeddings.length))))) < 2 ^ 32 := by omega
    rw [Nat.mod_eq_of_lt hlt, sub32_of_le _ 4 (by omega) (by omega)]
    omega
  · simp only [List.length_append, header_bytes_length, List.length_replicate]
    generalize (64 - (28 + d.length + (document_builder.term_block h).length +
      content.length) % 64) % 64 = P at hpad
    omega
  · simp only [document_builder.global_header]
    exact hd.symm
  · simp only [document_builder.global_header]
    exact Nat.mod_eq_of_lt (by omega)
  · simp only [document_builder.global_header]
    exact hc.symm

/-- C13 on scenario S1: the 128-byte buffer. -/
theorem document_buffer_layout_s1 :
    ∃ padding rest, padding < 64 ∧ s1_document = le32 rest.length ++ rest ∧
      rest.length < 2 ^ 32 ∧
      rest = header_bytes (document_builder.global_header s1_builder 0 2 4) ++
        ([1, 0, 0, 0] ++ (document_builder.term_block s1_builder ++ ([104, 105] ++
          (List.replicate padding 0 ++ [])))) ∧
      (document_builder.global_header s1_builder 0 2 4).data_length = [1, 0, 0, 0].length ∧
      (document_builder.global_header s1_builder 0 2 4).term_length
        = (document_builder.term_block s1_builder).length ∧
      (document_builder.global_header s1_builder 0 2 4).content_length = [104, 105].length :=
  document_buffer_layout s1_builder [] 0 [104, 105] 2 [1, 0, 0, 0] 4 (by decide) (by decide)
    (by decide) (by decide)

/-- C14: in the buffer `sil_document_builder_global` emits, the embedding bytes
start at the offset `off + padding`, a multiple of 64, where `off` is the
number of bytes before the padding (length prefix, header, user data, term
block and content); the `padding < 64` bytes from `off` on are zero. -/
theorem embeddings_offset_aligned (h : document_builder.sil_document_builder_t)
    (embeddings : List Nat) (num_embeddings : Nat) (content : List Nat) (content_length : Nat)
    (d : List Nat) (len : Nat) :
    ∃ off padding,
      off = 4 + 24 + (d.take len).length + (document_builder.term_block h).length +
        (content.take content_length).length ∧
      padding < 64 ∧ (off + padding) % 64 = 0 ∧
      ((document_builder.sil_document_builder_global h embeddings num_embeddings content
        content_length d len).1.drop off).take padding = List.replicate padding 0 ∧
      (document_builder.sil_document_builder_global h embeddings num_embeddings content
        content_length d len).1.drop (off + padding) =
        embeddings.take ((num_embeddings * 512) % 2 ^ 32) := by
  refine ⟨_, (64 - (28 + (d.take len).length + (document_builder.term_block h).length +
      (content.take content_length).length) % 64) % 64, rfl, Nat.mod_lt _ (by norm_num), ?_, ?_, ?_⟩
  · omega
  · rw [global_buffer_eq]
    rw [List.drop_append_eq_append_drop]
    simp only [le32_length]
    rw [List.drop_of_length_le (by simp only [le32_length]; omega)]
    simp only [List.nil_append]
    rw [← List.append_assoc, ← List.append_assoc, ← List.append_assoc]
    rw [List.drop_append_eq_append_drop, List.drop_of_length_le
      (by simp only [List.length_append, header_bytes_length]; omega)]
    simp only [List.nil_append, List.length_append, header_bytes_length]
    have : 4 + 24 + (List.take len d).length + (document_builder.term_block h).length +
        (List.take content_length content).length - 4 -
        (24 + (List.take len d).length + (document_builder.term_block h).length +
          (List.take content_length content).length) = 0 := by omega
    rw [this, List.drop_zero, List.take_append_eq_append_take, List.length_replicate,
      Nat.sub_self, List.take_zero, List.append_nil, List.take_replicate, Nat.min_self]
  · rw [global_buffer_eq]
    rw [List.drop_append_eq_append_drop]
    rw [List.drop_of_length_le (by simp only [le32_length]; omega)]
    simp only [List.nil_append, le32_length]
    rw [← List.append_assoc, ← List.append_assoc, ← List.append_assoc, ← List.append_assoc]
    rw [List.drop_append_eq_append_drop, List.drop_of_length_le
      (by simp only [List.length_append, header_bytes_length, List.length_replicate]; omega)]
    simp only [List.nil_append, List.length_append, header_bytes_length, List.length_replicate]
    have : ∀ x, 4 + 24 + (List.take len d).length + (document_builder.term_block h).length +
        (List.take content_length content).length + x - 4 -
        (24 + (List.take len d).length + (document_builder.term_block h).length +
          (List.take content_length content).length + x) = 0 := by intro x; omega
    rw [this, List.drop_zero]

theorem copy_term_eq (term : List Nat) :
    document_builder.copy_term term = (cstring term).map document_builder.fold_byte := by
  induction term with
  | nil => rfl
  | cons c term ih =>
    by_cases hc : c = 0
    · simp [document_builder.copy_term, cstring, hc]
    · simp only [document_builder.copy_term, cstring, List.takeWhile, hc, ne_eq, not_false_eq_true,
        if_true, decide_True, List.map_cons]
      rw [ih]
      rfl

theorem fold_byte_eq (c : Nat) :
    document_builder.fold_byte c = if 65 ≤ c ∧ c ≤ 90 then c + 32 else c := by
  unfold document_builder.fold_byte
  split
  · omega
  · rfl

/-- C15: every term operation of the single-document builder appends one
entry whose term is the argument string (its bytes before the first zero)
with each byte in `A..Z` (65..90) replaced by the byte 32 above it and every
other byte unchanged; the entry has the length of the argument string. The
public operations `term`, `term_position` and `term_value` add their entry
through `_sil_document_builder_term`. -/
theorem stored_term_is_lowercased (h : document_builder.sil_document_builder_t)
    (value pos : Nat) (term : List Nat) :
    (∃ r : document_builder.record,
      (document_builder._sil_document_builder_term h value pos term).term_bh = h.term_bh ++ [r] ∧
      r.data = { position := pos, value := value } ∧
      r.term = (cstring term).map (fun c => if 65 ≤ c ∧ c ≤ 90 then c + 32 else c) ∧
      r.term.length = (cstring term).length) ∧
    document_builder.sil_document_builder_term h term =
      document_builder._sil_document_builder_term h 0 0 term ∧
    (document_builder.sil_document_builder_term_position h pos term).term_bh =
      (document_builder._sil_document_builder_term h 0 pos term).term_bh ∧
    document_builder.sil_document_builder_term_value h value term =
      document_builder._sil_document_builder_term h value 0 term := by
  refine ⟨⟨_, rfl, rfl, ?_, ?_⟩, rfl, rfl, rfl⟩
  · rw [copy_term_eq]
    apply List.map_congr_left
    intro c _
    exact fold_byte_eq c
  · rw [copy_term_eq, List.length_map]

/-- C16 on the term `Hello`: the record `sil_search_builder_term` writes to
the sort carries the bytes `Hello` unchanged, not `hello` (which the
single-document builder stores for the same argument), and the record of a
later `term("hello")` call has a term that `strcmp` tells apart from it. -/
theorem index_builder_keeps_case :
    (search_builder.sil_search_builder_term search_builder.sil_search_builder_init
      [72, 101, 108, 108, 111, 0]).term_data =
      [{ data := { id := 0, position := 0, value := 0 }, term := [72, 101, 108, 108, 111] }] ∧
    (document_builder.sil_document_builder_term document_builder.sil_document_builder_init
      [72, 101, 108, 108, 111, 0]).term_bh =
      [{ data := { position := 0, value := 0 }, term := [104, 101, 108, 108, 111] }] ∧
    (search_builder.sil_search_builder_term
      (search_builder.sil_search_builder_term search_builder.sil_search_builder_init
        [72, 101, 108, 108, 111, 0]) [104, 101, 108, 108, 111, 0]).term_data.map
        search_builder.record.term = [[72, 101, 108, 108, 111], [104, 101, 108, 108, 111]] ∧
    strcmp [72, 101, 108, 108, 111] [104, 101, 108, 108, 111] ≠ 0 := by
  decide

/-- C17: every `wterm` operation leaves the builder in the state its non-`w`
operation leaves it in, for every builder state, `sp` and term, in the
single-document builder and in the index builder. -/
theorem wterm_eq_term :
    (∀ (h : document_builder.sil_document_builder_t) (sp : Nat) (s : List Nat),
      document_builder.sil_document_builder_wterm h sp s =
        document_builder.sil_document_builder_term h s) ∧
    (∀ (h : document_builder.sil_document_builder_t) (p sp : Nat) (s : List Nat),
      document_builder.sil_document_builder_wterm_position h p sp s =
        document_builder.sil_document_builder_term_position h p s) ∧
    (∀ (h : document_builder.sil_document_builder_t) (v sp : Nat) (s : List Nat),
      document_builder.sil_document_builder_wterm_value h v sp s =
        document_builder.sil_document_builder_term_value h v s) ∧
    (∀ (h : search_builder.sil_search_builder_t) (sp : Nat) (s : List Nat),
      search_builder.sil_search_builder_wterm h sp s =
        search_builder.sil_search_builder_term h s) ∧
    (∀ (h : search_builder.sil_search_builder_t) (p sp : Nat) (s : List Nat),
      search_builder.sil_search_builder_wterm_position h p sp s =
        search_builder.sil_search_builder_term_position h p s) ∧
    (∀ (h : search_builder.sil_search_builder_t) (v sp : Nat) (s : List Nat),
      search_builder.sil_search_builder_wterm_value h v sp s =
        search_builder.sil_search_builder_term_value h v s) := by
  refine ⟨?_, ?_, ?_, ?_, ?_, ?_⟩ <;> intros
  · simp [document_builder.sil_document_builder_wterm, document_builder.valid_expansion_term]
  · simp [document_builder.sil_document_builder_wterm_position,
      document_builder.valid_expansion_term]
  · simp [document_builder.sil_document_builder_wterm_value,
      document_builder.valid_expansion_term]
  · simp [search_builder.sil_search_builder_wterm, search_builder.valid_expansion_term]
  · simp [search_builder.sil_search_builder_wterm_position, search_builder.valid_expansion_term]
  · simp [search_builder.sil_search_builder_wterm_value, search_builder.valid_expansion_term]

/-- A term operation changes neither the pending global record nor the
records and totals of finished documents, and adds one to `document_length`
exactly when it is a positional one. -/
theorem apply_term_op (h : search_builder.sil_search_builder_t) (o : search_builder.op)
    (ho : o.is_global = false) :
    (o.apply h).global_bh = h.global_bh ∧ (o.apply h).global_data = h.global_data ∧
    (o.apply h).total_terms = h.total_terms ∧
    (o.apply h).total_documents = h.total_documents ∧
    (o.apply h).document_length =
      if o.is_term_position then (h.document_length + 1) % 2 ^ 32 else h.document_length := by
  cases o <;>
    simp_all [search_builder.op.apply, search_builder.op.is_global,
      search_builder.op.is_term_position, search_builder.sil_search_builder_term,
      search_builder.sil_search_builder_wterm, search_builder.sil_search_builder_term_position,
      search_builder.sil_search_builder_wterm_position,
      search_builder.sil_search_builder_term_value,
      search_builder.sil_search_builder_wterm_value, search_builder.valid_expansion_term,
      search_builder._sil_search_builder_term]

theorem run_term_ops (body : List search_builder.op) :
    ∀ (h : search_builder.sil_search_builder_t), (∀ o ∈ body, o.is_global = false) →
    h.document_length + (body.filter search_builder.op.is_term_position).length < 2 ^ 32 →
    (search_builder.run h body).global_bh = h.global_bh ∧
    (search_builder.run h body).global_data = h.global_data ∧
    (search_builder.run h body).total_terms = h.total_terms ∧
    (search_builder.run h body).total_documents = h.total_documents ∧
    (search_builder.run h body).document_length =
      h.document_length + (body.filter search_builder.op.is_term_position).length := by
  induction body with
  | nil => intro h _ _; simp [search_builder.run]
  | cons o body ih =>
    intro h hb hlt
    obtain ⟨a1, a2, a3, a4, a5⟩ := apply_term_op h o (hb o (List.mem_cons_self _ _))
    have hb2 : ∀ o ∈ body, o.is_global = false := fun x hx => hb x (List.mem_cons_of_mem _ hx)
    have hrun : search_builder.run h (o :: body) = search_builder.run (o.apply h) body := rfl
    rw [hrun]
    by_cases hp : o.is_term_position = true
    · rw [List.filter_cons_of_pos hp, List.length_cons] at hlt ⊢
      rw [if_pos hp, Nat.mod_eq_of_lt (by omega)] at a5
      obtain ⟨b1, b2, b3, b4, b5⟩ := ih (o.apply h) hb2 (by omega)
      refine ⟨b1.trans a1, b2.trans a2, b3.trans a3, b4.trans a4, ?_⟩
      rw [b5, a5]
      omega
    · rw [List.filter_cons_of_neg hp] at hlt ⊢
      rw [if_neg hp] at a5
      obtain ⟨b1, b2, b3, b4, b5⟩ := ih (o.apply h) hb2 (by omega)
      refine ⟨b1.trans a1, b2.trans a2, b3.trans a3, b4.trans a4, ?_⟩
      rw [b5, a5]

theorem finish_document_totals (h : search_builder.sil_search_builder_t) (hk : totals_ok h) :
    totals_ok (search_builder._finish_document h) := by
  unfold search_builder._finish_document
  cases hg : h.global_bh with
  | none => exact hk
  | some g =>
    obtain ⟨k1, k2⟩ := hk
    simp only [totals_ok, List.map_append, List.sum_append, List.map_cons, List.map_nil,
      List.sum_cons, List.sum_nil, List.length_append, List.length_cons, List.length_nil,
      Nat.add_zero, Nat.zero_add]
    rw [k1, k2]
    constructor
    · exact (Nat.add_mod _ _ _).symm ▸ by simp [Nat.add_mod]
    · simp [Nat.add_mod]

theorem apply_op_totals (h : search_builder.sil_search_builder_t) (o : search_builder.op)
    (hk : totals_ok h) : totals_ok (o.apply h) := by
  by_cases ho : o.is_global = true
  · cases o <;> simp [search_builder.op.is_global] at ho
    have := finish_document_totals h hk
    simpa [search_builder.op.apply, search_builder.sil_search_builder_global, totals_ok]
      using this
  · obtain ⟨_, a2, a3, a4, _⟩ := apply_term_op h o (by simpa using ho)
    unfold totals_ok
    rw [a2, a3, a4]
    exact hk

theorem run_totals (ops : List search_builder.op) :
    ∀ (h : search_builder.sil_search_builder_t), totals_ok h →
      totals_ok (search_builder.run h ops) := by
  induction ops with
  | nil => intro h hk; exact hk
  | cons o ops ih => intro h hk; exact ih _ (apply_op_totals h o hk)

/-- C18: take any builder state `h`, a call of `sil_search_builder_global` and
then term operations `body` (no further `global` call) of which fewer than
2^32 are `term_position` (or `wterm_position`) calls. The `_finish_document`
that the next `global` call or `destroy` starts with writes one more record
to the `global_data` sort, the document's, and its header's `document_length`
is the number of positional calls in `body`; `term` and `term_value` calls do
not count. And whatever calls were made since `init`, after that
`_finish_document` the builder's `total_terms` (the `total_terms_in_documents`
of the stats file) is the sum of the `document_length`s of all records
written, as a `size_t`. -/
theorem document_length_counts_term_positions (h : search_builder.sil_search_builder_t)
    (embeddings : List Nat) (num_embeddings : Nat) (content : List Nat) (content_length : Nat)
    (d : List Nat) (len : Nat) (body : List search_builder.op)
    (hbody : ∀ o ∈ body, o.is_global = false)
    (hcount : (body.filter search_builder.op.is_term_position).length < 2 ^ 32) :
    (∃ r : search_builder.global_record,
      (search_builder._finish_document (search_builder.run
        (search_builder.sil_search_builder_global h embeddings num_embeddings content
          content_length d len) body)).global_data =
        (search_builder._finish_document h).global_data ++ [r] ∧
      r.gh.document_length = (body.filter search_builder.op.is_term_position).length ∧
      r.gh.num_embeddings = num_embeddings ∧
      r.rest = d.take len ++ embeddings.take ((num_embeddings * 512) % 2 ^ 32) ++
        le32 content_length ++ content.take content_length) ∧
    (∀ ops : List search_builder.op,
      (search_builder._finish_document
        (search_builder.run search_builder.sil_search_builder_init ops)).total_terms =
      ((search_builder._finish_document
        (search_builder.run search_builder.sil_search_builder_init ops)).global_data.map
          (fun r => r.gh.document_length)).sum % 2 ^ 64) := by
  constructor
  · have hg : (search_builder.sil_search_builder_global h embeddings num_embeddings content
        content_length d len).document_length = 0 := rfl
    obtain ⟨b1, b2, _, _, b5⟩ := run_term_ops body
      (search_builder.sil_search_builder_global h embeddings num_embeddings content
        content_length d len) hbody (by rw [hg]; omega)
    rw [hg, Nat.zero_add] at b5
    refine ⟨{ gh := { document_length :=
                        (body.filter search_builder.op.is_term_position).length,
                      num_embeddings := num_embeddings,
                      content_offset := (content_length + 4) % 2 ^ 36,
                      embeddings_offset := (len + SIZEOF_GLOBAL_HEADER) % 2 ^ 28 },
              rest := d.take len ++ embeddings.take ((num_embeddings * 512) % 2 ^ 32) ++
                le32 content_length ++ content.take content_length }, ?_, rfl, rfl, rfl⟩
    have hfin : ∀ (x : search_builder.sil_search_builder_t) (g : search_builder.global_record),
        x.global_bh = some g →
        (search_builder._finish_document x).global_data = x.global_data ++
          [{ g with gh := { g.gh with document_length := x.document_length } }] := by
      intro x g hx
      unfold search_builder._finish_document
      rw [hx]
    rw [hfin _ _ (b1.trans rfl), b2, b5]
    simp only [search_builder.sil_search_builder_global, List.nil_append]
  · intro ops
    have := finish_document_totals _ (run_totals ops search_builder.sil_search_builder_init
      ⟨rfl, rfl⟩)
    exact this.1

/-- C18 on a document with two `term_position` calls among four term
operations: the recorded `document_length` is 2. -/
theorem document_length_counts_term_positions_witness :
    (∃ r : search_builder.global_record,
      (search_builder._finish_document (search_builder.run
        (search_builder.sil_search_builder_global search_builder.sil_search_builder_init
          [] 0 [104, 105] 2 [7, 0, 0, 0] 4)
        [.term_position 1 [97, 0], .term [98, 0], .term_value 3 [99, 0],
         .term_position 2 [97, 0]])).global_data =
        (search_builder._finish_document search_builder.sil_search_builder_init).global_data
          ++ [r] ∧
      r.gh.document_length =
        (List.filter search_builder.op.is_term_position
          [.term_position 1 [97, 0], .term [98, 0], .term_value 3 [99, 0],
           .term_position 2 [97, 0]]).length ∧
      r.gh.num_embeddings = 0 ∧
      r.rest = [7, 0, 0, 0].take 4 ++ ([] : List Nat).take ((0 * 512) % 2 ^ 32) ++
        le32 2 ++ [104, 105].take 2) ∧
    (∀ ops : List search_builder.op,
      (search_builder._finish_document
        (search_builder.run search_builder.sil_search_builder_init ops)).total_terms =
      ((search_builder._finish_document
        (search_builder.run search_builder.sil_search_builder_init ops)).global_data.map
          (fun r => r.gh.document_length)).sum % 2 ^ 64) :=
  document_length_counts_term_positions search_builder.sil_search_builder_init
    [] 0 [104, 105] 2 [7, 0, 0, 0] 4
    [.term_position 1 [97, 0], .term [98, 0], .term_value 3 [99, 0], .term_position 2 [97, 0]]
    (by decide) (by decide)

/-- The five bytes `80 81 80 80 01` (the varint of 2^28 + 128) decode to 2^28. -/
theorem decode_high_bit32_long (mem : List Nat) (p : Nat)
    (h : holds mem p [128, 129, 128, 128, 1]) :
    __decode_high_bit32 mem p = (2 ^ 28, p + 5) := by
  simp only [holds, and_true] at h
  obtain ⟨h0, h1, h2, h3, h4⟩ := h
  unfold __decode_high_bit32
  simp only [h0, h1, h2, h3, h4]
  rfl

theorem holds_replicate (pre tail : List Nat) (x : Nat) : ∀ (k n i : Nat),
    pre.length ≤ i → i + k ≤ pre.length + n →
    holds (pre ++ List.replicate n x ++ tail) i (List.replicate k x) := by
  intro k
  induction k with
  | zero => intro n i _ _; trivial
  | succ k ih =>
    intro n i h1 h2
    rw [List.replicate_succ]
    refine ⟨?_, ih n (i + 1) (by omega) (by omega)⟩
    unfold rd8
    have hlt : i - pre.length < (List.replicate n x).length := by
      rw [List.length_replicate]; omega
    rw [List.getD_eq_getElem?_getD, List.append_assoc,
      List.getElem?_append_right h1, List.getElem?_append_left hlt,
      List.getElem?_replicate]
    rw [List.length_replicate] at hlt
    rw [if_pos hlt]
    rfl

theorem holds_tail (pre tail : List Nat) : holds (pre ++ tail) pre.length tail := by
  have := (holds_shift pre tail 0 tail).2 (by simpa using holds_self tail [])
  simpa using this

theorem advance_id_long_positions (mem : List Nat) (t : sil_term_ext_t)
    (h : holds mem t.p [0x2C, 0, 128, 129, 128, 128, 1]) :
    (advance_id mem t).p = t.p + 2 ^ 28 + 8 ∧ (advance_id mem t).gid = t.gid ∧
    (advance_id mem t).id = t.gid % 2 ^ 32 := by
  have h' := h
  simp only [holds, and_true] at h'
  obtain ⟨h0, h1, -⟩ := h'
  have hv : holds mem (t.p + 2) [128, 129, 128, 128, 1] := h.2.2
  have hd := decode_high_bit32_long mem (t.p + 2) hv
  have h16 : rd16 mem t.p = 0x2C := by unfold rd16; rw [h0, h1]
  have e1 : (44 : Nat) >>> 6 = 0 := by decide
  have e2 : (44 : Nat) &&& 63 = 44 := by decide
  have e3 : (44 : Nat) &&& 32 = 32 := by decide
  have e4 : (44 : Nat) &&& 16 = 0 := by decide
  have e5 : (44 : Nat) &&& 15 = 12 := by decide
  have e6 : (12 : Nat) >>> 2 = 3 := by decide
  have e7 : ((12 : Nat) &&& 3) <<< 7 = 0 := by decide
  unfold advance_id
  simp only [h16, decode_term_positions, SMALL_GROUP_SHIFT, SMALL_GROUP_FLAGS,
    SMALL_GROUP_POS_MASK, SMALL_GROUP_VALUE_PRESENT_MASK, SMALL_GROUP_POS_LENGTH_MASK,
    e1, e2, e3, e4, e5, e6, e7, hd, ne_eq, not_true_eq_false, if_false, if_true,
    Nat.lt_irrefl, OfNat.ofNat_ne_zero, not_false_eq_true, Nat.zero_add]
  refine ⟨?_, trivial, trivial⟩
  omega

theorem advance_id_single_one (mem : List Nat) (t : sil_term_ext_t)
    (h : holds mem t.p [1, 1]) :
    (advance_id mem t).id = (4 + t.gid) % 2 ^ 32 ∧ (advance_id mem t).value = 1 := by
  simp only [holds, and_true] at h
  obtain ⟨h0, h1⟩ := h
  have h16 : rd16 mem t.p = 257 := by unfold rd16; rw [h0, h1]
  have e1 : (257 : Nat) >>> 6 = 4 := by decide
  have e2 : (257 : Nat) &&& 63 = 1 := by decide
  have e3 : (1 : Nat) &&& 32 = 0 := by decide
  have e4 : (1 : Nat) < 29 := by decide
  unfold advance_id
  simp only [h16, decode_single_value, SMALL_GROUP_SHIFT, SMALL_GROUP_FLAGS,
    SMALL_GROUP_POS_MASK, SMALL_GROUP_1BYTE_VALUE, e1, e2, e3, e4, ne_eq, not_true_eq_false,
    if_false, if_true]
  exact ⟨trivial, trivial⟩

/-- C5, at the inner record of a document with 2^28 + 129 positions 1, 2, ...
(deltas 1, one byte each), followed by the bytes `tail` of the records of
later documents. The builder writes the control word `2C 00`, the length
2^28 + 128 as the varint `80 81 80 80 01` and the 2^28 + 129 delta bytes, so
the record of the next document starts at offset 2^28 + 136. `advance_id`
decodes the length as 2^28 and leaves `p` at 2^28 + 8, inside the delta
bytes; the next `advance_id` reads the control word `01 01` there and yields
the id 4 with value 1, whatever the next document's id is. -/
theorem advance_after_long_positions_blob (tail : List Nat) :
    encode_high_bit (2 ^ 28 + 128) = [128, 129, 128, 128, 1] ∧
    ([0x2C, 0, 128, 129, 128, 128, 1] ++ List.replicate (2 ^ 28 + 129) 1).length
      = 2 ^ 28 + 136 ∧
    (advance_id ([0x2C, 0, 128, 129, 128, 128, 1] ++ List.replicate (2 ^ 28 + 129) 1 ++ tail)
      zalloc_term).p = 2 ^ 28 + 8 ∧
    (advance_id ([0x2C, 0, 128, 129, 128, 128, 1] ++ List.replicate (2 ^ 28 + 129) 1 ++ tail)
      (advance_id ([0x2C, 0, 128, 129, 128, 128, 1] ++ List.replicate (2 ^ 28 + 129) 1 ++ tail)
        zalloc_term)).id = 4 ∧
    (advance_id ([0x2C, 0, 128, 129, 128, 128, 1] ++ List.replicate (2 ^ 28 + 129) 1 ++ tail)
      (advance_id ([0x2C, 0, 128, 129, 128, 128, 1] ++ List.replicate (2 ^ 28 + 129) 1 ++ tail)
        zalloc_term)).value = 1 := by
  have hA : holds ([0x2C, 0, 128, 129, 128, 128, 1] ++ List.replicate (2 ^ 28 + 129) 1 ++ tail)
      0 [0x2C, 0, 128, 129, 128, 128, 1] := by
    rw [List.append_assoc]
    exact holds_self _ _
  have hB : holds ([0x2C, 0, 128, 129, 128, 128, 1] ++ List.replicate (2 ^ 28 + 129) 1 ++ tail)
      (2 ^ 28 + 8) (List.replicate 2 1) :=
    holds_replicate _ tail 1 2 (2 ^ 28 + 129) (2 ^ 28 + 8) (by norm_num) (by norm_num)
  generalize [0x2C, 0, 128, 129, 128, 128, 1] ++ List.replicate (2 ^ 28 + 129) 1 ++ tail = mem
    at hA hB
  obtain ⟨a1, a2, a3⟩ := advance_id_long_positions mem zalloc_term hA
  have hp : (advance_id mem zalloc_term).p = 2 ^ 28 + 8 := by
    rw [a1]; show 0 + 2 ^ 28 + 8 = 2 ^ 28 + 8; omega
  have hg : (advance_id mem zalloc_term).gid = 0 := a2
  obtain ⟨b1, b2⟩ := advance_id_single_one mem (advance_id mem zalloc_term) (by rw [hp]; exact hB)
  refine ⟨by decide, ?_, hp, ?_, b2⟩
  · rw [List.length_append, List.length_replicate]
    rfl
  · rw [b1, hg]
    decide

theorem sil_skip_id_long (mem : List Nat) (p : Nat)
    (h : holds mem p [0x2C, 128, 129, 128, 128, 1]) :
    sil_skip_id mem p = p + 2 ^ 28 + 7 := by
  have h0 : rd8 mem p = 44 := h.1
  have hd := decode_high_bit32_long mem (p + 1) h.2
  have e3 : (44 : Nat) &&& 32 = 32 := by decide
  have e4 : (44 : Nat) &&& 16 = 0 := by decide
  have e5 : (44 : Nat) &&& 15 = 12 := by decide
  have e6 : (12 : Nat) >>> 2 = 3 := by decide
  unfold sil_skip_id
  simp only [h0, skip_term_positions, SMALL_GROUP_POS_MASK, SMALL_GROUP_VALUE_PRESENT_MASK,
    SMALL_GROUP_POS_LENGTH_MASK, e3, e4, e5, e6, hd, ne_eq, not_true_eq_false, if_false, if_true,
    Nat.lt_irrefl, OfNat.ofNat_ne_zero, not_false_eq_true]
  omega

theorem sil_skip_id_zero (mem : List Nat) (p : Nat) (h : rd8 mem p = 0) :
    sil_skip_id mem p = p + 1 := by
  have e3 : (0 : Nat) &&& 32 = 0 := by decide
  have e4 : (0 : Nat) < 29 := by decide
  unfold sil_skip_id
  simp only [h, skip_single_value, SMALL_GROUP_POS_MASK, SMALL_GROUP_1BYTE_VALUE, e3, e4, ne_eq,
    not_true_eq_false, if_false, if_true]

theorem holds_getD (mem : List Nat) : ∀ (s : List Nat) (p i : Nat), holds mem p s →
    i < s.length → rd8 mem (p + i) = s.getD i 0 := by
  intro s
  induction s with
  | nil => intro p i _ hi; simp at hi
  | cons b s ih =>
    intro p i h hi
    cases i with
    | zero => exact h.1
    | succ i =>
      have := ih (p + 1) i h.2 (by simpa using hi)
      rw [show p + (i + 1) = p + 1 + i by omega, this]
      rfl

theorem cstring_at_holds (mem : List Nat) (s : List Nat) (p : Nat)
    (hne : ∀ b ∈ s, b ≠ 0) (h : holds mem p (s ++ [0])) : cstring_at mem p = s := by
  unfold cstring_at
  rw [strlen_holds mem s p hne h]
  apply List.ext_getElem
  · simp
  · intro i h1 h2
    simp only [List.getElem_map, List.getElem_range]
    rw [holds_getD mem s p i ((holds_append mem p s [0]).1 h).1 h2]
    exact (List.getD_eq_getElem _ _ h2)

theorem match_term_loop_step (fuel : Nat) (mem term : List Nat) (p ep : Nat) (hp : p < ep)
    (hn : 0 < strcmp term (cstring_at mem p)) :
    match_term_loop (fuel + 1) mem term p ep =
      match_term_loop fuel mem term (sil_skip_id mem (p + strlen mem p + 1)) ep := by
  have h1 : ¬ strcmp term (cstring_at mem p) < 0 := by omega
  have h2 : ¬ strcmp term (cstring_at mem p) = 0 := by omega
  rw [match_term_loop]
  simp only [hp, h1, h2, if_true, if_false]

theorem match_term_loop_end (fuel : Nat) (mem term : List Nat) (p ep : Nat) (hp : ¬ p < ep) :
    match_term_loop fuel mem term p ep = none := by
  cases fuel with
  | zero => rfl
  | succ fuel => rw [match_term_loop]; simp only [hp, if_false]

/-- C19, on the term block of a document in which `a` has the 2^28 + 129
positions 1, 2, ... and `b` is a plain term: the entry of `a` (name, control
byte `2C`, the length 2^28 + 128 as the varint `80 81 80 80 01`, 2^28 + 129
delta bytes) is followed at offset 2^28 + 137 by the entry of `b` (name and
the control byte 0). `sil_skip_id` at the record of `a` (offset 2) decodes the
length as 2^28 and returns 2^28 + 9, inside the delta bytes, and
`sil_document_image_match_term` for `b` compares with the bytes found there,
skips once more to the end of the block and returns `NULL`, although `b` is
a term of the document. -/
theorem match_term_misses_term_after_long_blob :
    ([97, 0, 0x2C, 128, 129, 128, 128, 1] ++ List.replicate (2 ^ 28 + 129) 1).length
      = 2 ^ 28 + 137 ∧
    sil_skip_id ([97, 0, 0x2C, 128, 129, 128, 128, 1] ++ List.replicate (2 ^ 28 + 129) 1 ++
      [98, 0, 0]) 2 = 2 ^ 28 + 9 ∧
    sil_document_image_match_term
      ([97, 0, 0x2C, 128, 129, 128, 128, 1] ++ List.replicate (2 ^ 28 + 129) 1 ++ [98, 0, 0])
      { document := 0, length := 2 ^ 28 + 140,
        header := { document_length_for_bm25 := 2 ^ 28 + 129, term_length := 2 ^ 28 + 140,
                    data_length := 0, content_length := 0, num_embeddings := 0,
                    num_terms := 2 ^ 28 + 130 },
        terms := 0, data := 0, content := 2 ^ 28 + 140, embeddings := 2 ^ 28 + 192 }
      [98, 0] = none := by
  have hA : holds ([97, 0, 0x2C, 128, 129, 128, 128, 1] ++ List.replicate (2 ^ 28 + 129) 1 ++
      [98, 0, 0]) 0 [97, 0, 0x2C, 128, 129, 128, 128, 1] := by
    rw [List.append_assoc]
    exact holds_self _ _
  have hB : holds ([97, 0, 0x2C, 128, 129, 128, 128, 1] ++ List.replicate (2 ^ 28 + 129) 1 ++
      [98, 0, 0]) (2 ^ 28 + 9) (List.replicate 128 1) :=
    holds_replicate _ _ 1 128 (2 ^ 28 + 129) (2 ^ 28 + 9) (by norm_num) (by norm_num)
  have hlen : ([97, 0, 0x2C, 128, 129, 128, 128, 1] ++ List.replicate (2 ^ 28 + 129) 1).length
      = 2 ^ 28 + 137 := by
    rw [List.length_append, List.length_replicate]
    rfl
  have hC : holds ([97, 0, 0x2C, 128, 129, 128, 128, 1] ++ List.replicate (2 ^ 28 + 129) 1 ++
      [98, 0, 0]) (2 ^ 28 + 137) [98, 0, 0] := by
    have := holds_tail ([97, 0, 0x2C, 128, 129, 128, 128, 1] ++
      List.replicate (2 ^ 28 + 129) 1) [98, 0, 0]
    rw [hlen] at this
    exact this
  generalize [97, 0, 0x2C, 128, 129, 128, 128, 1] ++ List.replicate (2 ^ 28 + 129) 1 ++
      [98, 0, 0] = mem at hA hB hC
  -- the entry of `a`
  have ha : holds mem 0 ([97] ++ [0]) := ⟨hA.1, hA.2.1, trivial⟩
  have hsa : cstring_at mem 0 = [97] := cstring_at_holds mem [97] 0 (by decide) ha
  have hla : strlen mem 0 = 1 := strlen_holds mem [97] 0 (by decide) ha
  have hskip : sil_skip_id mem 2 = 2 ^ 28 + 9 := by
    rw [sil_skip_id_long mem 2 hA.2.2]
    norm_num
  -- the bytes the second comparison reads
  have hb : holds mem (2 ^ 28 + 9) ((List.replicate 128 1 ++ [98]) ++ [0]) := by
    rw [List.append_assoc, holds_append]
    refine ⟨hB, ?_⟩
    rw [List.length_replicate]
    exact ⟨hC.1, hC.2.1, trivial⟩
  have hne : ∀ b ∈ List.replicate 128 1 ++ [98], b ≠ 0 := by
    intro b hb
    rcases List.mem_append.1 hb with h | h
    · rw [List.eq_of_mem_replicate h]; decide
    · rw [List.mem_singleton.1 h]; decide
  have hsb : cstring_at mem (2 ^ 28 + 9) = List.replicate 128 1 ++ [98] :=
    cstring_at_holds mem _ _ hne hb
  have hlb : strlen mem (2 ^ 28 + 9) = 129 := by
    rw [strlen_holds mem _ _ hne hb, List.length_append, List.length_replicate]
    rfl
  have hskip2 : sil_skip_id mem (2 ^ 28 + 139) = 2 ^ 28 + 140 := by
    exact sil_skip_id_zero mem _ hC.2.2.1
  refine ⟨hlen, hskip, ?_⟩
  unfold sil_document_image_match_term
  have hfuel : (2 ^ 28 + 140 - 0 : Nat) = 2 ^ 28 + 138 + 1 + 1 := by norm_num
  have hc : cstring [98, 0] = [98] := by decide
  simp only [hfuel, hc]
  rw [match_term_loop_step _ _ _ _ _ (by norm_num) (by rw [hsa]; decide), hla]
  rw [show 0 + 1 + 1 = 2 from rfl, hskip]
  rw [match_term_loop_step _ _ _ _ _ (by norm_num)
    (by rw [hsb, List.replicate_succ]; decide), hlb]
  rw [show 2 ^ 28 + 9 + 129 + 1 = 2 ^ 28 + 139 by norm_num, hskip2]
  exact match_term_loop_end _ _ _ _ _ (by norm_num)

/-- A mask below 2^26 sees only the low 26 bits of an id. -/
theorem mod26_and (x m : Nat) (hm : m < 2 ^ 26) : (x % 2 ^ 26) &&& m = x &&& m := by
  apply Nat.eq_of_testBit_eq
  intro i
  rw [Nat.testBit_and, Nat.testBit_and, Nat.testBit_mod_two_pow]
  by_cases hi : i < 26
  · simp [hi]
  · have : m.testBit i = false :=
      Nat.testBit_lt_two_pow (lt_of_lt_of_le hm (Nat.pow_le_pow_right (by norm_num) (by omega)))
    simp [this]

theorem compress_single_id_low26 (sid : Nat) (cur : term_data_t) (rest : List term_data_t) :
    compress_single_id sid { cur with id := cur.id % 2 ^ 26 }
      (rest.map (fun r => { r with id := r.id % 2 ^ 26 })) = compress_single_id sid cur rest := by
  have e1 : ∀ b : Bool,
      List.map term_data_t.position
        (if b = true then rest.map (fun r => ({ r with id := r.id % 2 ^ 26 } : term_data_t))
         else ({ cur with id := cur.id % 2 ^ 26 } : term_data_t) ::
           rest.map (fun r => ({ r with id := r.id % 2 ^ 26 } : term_data_t))) =
      List.map term_data_t.position (if b = true then rest else cur :: rest) := by
    intro b
    cases b <;> simp [List.map_map, Function.comp_def]
  have e2 : ∀ b : Bool,
      (if b = true then rest.map (fun r => ({ r with id := r.id % 2 ^ 26 } : term_data_t))
         else ({ cur with id := cur.id % 2 ^ 26 } : term_data_t) ::
           rest.map (fun r => ({ r with id := r.id % 2 ^ 26 } : term_data_t))).length =
      (if b = true then rest else cur :: rest).length := by
    intro b
    cases b <;> simp
  unfold compress_single_id
  simp only [List.length_map, e1, e2]

theorem takeWhile_low26 (m id : Nat) (hm : m < 2 ^ 26) (rest : List term_data_t) :
    (rest.map (fun r : term_data_t => ({ r with id := r.id % 2 ^ 26 } : term_data_t))).takeWhile
        (fun r => decide (id = r.id &&& m)) =
      (rest.takeWhile (fun r => decide (id = r.id &&& m))).map
        (fun r => { r with id := r.id % 2 ^ 26 }) := by
  induction rest with
  | nil => rfl
  | cons r rest ih =>
    simp only [List.map_cons, List.takeWhile_cons, mod26_and _ m hm]
    split
    · rw [ih]; rfl
    · rfl

theorem dropWhile_low26 (m id : Nat) (hm : m < 2 ^ 26) (rest : List term_data_t) :
    (rest.map (fun r : term_data_t => ({ r with id := r.id % 2 ^ 26 } : term_data_t))).dropWhile
        (fun r => decide (id = r.id &&& m)) =
      (rest.dropWhile (fun r => decide (id = r.id &&& m))).map
        (fun r => { r with id := r.id % 2 ^ 26 }) := by
  induction rest with
  | nil => rfl
  | cons r rest ih =>
    simp only [List.map_cons, List.dropWhile_cons, mod26_and _ m hm]
    split
    · rw [ih]
    · rfl

theorem small_group_loop_low26 : ∀ (fuel : Nat) (l : List term_data_t),
    compress_small_group_loop fuel (l.map (fun r => { r with id := r.id % 2 ^ 26 })) =
      compress_small_group_loop fuel l := by
  intro fuel
  induction fuel with
  | zero => intro l; rfl
  | succ fuel ih =>
    intro l
    cases l with
    | nil => rfl
    | cons cur rest =>
      simp only [List.map_cons, compress_small_group_loop, SMALL_GROUP_MASK]
      have hm : (1023 : Nat) < 2 ^ 26 := by norm_num
      simp only [mod26_and _ 1023 hm, takeWhile_low26 1023 _ hm, dropWhile_low26 1023 _ hm, ih,
        compress_single_id_low26]

theorem mid_groups_loop_low26 : ∀ (fuel : Nat) (l : List term_data_t),
    compress_mid_groups_loop fuel (l.map (fun r => { r with id := r.id % 2 ^ 26 })) =
      compress_mid_groups_loop fuel l := by
  intro fuel
  induction fuel with
  | zero => intro l; rfl
  | succ fuel ih =>
    intro l
    cases l with
    | nil => rfl
    | cons cur rest =>
      simp only [List.map_cons, compress_mid_groups_loop]
      have hm : (0x3FFFC00 : Nat) < 2 ^ 26 := by norm_num
      have hm2 : (0x3FC00 : Nat) < 2 ^ 26 := by norm_num
      simp only [mod26_and _ 0x3FFFC00 hm, mod26_and _ 0x3FC00 hm2,
        takeWhile_low26 0x3FFFC00 _ hm, dropWhile_low26 0x3FFFC00 _ hm, ih]
      have : compress_small_group_data_into_group
          ({ cur with id := cur.id % 2 ^ 26 } ::
            (rest.takeWhile (fun r => decide (cur.id &&& 0x3FFFC00 = r.id &&& 0x3FFFC00))).map
              (fun r => { r with id := r.id % 2 ^ 26 })) =
          compress_small_group_data_into_group
            (cur :: rest.takeWhile (fun r => decide (cur.id &&& 0x3FFFC00 = r.id &&& 0x3FFFC00))) := by
        unfold compress_small_group_data_into_group
        rw [← List.map_cons (fun r : term_data_t => ({ r with id := r.id % 2 ^ 26 } : term_data_t)),
          small_group_loop_low26, List.length_map]
      rw [this]

theorem groups_loop_low26 : ∀ (fuel : Nat) (l : List term_data_t),
    compress_groups_loop fuel (l.map (fun r => { r with id := r.id % 2 ^ 26 })) =
      compress_groups_loop fuel l := by
  intro fuel
  induction fuel with
  | zero => intro l; rfl
  | succ fuel ih =>
    intro l
    cases l with
    | nil => rfl
    | cons cur rest =>
      simp only [List.map_cons, compress_groups_loop]
      have hm : (0x3FC0000 : Nat) < 2 ^ 26 := by norm_num
      simp only [mod26_and _ 0x3FC0000 hm, takeWhile_low26 0x3FC0000 _ hm,
        dropWhile_low26 0x3FC0000 _ hm, ih]
      rw [← List.map_cons (fun r : term_data_t => ({ r with id := r.id % 2 ^ 26 } : term_data_t)),
        mid_groups_loop_low26, List.length_map]

/-- C21, as the code has it: the index builder has no capacity check.
`compress_groups` reads a doc id only through masks below 2^26, so for every
list of records of a term the posting blob, the `document_frequency` and the
`max_positions` it computes, and the record written to the term-data file, are
those of the same records with every doc id reduced modulo 2^26: a doc id
`>= 2^26` is stored as its low 26 bits. -/
theorem compress_groups_low_26_bits (records : List term_data_t) :
    compress_groups records =
      compress_groups (records.map (fun r => { r with id := r.id % 2 ^ 26 })) ∧
    term_record records =
      term_record (records.map (fun r => { r with id := r.id % 2 ^ 26 })) := by
  have h : compress_groups records =
      compress_groups (records.map (fun r => { r with id := r.id % 2 ^ 26 })) := by
    unfold compress_groups
    rw [groups_loop_low26, List.length_map]
  refine ⟨h, ?_⟩
  unfold term_record
  rw [← h]

/-- C21, as stated, fails: a term added in the document with id 2^26 + 5 gets
a posting list, written without any error, whose cursor yields the id 5; and
a position added in document 2^26 + 5 is merged into the record of document
5 (one id, `document_frequency` 1, positions 1 and 2). -/
theorem doc_id_above_capacity_is_truncated :
    advance_trace (term_data_file [[⟨2 ^ 26 + 5, 0, 0⟩]]) 1
        (fill_term (term_data_file [[⟨2 ^ 26 + 5, 0, 0⟩]]) 4) = [(true, 5, 0, [])] ∧
    (compress_groups [⟨5, 1, 0⟩, ⟨2 ^ 26 + 5, 2, 0⟩]).2.1 = 1 ∧
    advance_trace (term_data_file [[⟨5, 1, 0⟩, ⟨2 ^ 26 + 5, 2, 0⟩]]) 1
        (fill_term (term_data_file [[⟨5, 1, 0⟩, ⟨2 ^ 26 + 5, 2, 0⟩]]) 4)
      = [(true, 5, 0, [1, 2])] := by
  decide

theorem global_header_bytes_length (gh : sil_global_header_t) :
    (global_header_bytes gh).length = 16 := by
  simp [global_header_bytes, le64, le32]

theorem take_append_drop_sections (hd d e c : List Nat) (hlen : hd.length = 16) :
    (hd ++ (d ++ e ++ c)).take (d.length + 16) = hd ++ d ∧
    ((hd ++ (d ++ e ++ c)).drop (d.length + 16)).take e.length = e ∧
    ((hd ++ (d ++ e ++ c)).drop (d.length + 16 + e.length)).take c.length = c := by
  have h1 : (hd ++ (d ++ e ++ c)) = (hd ++ d) ++ (e ++ c) := by simp [List.append_assoc]
  have h2 : (hd ++ (d ++ e ++ c)) = (hd ++ d ++ e) ++ c := by simp [List.append_assoc]
  have l1 : (hd ++ d).length = d.length + 16 := by rw [List.length_append, hlen]; omega
  have l2 : (hd ++ d ++ e).length = d.length + 16 + e.length := by
    rw [List.length_append, l1]
  refine ⟨?_, ?_, ?_⟩
  · rw [h1, ← l1, List.take_left]
  · rw [h1, ← l1, List.drop_left, List.take_left]
  · rw [h2, ← l2, List.drop_left, List.take_length]

/-- One iteration of the drain loop on the record of a document. -/
theorem drain_step (doc : search_builder.document) (hok : doc.ok)
    (rs : List search_builder.global_record) (te co : Nat) (out : search_builder.global_files)
    (hco : co + (doc.content_length + 4) < 2 ^ 36) (hte : te + doc.num_embeddings < 2 ^ 28) :
    search_builder.global_drain_loop (doc.record :: rs) te co out =
      search_builder.global_drain_loop rs (te + doc.num_embeddings)
        (co + (doc.content_length + 4))
        { out_gbl := out.out_gbl ++ (le32 (doc.len + SIZEOF_GLOBAL_HEADER) ++
            global_header_bytes { document_length := doc.document_length,
                                  num_embeddings := doc.num_embeddings,
                                  content_offset := co, embeddings_offset := te } ++ doc.d),
          out_emb := out.out_emb ++ doc.embeddings,
          out_content := out.out_content ++ (le32 doc.content_length ++ doc.content) } := by
  obtain ⟨h1, h2, h3, h4, h5, h6⟩ := hok
  have e1 : doc.d.take doc.len = doc.d := by rw [← h1]; exact List.take_length _
  have e2 : doc.content.take doc.content_length = doc.content := by
    rw [← h3]; exact List.take_length _
  have e3 : (doc.num_embeddings * 512) % 2 ^ 32 = doc.num_embeddings * 512 :=
    Nat.mod_eq_of_lt h6
  have e4 : doc.embeddings.take (doc.num_embeddings * 512) = doc.embeddings := by
    rw [← h5]; exact List.take_length _
  have e5 : (doc.len + SIZEOF_GLOBAL_HEADER) % 2 ^ 28 % 2 ^ 32 = doc.d.length + 16 := by
    rw [Nat.mod_eq_of_lt h2, Nat.mod_eq_of_lt (show doc.len + SIZEOF_GLOBAL_HEADER < 2 ^ 32 by omega),
      h1]
    rfl
  have e6 : (doc.content_length + 4) % 2 ^ 36 % 2 ^ 32 = (le32 doc.content_length ++ doc.content).length := by
    rw [Nat.mod_eq_of_lt (show doc.content_length + 4 < 2 ^ 36 by omega), Nat.mod_eq_of_lt h4,
      List.length_append, le32_length, h3]
    omega
  have e7 : co % 2 ^ 36 = co := Nat.mod_eq_of_lt (by omega)
  have e8 : te % 2 ^ 28 = te := Nat.mod_eq_of_lt (by omega)
  have e9 : (te + doc.num_embeddings) % 2 ^ 32 = te + doc.num_embeddings :=
    Nat.mod_eq_of_lt (show te + doc.num_embeddings < 2 ^ 32 by omega)
  have e10 : (co + (le32 doc.content_length ++ doc.content).length) % 2 ^ 64 =
      co + (doc.content_length + 4) := by
    rw [List.length_append, le32_length, h3]
    rw [Nat.mod_eq_of_lt (show co + (4 + doc.content_length) < 2 ^ 64 by omega)]
    omega
  have e11 : doc.num_embeddings * 512 = doc.embeddings.length := h5.symm
  rw [search_builder.global_drain_loop]
  simp only [search_builder.document.record, search_builder.global_record.bytes, e1, e2, e3, e4,
    e5, e6, e7, e8, e9, e10, List.append_assoc]
  obtain ⟨t1, t2, t3⟩ := take_append_drop_sections
    (global_header_bytes { document_length := doc.document_length,
                           num_embeddings := doc.num_embeddings,
                           content_offset := co, embeddings_offset := te })
    doc.d doc.embeddings (le32 doc.content_length ++ doc.content)
    (global_header_bytes_length _)
  simp only [List.append_assoc] at t1 t2 t3
  rw [e11, t1, t2, t3]
  congr 2
  rw [h1]
  rfl

theorem drain_layout : ∀ (docs : List search_builder.document) (te co : Nat)
    (out : search_builder.global_files),
    (∀ doc ∈ docs, doc.ok) →
    co + (docs.map (fun doc => doc.content_length + 4)).sum < 2 ^ 36 →
    te + (docs.map (fun doc => doc.num_embeddings)).sum < 2 ^ 28 →
    search_builder.global_drain_loop (docs.map search_builder.document.record) te co out =
      { out_gbl := out.out_gbl ++ search_builder.gbl_layout docs co te,
        out_emb := out.out_emb ++ (docs.map (fun doc => doc.embeddings)).flatten,
        out_content := out.out_content ++
          (docs.map (fun doc => le32 doc.content_length ++ doc.content)).flatten } := by
  intro docs
  induction docs with
  | nil =>
    intro te co out _ _ _
    simp [search_builder.global_drain_loop, search_builder.gbl_layout]
  | cons doc docs ih =>
    intro te co out hok hco hte
    simp only [List.map_cons, List.sum_cons] at hco hte
    rw [List.map_cons, drain_step doc (hok doc (List.mem_cons_self _ _)) _ te co out
      (by omega) (by omega)]
    rw [ih _ _ _ (fun x hx => hok x (List.mem_cons_of_mem _ hx)) (by omega) (by omega)]
    simp only [search_builder.gbl_layout, List.map_cons, List.flatten_cons, List.append_assoc]

theorem drop_join_prefix_sum (chunks : List (List Nat)) : ∀ (i : Nat), i ≤ chunks.length →
    chunks.flatten.drop ((chunks.take i).map List.length).sum = (chunks.drop i).flatten := by
  induction chunks with
  | nil => intro i _; simp
  | cons c chunks ih =>
    intro i hi
    cases i with
    | zero => simp
    | succ i =>
      simp only [List.take_succ_cons, List.map_cons, List.sum_cons, List.flatten_cons,
        List.drop_succ_cons]
      rw [List.drop_append_eq_append_drop, List.drop_of_length_le (by omega), List.nil_append]
      have : c.length + (List.map List.length (List.take i chunks)).sum - c.length =
          (List.map List.length (List.take i chunks)).sum := by omega
      rw [this]
      exact ih i (by simpa using hi)

theorem gbl_layout_drop : ∀ (docs : List search_builder.document) (co te i : Nat),
    i ≤ docs.length → (∀ doc ∈ docs, doc.d.length = doc.len) →
    (search_builder.gbl_layout docs co te).drop
        (((docs.take i).map (fun doc => 4 + (16 + doc.len))).sum) =
      search_builder.gbl_layout (docs.drop i)
        (co + ((docs.take i).map (fun doc => doc.content_length + 4)).sum)
        (te + ((docs.take i).map (fun doc => doc.num_embeddings)).sum) := by
  intro docs
  induction docs with
  | nil => intro co te i _ _; simp [search_builder.gbl_layout]
  | cons doc docs ih =>
    intro co te i hi hd
    cases i with
    | zero => simp
    | succ i =>
      simp only [List.take_succ_cons, List.map_cons, List.sum_cons, List.drop_succ_cons,
        search_builder.gbl_layout]
      have hlen : (le32 (doc.len + SIZEOF_GLOBAL_HEADER) ++
          global_header_bytes { document_length := doc.document_length,
                                num_embeddings := doc.num_embeddings,
                                content_offset := co, embeddings_offset := te } ++
          doc.d).length = 4 + (16 + doc.len) := by
        rw [List.length_append, List.length_append, le32_length, global_header_bytes_length,
          hd doc (List.mem_cons_self _ _)]
        omega
      rw [List.drop_append_eq_append_drop, List.drop_of_length_le (by rw [hlen]; omega),
        List.nil_append, hlen]
      have : 4 + (16 + doc.len) +
          (List.map (fun doc => 4 + (16 + doc.len)) (List.take i docs)).sum -
          (4 + (16 + doc.len)) =
          (List.map (fun doc => 4 + (16 + doc.len)) (List.take i docs)).sum := by omega
      rw [this, ih _ _ i (by simpa using hi) (fun x hx => hd x (List.mem_cons_of_mem _ hx))]
      congr 1 <;> omega

/-- C22, as the code has it. `docs` are the documents in the order the
`global_data` sort delivers their records (ascending doc id), each record
being the one `_finish_document` writes for its `global` call; the arguments
hold the bytes they announce, user data with header is shorter than 2^28
bytes, each content shorter than 2^32 - 4, and the totals fit the 36-bit and
28-bit offset fields. Then the `_content` file is the concatenation, in that
order, of each document's `u32 content_length` followed by its content bytes;
the `_gbl` file carries for the `i`-th document the header with
`content_offset` equal to the offset of that document's length prefix in
`_content`; and the document's content bytes are the `content_length` bytes
from `content_offset + 4` on. -/
theorem content_file_layout (docs : List search_builder.document)
    (hok : ∀ doc ∈ docs, doc.ok)
    (hco : (docs.map (fun doc => doc.content_length + 4)).sum < 2 ^ 36)
    (hte : (docs.map (fun doc => doc.num_embeddings)).sum < 2 ^ 28) :
    (∀ (h : search_builder.sil_search_builder_t) (doc : search_builder.document),
      (search_builder._finish_document
        { search_builder.sil_search_builder_global h doc.embeddings doc.num_embeddings
            doc.content doc.content_length doc.d doc.len with
          document_length := doc.document_length }).global_data =
        (search_builder._finish_document h).global_data ++ [doc.record]) ∧
    (search_builder.destroy_global_files (docs.map search_builder.document.record)).out_content =
      (docs.map (fun doc => le32 doc.content_length ++ doc.content)).flatten ∧
    (search_builder.destroy_global_files (docs.map search_builder.document.record)).out_gbl =
      search_builder.gbl_layout docs 0 0 ∧
    (∀ i, i < docs.length →
      (search_builder.gbl_layout docs 0 0).drop
          (((docs.take i).map (fun doc => 4 + (16 + doc.len))).sum) =
        search_builder.gbl_layout (docs.drop i) (search_builder.content_offset_of docs i)
          (((docs.take i).map (fun doc => doc.num_embeddings)).sum)) ∧
    (∀ (i : Nat) (doc : search_builder.document), docs[i]? = some doc →
      ((search_builder.destroy_global_files
          (docs.map search_builder.document.record)).out_content.drop
          (search_builder.content_offset_of docs i + 4)).take doc.content_length
        = doc.content) := by
  have hd := drain_layout docs 0 0 { out_gbl := [], out_emb := [], out_content := [] } hok
    (by omega) (by omega)
  have hcontent : (search_builder.destroy_global_files
      (docs.map search_builder.document.record)).out_content =
      (docs.map (fun doc => le32 doc.content_length ++ doc.content)).flatten := by
    unfold search_builder.destroy_global_files
    rw [hd]
    rfl
  refine ⟨?_, hcontent, ?_, ?_, ?_⟩
  · intro h doc
    unfold search_builder._finish_document
    cases hg : h.global_bh <;>
      simp [search_builder.sil_search_builder_global, search_builder._finish_document, hg,
        search_builder.document.record]
  · unfold search_builder.destroy_global_files
    rw [hd]
    rfl
  · intro i hi
    have := gbl_layout_drop docs 0 0 i (le_of_lt hi) (fun doc hdoc => (hok doc hdoc).1)
    simp only [Nat.zero_add] at this
    exact this
  · intro i doc hdoc
    rw [hcontent]
    have hi : i < docs.length := by
      rcases lt_or_ge i docs.length with h | h
      · exact h
      · rw [List.getElem?_eq_none h] at hdoc; cases hdoc
    have hsum : search_builder.content_offset_of docs i =
        (((docs.map (fun doc => le32 doc.content_length ++ doc.content)).take i).map
          List.length).sum := by
      unfold search_builder.content_offset_of
      rw [← List.map_take, List.map_map]
      apply congrArg
      apply List.map_congr_left
      intro x hx
      have := (hok x (List.mem_of_mem_take hx)).2.2.1
      simp only [Function.comp, List.length_append, le32_length, this]
      omega
    rw [← List.drop_drop, hsum, drop_join_prefix_sum _ i
      (by rw [List.length_map]; exact le_of_lt hi), ← List.map_drop]
    have hdrop : docs.drop i = doc :: docs.drop (i + 1) := by
      rw [List.drop_eq_getElem_cons hi]
      congr 1
      rw [List.getElem?_eq_getElem hi] at hdoc
      exact Option.some.inj hdoc
    rw [hdrop, List.map_cons, List.flatten_cons, List.append_assoc,
      List.drop_append_eq_append_drop, List.drop_of_length_le (by rw [le32_length]),
      List.nil_append, le32_length, Nat.sub_self, List.drop_zero]
    have hmem : doc ∈ docs := by
      rw [List.getElem?_eq_getElem hi] at hdoc
      rw [← Option.some.inj hdoc]
      exact List.getElem_mem _
    have hc := (hok doc hmem).2.2.1
    rw [← hc, List.take_left]

/-- C22 on two documents with the contents `hi` and `abc`: the `_content` file
is `02 00 00 00 h i 03 00 00 00 a b c`. -/
theorem content_file_layout_witness :
    (search_builder.destroy_global_files
      ([content_doc_a, content_doc_b].map search_builder.document.record)).out_content =
      ([content_doc_a, content_doc_b].map
        (fun doc => le32 doc.content_length ++ doc.content)).flatten :=
  (content_file_layout [content_doc_a, content_doc_b]
    (by
      intro doc hdoc
      simp only [List.mem_cons, List.mem_singleton, List.not_mem_nil, or_false] at hdoc
      rcases hdoc with rfl | rfl <;> (unfold search_builder.document.ok; decide))
    (by decide) (by decide)).2.1

/-- C22, as stated, fails: for the documents 1 (content `hi`) and 2 (content
`abc`) the `_content` file is not `h i a b c` but carries a `u32` length
before each content; the header written to `_gbl` for document 2 has the
`content_offset` 6, and the three bytes found there are `03 00 00`, the start
of the length prefix, not `abc`. -/
theorem content_file_has_length_prefixes :
    (search_builder.destroy_global_files
      ([content_doc_a, content_doc_b].map search_builder.document.record)).out_content =
      [2, 0, 0, 0, 104, 105, 3, 0, 0, 0, 97, 98, 99] ∧
    (search_builder.destroy_global_files
      ([content_doc_a, content_doc_b].map search_builder.document.record)).out_gbl =
      le32 20 ++ global_header_bytes { document_length := 3, num_embeddings := 0,
                                       content_offset := 0, embeddings_offset := 0 } ++
        [1, 0, 0, 0] ++
      (le32 20 ++ global_header_bytes { document_length := 0, num_embeddings := 0,
                                        content_offset := 6, embeddings_offset := 0 } ++
        [2, 0, 0, 0]) ∧
    ((search_builder.destroy_global_files
      ([content_doc_a, content_doc_b].map search_builder.document.record)).out_content.drop
        (sil_search_image_content { document_length := 0, num_embeddings := 0,
                                    content_offset := 6, embeddings_offset := 0 })).take 3
      = [3, 0, 0] := by
  decide

/-- C23 on lists that share a position: for `A = [5, 6]` and `B = [5, 100]`
the pairs with `a ≠ b` cost 95 (5, 100), 2 (6, 5: out of order) and 94
(6, 100), so the minimum is 2, but `sil_pair_proximity` returns 94; and for
`A = [5, 6]`, `B = [5]`, where the pair (6, 5) costs 2, it returns
`UINT32_MAX`. On the tie `*i == *j` the loop advances `j` and never compares
the later positions of `A` with that position of `B`. On the lists of
scenario S6 it returns 2. -/
theorem pair_proximity_misses_pair_after_tie :
    sil_pair_proximity [5, 6] [5, 100] = 94 ∧
    sil_pair_proximity [5, 6] [5] = UINT32_MAX ∧
    sil_pair_proximity [5, 20] [3, 22] = 2 := by
  decide

theorem pair_loop_all_after (i : Nat) (is : List Nat) (hi : i < 2 ^ 32) :
    ∀ (js : List Nat) (j fuel m : Nat), (j :: js).Sorted (· ≤ ·) →
    (∀ b ∈ j :: js, b < i ∧ 1 ≤ b) → js.length < fuel →
    pair_proximity_loop fuel (i :: is) (j :: js) m =
      min m (i - (j :: js).getLast (List.cons_ne_nil _ _) + 1) := by
  intro js
  induction js with
  | nil =>
    intro j fuel m _ hb hf
    obtain ⟨fuel, rfl⟩ : ∃ k, fuel = k + 1 := ⟨fuel - 1, by simp at hf; omega⟩
    have hj := hb j (List.mem_cons_self _ _)
    have hd : (sub32 i j + 1) % 2 ^ 32 = i - j + 1 := by
      rw [sub32_of_le i j (by omega) (by omega), Nat.mod_eq_of_lt (by omega)]
    simp only [pair_proximity_loop, hj.1, gt_iff_lt, if_true, hd, List.getLast_singleton]
    split <;> omega
  | cons j2 js ih =>
    intro j fuel m hs hb hf
    obtain ⟨fuel, rfl⟩ : ∃ k, fuel = k + 1 := ⟨fuel - 1, by simp at hf; omega⟩
    have hj := hb j (List.mem_cons_self _ _)
    have hd : (sub32 i j + 1) % 2 ^ 32 = i - j + 1 := by
      rw [sub32_of_le i j (by omega) (by omega), Nat.mod_eq_of_lt (by omega)]
    have hs2 : (j2 :: js).Sorted (· ≤ ·) := (List.sorted_cons.1 hs).2
    have hlast : j ≤ (j2 :: js).getLast (List.cons_ne_nil _ _) :=
      (List.sorted_cons.1 hs).1 _ (List.getLast_mem _)
    have hlast2 := (hb _ (List.mem_cons_of_mem _ (List.getLast_mem (List.cons_ne_nil j2 js)))).1
    simp only [pair_proximity_loop, hj.1, gt_iff_lt, if_true, hd]
    rw [ih j2 fuel _ hs2 (fun b hb2 => hb b (List.mem_cons_of_mem _ hb2))
      (by simp only [List.length_cons] at hf; omega), List.getLast_cons_cons]
    split <;> omega

theorem sorted_le_getLast : ∀ (l : List Nat) (h : l ≠ []), l.Sorted (· ≤ ·) →
    ∀ b ∈ l, b ≤ l.getLast h := by
  intro l
  induction l with
  | nil => intro h; exact absurd rfl h
  | cons x l ih =>
    intro h hs b hb
    cases l with
    | nil =>
      rw [List.mem_singleton.1 hb]
      simp
    | cons y l =>
      rw [List.getLast_cons_cons]
      rcases List.mem_cons.1 hb with hx | hx
      · rw [hx]
        exact (List.sorted_cons.1 hs).1 _ (List.getLast_mem _)
      · exact ih (List.cons_ne_nil _ _) (List.sorted_cons.1 hs).2 b hx

/-- C24: for sorted non-empty position lists `A` and `B` (positions at least 1
and below 2^32) with every position of `A` after every position of `B`,
`sil_pair_proximity A B` is `min A - max B + 1` (first position of `A`, last
of `B`), which is the minimum of `(a - b) + 1` over all pairs. -/
theorem pair_proximity_all_after (A B : List Nat) (hA : A ≠ []) (hB : B ≠ [])
    (hsA : A.Sorted (· ≤ ·)) (hsB : B.Sorted (· ≤ ·))
    (hlt : ∀ a ∈ A, ∀ b ∈ B, b < a) (hA32 : ∀ a ∈ A, a < 2 ^ 32) (hB1 : ∀ b ∈ B, 1 ≤ b) :
    sil_pair_proximity A B = A.head hA - B.getLast hB + 1 ∧
    (∀ a ∈ A, ∀ b ∈ B, sil_pair_proximity A B ≤ (a - b) + 1) ∧
    (∃ a ∈ A, ∃ b ∈ B, sil_pair_proximity A B = (a - b) + 1) := by
  obtain ⟨i, is, rfl⟩ := List.exists_cons_of_ne_nil hA
  obtain ⟨j, js, rfl⟩ := List.exists_cons_of_ne_nil hB
  have hi := hA32 i (List.mem_cons_self _ _)
  have hlastmem := List.getLast_mem (List.cons_ne_nil j js)
  have hlast := hlt i (List.mem_cons_self _ _) _ hlastmem
  have hval : sil_pair_proximity (i :: is) (j :: js) =
      i - (j :: js).getLast (List.cons_ne_nil _ _) + 1 := by
    show pair_proximity_loop (is.length + js.length + 2) (i :: is) (j :: js) UINT32_MAX = _
    rw [pair_loop_all_after i is hi js j (is.length + js.length + 2) UINT32_MAX hsB
      (fun b hb => ⟨hlt i (List.mem_cons_self _ _) b hb, hB1 b hb⟩) (by omega)]
    have := hB1 _ hlastmem
    unfold UINT32_MAX
    omega
  refine ⟨hval, ?_, ⟨i, List.mem_cons_self _ _, _, hlastmem, hval⟩⟩
  intro a ha b hb
  rw [hval]
  have h1 : i ≤ a := by
    rcases List.mem_cons.1 ha with h | h
    · omega
    · exact (List.sorted_cons.1 hsA).1 a h
  have h2 : b ≤ (j :: js).getLast (List.cons_ne_nil _ _) := by
    exact sorted_le_getLast (j :: js) (List.cons_ne_nil _ _) hsB b hb
  omega

/-- C24 on `A = [20, 30]`, `B = [3, 5]`: the result is `20 - 5 + 1 = 16`. -/
theorem pair_proximity_all_after_witness :
    sil_pair_proximity [20, 30] [3, 5] =
      ([20, 30] : List Nat).head (by decide) - ([3, 5] : List Nat).getLast (by decide) + 1 ∧
    (∀ a ∈ ([20, 30] : List Nat), ∀ b ∈ ([3, 5] : List Nat),
      sil_pair_proximity [20, 30] [3, 5] ≤ (a - b) + 1) ∧
    (∃ a ∈ ([20, 30] : List Nat), ∃ b ∈ ([3, 5] : List Nat),
      sil_pair_proximity [20, 30] [3, 5] = (a - b) + 1) :=
  pair_proximity_all_after [20, 30] [3, 5] (by decide) (by decide) (by decide) (by decide)
    (by decide) (by decide) (by decide)

/-- The weight of one further occurrence lies between 0 and its decay factor. -/
theorem spread_weight_bounds (i prev p : Nat) (hi : 1 ≤ i ∧ i ≤ 4) (hp : 1 ≤ p) :
    0 ≤ spread_weight i prev p ∧
    spread_weight i prev p ≤ sil_spread_decay_factors.getD i 0 := by
  have hdec : (0 : ℚ) ≤ sil_spread_decay_factors.getD i 0 := by
    obtain ⟨h1, h2⟩ := hi
    interval_cases i <;> simp [sil_spread_decay_factors] <;> norm_num
  have hthr : 0 < sil_spread_distance_thresholds.getD (i - 1) 0 := by
    obtain ⟨h1, h2⟩ := hi
    interval_cases i <;> simp [sil_spread_distance_thresholds]
  have hp' : (1 : ℚ) ≤ (p : ℚ) := by exact_mod_cast hp
  unfold spread_weight
  generalize sil_spread_decay_factors.getD i 0 = dec at hdec ⊢
  generalize sil_spread_distance_thresholds.getD (i - 1) 0 = thr at hthr ⊢
  generalize sub32 p prev = dist
  have hthr' : (0 : ℚ) < (thr : ℚ) := by exact_mod_cast hthr
  have hmin : ((if dist < thr then dist else thr : Nat) : ℚ) ≤ (thr : ℚ) := by
    split
    · exact_mod_cast (le_of_lt ‹dist < thr›)
    · exact le_refl _
  have hmin0 : (0 : ℚ) ≤ ((if dist < thr then dist else thr : Nat) : ℚ) := Nat.cast_nonneg _
  have hfrac0 : (0 : ℚ) ≤ ((if dist < thr then dist else thr : Nat) : ℚ) / (thr : ℚ) :=
    div_nonneg hmin0 (le_of_lt hthr')
  have hfrac1 : ((if dist < thr then dist else thr : Nat) : ℚ) / (thr : ℚ) ≤ 1 :=
    (div_le_one hthr').2 hmin
  constructor
  · exact div_nonneg (mul_nonneg hdec hfrac0) (by linarith)
  · rw [div_le_iff₀ (by linarith)]
    calc dec * (((if dist < thr then dist else thr : Nat) : ℚ) / (thr : ℚ))
        ≤ dec * 1 := mul_le_mul_of_nonneg_left hfrac1 hdec
      _ ≤ dec * (p : ℚ) := mul_le_mul_of_nonneg_left hp' hdec

theorem spread_score_one (a : Nat) : sil_term_spread_score [a] = 1 / (a : ℚ) := by
  simp [sil_term_spread_score, sil_spread_decay_factors]

theorem spread_score_two (a b : Nat) :
    sil_term_spread_score [a, b] = (1 / (a : ℚ) + spread_weight 1 a b) / 2 := by
  simp [sil_term_spread_score, sil_spread_decay_factors, SIL_SPREAD_MAX_OCCURRENCES, spread_loop]

theorem spread_score_three (a b c : Nat) :
    sil_term_spread_score [a, b, c] =
      (1 / (a : ℚ) + spread_weight 1 a b + spread_weight 2 b c) / 3 := by
  simp [sil_term_spread_score, sil_spread_decay_factors, SIL_SPREAD_MAX_OCCURRENCES, spread_loop]

theorem spread_score_four (a b c d : Nat) :
    sil_term_spread_score [a, b, c, d] =
      (1 / (a : ℚ) + spread_weight 1 a b + spread_weight 2 b c + spread_weight 3 c d) / 4 := by
  simp [sil_term_spread_score, sil_spread_decay_factors, SIL_SPREAD_MAX_OCCURRENCES, spread_loop]

theorem spread_score_five (a b c d e : Nat) (rest : List Nat) :
    sil_term_spread_score (a :: b :: c :: d :: e :: rest) =
      (1 / (a : ℚ) + spread_weight 1 a b + spread_weight 2 b c + spread_weight 3 c d +
        spread_weight 4 d e) / 5 := by
  have hc : (if (a :: b :: c :: d :: e :: rest).length > SIL_SPREAD_MAX_OCCURRENCES
      then SIL_SPREAD_MAX_OCCURRENCES else (a :: b :: c :: d :: e :: rest).length) = 5 := by
    simp only [List.length_cons, SIL_SPREAD_MAX_OCCURRENCES]
    split <;> omega
  unfold sil_term_spread_score
  simp only [hc]
  simp [sil_spread_decay_factors, spread_loop]

/-- C25: for every non-empty list of positions that are all at least 1 (in
particular every strictly increasing such list), the spread score, computed
exactly with the decay factors 1, 7/10, 1/2, 3/10, 1/5 and the thresholds 30,
70, 200, 400, is above 0 and at most 1, and it is the score of the first five
positions. -/
theorem spread_score_in_unit_interval (positions : List Nat) (hne : positions ≠ [])
    (hpos : ∀ p ∈ positions, 1 ≤ p) :
    0 < sil_term_spread_score positions ∧ sil_term_spread_score positions ≤ 1 ∧
    sil_term_spread_score positions = sil_term_spread_score (positions.take 5) := by
  have hinv : ∀ a : Nat, 1 ≤ a → (0 : ℚ) < 1 / (a : ℚ) ∧ 1 / (a : ℚ) ≤ 1 := by
    intro a ha
    have h1 : (1 : ℚ) ≤ (a : ℚ) := by exact_mod_cast ha
    constructor
    · exact div_pos one_pos (by linarith)
    · rw [div_le_one (by linarith)]; exact h1
  have d1 : sil_spread_decay_factors.getD 1 0 = 7 / 10 := rfl
  have d2 : sil_spread_decay_factors.getD 2 0 = 1 / 2 := rfl
  have d3 : sil_spread_decay_factors.getD 3 0 = 3 / 10 := rfl
  have d4 : sil_spread_decay_factors.getD 4 0 = 1 / 5 := rfl
  match positions, hne, hpos with
  | [a], _, hpos =>
    obtain ⟨h1, h2⟩ := hinv a (hpos a (by simp))
    rw [List.take_of_length_le (by simp), spread_score_one]
    exact ⟨h1, h2, rfl⟩
  | [a, b], _, hpos =>
    obtain ⟨h1, h2⟩ := hinv a (hpos a (by simp))
    obtain ⟨w1, w1'⟩ := spread_weight_bounds 1 a b (by omega) (hpos b (by simp))
    rw [d1] at w1'
    rw [List.take_of_length_le (by simp), spread_score_two]
    refine ⟨by linarith, by linarith, rfl⟩
  | [a, b, c], _, hpos =>
    obtain ⟨h1, h2⟩ := hinv a (hpos a (by simp))
    obtain ⟨w1, w1'⟩ := spread_weight_bounds 1 a b (by omega) (hpos b (by simp))
    obtain ⟨w2, w2'⟩ := spread_weight_bounds 2 b c (by omega) (hpos c (by simp))
    rw [d1] at w1'
    rw [d2] at w2'
    rw [List.take_of_length_le (by simp), spread_score_three]
    refine ⟨by linarith, by linarith, rfl⟩
  | [a, b, c, d], _, hpos =>
    obtain ⟨h1, h2⟩ := hinv a (hpos a (by simp))
    obtain ⟨w1, w1'⟩ := spread_weight_bounds 1 a b (by omega) (hpos b (by simp))
    obtain ⟨w2, w2'⟩ := spread_weight_bounds 2 b c (by omega) (hpos c (by simp))
    obtain ⟨w3, w3'⟩ := spread_weight_bounds 3 c d (by omega) (hpos d (by simp))
    rw [d1] at w1'
    rw [d2] at w2'
    rw [d3] at w3'
    rw [List.take_of_length_le (by simp), spread_score_four]
    refine ⟨by linarith, by linarith, rfl⟩
  | a :: b :: c :: d :: e :: rest, _, hpos =>
    obtain ⟨h1, h2⟩ := hinv a (hpos a (by simp))
    obtain ⟨w1, w1'⟩ := spread_weight_bounds 1 a b (by omega) (hpos b (by simp))
    obtain ⟨w2, w2'⟩ := spread_weight_bounds 2 b c (by omega) (hpos c (by simp))
    obtain ⟨w3, w3'⟩ := spread_weight_bounds 3 c d (by omega) (hpos d (by simp))
    obtain ⟨w4, w4'⟩ := spread_weight_bounds 4 d e (by omega) (hpos e (by simp))
    rw [d1] at w1'
    rw [d2] at w2'
    rw [d3] at w3'
    rw [d4] at w4'
    have htake : (a :: b :: c :: d :: e :: rest).take 5 = a :: b :: c :: d :: e :: [] := rfl
    rw [htake, spread_score_five, spread_score_five]
    refine ⟨by linarith, by linarith, rfl⟩

/-- C25 on the positions 10, 50, 300: the score is `(1/10 + 7/10 * 1 / 50 +
1/2 * 1 / 300) / 3`. -/
theorem spread_score_in_unit_interval_witness :
    0 < sil_term_spread_score [10, 50, 300] ∧ sil_term_spread_score [10, 50, 300] ≤ 1 ∧
    sil_term_spread_score [10, 50, 300] = sil_term_spread_score (([10, 50, 300] : List Nat).take 5) :=
  spread_score_in_unit_interval [10, 50, 300] (by decide) (by decide)

theorem region_snippet_window (positions : List snippet_position_t) (m a b : Nat) :
    (region_snippet positions m a b).start = a ∧ (region_snippet positions m a b).end_ = b ∧
    (region_snippet positions m a b).next_in_cluster = true := ⟨rfl, rfl, rfl⟩

theorem cluster_scan_spec (max_snippet : Nat) : ∀ (rest : List snippet_position_t)
    (prev : snippet_position_t) (query_mask : Nat),
    (cluster_scan max_snippet prev rest query_mask).1 ++
      (cluster_scan max_snippet prev rest query_mask).2.2 = rest ∧
    List.Chain (same_cluster_gap max_snippet) prev
      (cluster_scan max_snippet prev rest query_mask).1 ∧
    (∀ y ∈ (cluster_scan max_snippet prev rest query_mask).2.2.head?,
      ¬ same_cluster_gap max_snippet
        ((prev :: (cluster_scan max_snippet prev rest query_mask).1).getLastD prev) y) ∧
    (cluster_scan max_snippet prev rest query_mask).2.1 =
      (cluster_scan max_snippet prev rest query_mask).1.foldl
        (fun m p => m ||| p.query_mask) query_mask := by
  intro rest
  induction rest with
  | nil =>
    intro prev query_mask
    simp [cluster_scan]
  | cons p rest ih =>
    intro prev query_mask
    by_cases hg : sub64 p.position prev.position < adjusted_max_snippet prev.position max_snippet
    · obtain ⟨h1, h2, h3, h4⟩ := ih p (query_mask ||| p.query_mask)
      simp only [cluster_scan, hg, if_true]
      refine ⟨?_, ?_, ?_, ?_⟩
      · rw [List.cons_append, h1]
      · exact List.Chain.cons hg h2
      · intro y hy
        have := h3 y hy
        rw [List.getLastD_cons] at this ⊢
        rw [List.getLastD_cons]
        exact this
      · rw [List.foldl_cons]
        exact h4
    · simp only [cluster_scan, hg, if_false]
      refine ⟨rfl, List.Chain.nil, ?_, rfl⟩
      intro y hy
      simp only [List.head?_cons, Option.mem_def, Option.some.injEq] at hy
      subst hy
      exact hg

theorem compare_snippet_position_iff (a b : snippet_position_t) :
    compare_snippet_position a b = true ↔ key_lt a.key b.key := by
  unfold compare_snippet_position key_lt snippet_position_t.key
  by_cases h : a.position = b.position
  · simp [h]
  · simp only [ne_eq, h, not_false_eq_true, if_true, decide_eq_true_eq, false_and, or_false]

theorem key_lt_irrefl (a : Nat × Nat) : ¬ key_lt a a := by
  unfold key_lt; omega

theorem key_lt_trans (a b c : Nat × Nat) (h1 : key_lt a b) (h2 : key_lt b c) : key_lt a c := by
  unfold key_lt at *; omega

theorem key_lt_or_eq_of_not_lt (a b : Nat × Nat) (h : ¬ key_lt b a) : key_lt a b ∨ a = b := by
  unfold key_lt at *
  by_cases h1 : a.1 < b.1
  · exact Or.inl (Or.inl h1)
  · have h2 : a.1 = b.1 := by omega
    by_cases h3 : a.2 < b.2
    · exact Or.inl (Or.inr ⟨h2, h3⟩)
    · right
      have h4 : a.2 = b.2 := by omega
      exact Prod.ext h2 h4

/-- Folding OR over masks, started from `m`. -/
theorem foldl_or_start (l : List Nat) (m : Nat) :
    l.foldl (fun m x => m ||| x) m = m ||| l.foldl (fun m x => m ||| x) 0 := by
  induction l generalizing m with
  | nil => simp
  | cons x l ih =>
    rw [List.foldl_cons, List.foldl_cons, ih, ih (0 ||| x), Nat.zero_or, Nat.or_assoc]

theorem mask_of_perm (l l' : List snippet_position_t) (h : l.Perm l') (k : Nat × Nat) :
    mask_of l k = mask_of l' k := by
  unfold mask_of
  apply List.Perm.foldl_eq' ((h.filter _).map _)
  intro x _ y _ z
  show z ||| x ||| y = z ||| y ||| x
  rw [Nat.or_assoc, Nat.or_comm x y, ← Nat.or_assoc]

theorem mask_of_cons (x : snippet_position_t) (l : List snippet_position_t) (k : Nat × Nat) :
    mask_of (x :: l) k = if x.key = k then x.query_mask ||| mask_of l k else mask_of l k := by
  unfold mask_of
  by_cases h : x.key = k
  · simp only [List.filter_cons, h, decide_True, if_true, List.map_cons, List.foldl_cons]
    rw [foldl_or_start, Nat.zero_or]
  · simp only [List.filter_cons, h, decide_False, if_false]
    simp

theorem mask_of_append (a b : List snippet_position_t) (k : Nat × Nat) :
    mask_of (a ++ b) k = mask_of a k ||| mask_of b k := by
  induction a with
  | nil => simp [mask_of]
  | cons x a ih =>
    rw [List.cons_append, mask_of_cons, mask_of_cons, ih]
    split
    · rw [Nat.or_assoc]
    · rfl

theorem mask_of_absent (l : List snippet_position_t) (k : Nat × Nat)
    (h : ∀ x ∈ l, x.key ≠ k) : mask_of l k = 0 := by
  induction l with
  | nil => rfl
  | cons x l ih =>
    rw [mask_of_cons, if_neg (h x (List.mem_cons_self _ _)),
      ih (fun y hy => h y (List.mem_cons_of_mem _ hy))]

theorem merge_run_spec : ∀ (rest : List snippet_position_t) (p : snippet_position_t),
    (∀ x ∈ rest, ¬ key_lt x.key p.key) →
    rest.Pairwise (fun a b => ¬ key_lt b.key a.key) →
    (merge_run p rest).1.key = p.key ∧
    (merge_run p rest).1.query_mask = p.query_mask ||| mask_of rest p.key ∧
    (∀ x ∈ (merge_run p rest).2, key_lt p.key x.key) ∧
    (∃ run, rest = run ++ (merge_run p rest).2 ∧ ∀ x ∈ run, x.key = p.key) := by
  intro rest
  induction rest with
  | nil =>
    intro p _ _
    refine ⟨rfl, ?_, ?_, ⟨[], rfl, ?_⟩⟩
    · simp [merge_run, mask_of]
    · intro x hx; simp [merge_run] at hx
    · intro x hx; simp at hx
  | cons q rest ih =>
    intro p hge hs
    have hs' := (List.pairwise_cons.1 hs)
    by_cases hq : q.position = p.position ∧ q.term_index = p.term_index
    · have hkey : q.key = p.key := Prod.ext hq.1 hq.2
      obtain ⟨i1, i2, i3, run, i4, i5⟩ := ih { p with query_mask := p.query_mask ||| q.query_mask }
        (fun x hx => hge x (List.mem_cons_of_mem _ hx)) hs'.2
      have hmr : merge_run p (q :: rest) =
          merge_run { p with query_mask := p.query_mask ||| q.query_mask } rest := by
        simp only [merge_run, hq, and_self, if_true]
      rw [hmr]
      refine ⟨i1, ?_, i3, ⟨q :: run, ?_, ?_⟩⟩
      · rw [i2, mask_of_cons, if_pos hkey, Nat.or_assoc]
        rfl
      · rw [List.cons_append, ← i4]
      · intro x hx
        rcases List.mem_cons.1 hx with h | h
        · rw [h]; exact hkey
        · exact i5 x h
    · have hkey : q.key ≠ p.key := by
        intro h
        apply hq
        exact ⟨congrArg Prod.fst h, congrArg Prod.snd h⟩
      have hlt : key_lt p.key q.key := by
        rcases key_lt_or_eq_of_not_lt p.key q.key (hge q (List.mem_cons_self _ _)) with h | h
        · exact h
        · exact absurd h.symm hkey
      have hall : ∀ x ∈ q :: rest, key_lt p.key x.key := by
        intro x hx
        rcases List.mem_cons.1 hx with h | h
        · rw [h]; exact hlt
        · rcases key_lt_or_eq_of_not_lt q.key x.key (hs'.1 x h) with h2 | h2
          · exact key_lt_trans _ _ _ hlt h2
          · rw [← h2]; exact hlt
      have hmr : merge_run p (q :: rest) = (p, q :: rest) := by
        simp only [merge_run, hq, if_false]
      rw [hmr]
      refine ⟨rfl, ?_, hall, ⟨[], rfl, ?_⟩⟩
      · rw [mask_of_absent _ _ (fun x hx h => key_lt_irrefl p.key
          (by have := hall x hx; rw [h] at this; exact this))]
        simp
      · intro x hx; simp at hx

theorem merge_loop_spec : ∀ (fuel : Nat) (l : List snippet_position_t), l.length ≤ fuel →
    l.Pairwise (fun a b => ¬ key_lt b.key a.key) →
    ((merge_loop fuel l).map snippet_position_t.key).Pairwise key_lt ∧
    (∀ k, k ∈ (merge_loop fuel l).map snippet_position_t.key ↔
      k ∈ l.map snippet_position_t.key) ∧
    (∀ e ∈ merge_loop fuel l, e.query_mask = mask_of l e.key) := by
  intro fuel
  induction fuel with
  | zero =>
    intro l hl _
    have : l = [] := List.length_eq_zero.1 (Nat.le_zero.1 hl)
    subst this
    simp [merge_loop]
  | succ fuel ih =>
    intro l hl hs
    cases l with
    | nil => simp [merge_loop]
    | cons p rest =>
      have hs' := List.pairwise_cons.1 hs
      obtain ⟨m1, m2, m3, run, m4, m5⟩ := merge_run_spec rest p hs'.1 hs'.2
      have hsuf : (merge_run p rest).2.Pairwise (fun a b => ¬ key_lt b.key a.key) := by
        have := hs'.2
        rw [m4] at this
        exact (List.pairwise_append.1 this).2.1
      have hlen : (merge_run p rest).2.length ≤ fuel := by
        have := congrArg List.length m4
        rw [List.length_append] at this
        simp only [List.length_cons] at hl
        omega
      obtain ⟨i1, i2, i3⟩ := ih _ hlen hsuf
      simp only [merge_loop, List.map_cons]
      refine ⟨?_, ?_, ?_⟩
      · rw [List.pairwise_cons]
        refine ⟨?_, i1⟩
        intro k hk
        rw [m1]
        obtain ⟨x, hx, rfl⟩ := List.mem_map.1 ((i2 k).1 hk)
        exact m3 x hx
      · intro k
        rw [List.mem_cons, i2, List.mem_cons, m1]
        constructor
        · rintro (h | h)
          · exact Or.inl h
          · right
            rw [m4, List.map_append, List.mem_append]
            exact Or.inr h
        · rintro (h | h)
          · exact Or.inl h
          · rw [m4, List.map_append, List.mem_append] at h
            rcases h with h | h
            · obtain ⟨x, hx, rfl⟩ := List.mem_map.1 h
              exact Or.inl (m5 x hx)
            · exact Or.inr h
      · intro e he
        rcases List.mem_cons.1 he with h | h
        · rw [h, m2, m1, mask_of_cons, if_pos rfl]
        · have hk : key_lt p.key e.key := by
            have := (i2 e.key).1 (List.mem_map_of_mem _ h)
            obtain ⟨x, hx, hxe⟩ := List.mem_map.1 this
            rw [← hxe]
            exact m3 x hx
          have hne : p.key ≠ e.key := fun heq => key_lt_irrefl e.key (heq ▸ hk)
          rw [i3 e h, mask_of_cons, if_neg hne]
          conv_rhs => rw [m4]
          rw [mask_of_append, mask_of_absent run e.key (fun x hx => by rw [m5 x hx]; exact hne)]
          simp

theorem merge_run_fixed (p : snippet_position_t) (rest : List snippet_position_t)
    (h : ∀ x ∈ rest.head?, x.key ≠ p.key) : merge_run p rest = (p, rest) := by
  cases rest with
  | nil => rfl
  | cons q rest =>
    have hq := h q (by simp)
    have : ¬ (q.position = p.position ∧ q.term_index = p.term_index) := by
      intro hc
      exact hq (Prod.ext hc.1 hc.2)
    simp only [merge_run, this, if_false]

theorem merge_loop_fixed : ∀ (fuel : Nat) (l : List snippet_position_t), l.length ≤ fuel →
    (l.map snippet_position_t.key).Pairwise key_lt → merge_loop fuel l = l := by
  intro fuel
  induction fuel with
  | zero =>
    intro l hl _
    have : l = [] := List.length_eq_zero.1 (Nat.le_zero.1 hl)
    subst this
    rfl
  | succ fuel ih =>
    intro l hl hs
    cases l with
    | nil => rfl
    | cons p rest =>
      rw [List.map_cons, List.pairwise_cons] at hs
      have hfix : merge_run p rest = (p, rest) := by
        apply merge_run_fixed
        intro x hx heq
        have hmem : x ∈ rest := List.mem_of_mem_head? hx
        have := hs.1 x.key (List.mem_map_of_mem _ hmem)
        rw [heq] at this
        exact key_lt_irrefl _ this
      simp only [merge_loop, hfix]
      rw [ih rest (by simp only [List.length_cons] at hl; omega) hs.2]

theorem sorted_perm_of_strict (out s : List snippet_position_t)
    (hstrict : (out.map snippet_position_t.key).Pairwise key_lt)
    (hperm : s.Perm out)
    (hsorted : s.Pairwise (fun a b => compare_snippet_position b a = false)) : s = out := by
  haveI : IsAntisymm snippet_position_t (fun a b => key_lt a.key b.key) :=
    ⟨fun a b h1 h2 => absurd (key_lt_trans _ _ _ h1 h2) (key_lt_irrefl _)⟩
  have hnodup : (out.map snippet_position_t.key).Nodup :=
    hstrict.imp (fun {a b} (h : key_lt a b) (heq : a = b) => key_lt_irrefl b (by rw [heq] at h; exact h))
  have hnodup' : (s.map snippet_position_t.key).Nodup :=
    ((hperm.map snippet_position_t.key).nodup_iff).2 hnodup
  have hne : s.Pairwise (fun a b => a.key ≠ b.key) := (List.pairwise_map).1 hnodup'
  have hs : s.Pairwise (fun a b => key_lt a.key b.key) := by
    refine (hsorted.and hne).imp ?_
    intro a b h
    have hnot : ¬ key_lt b.key a.key := by
      intro hlt
      have := (compare_snippet_position_iff b a).2 hlt
      rw [h.1] at this
      cases this
    rcases key_lt_or_eq_of_not_lt a.key b.key hnot with h2 | h2
    · exact h2
    · exact absurd h2 h.2
  have ho : out.Pairwise (fun a b => key_lt a.key b.key) := (List.pairwise_map).1 hstrict
  exact List.eq_of_perm_of_sorted hperm hs ho

/-- C28: `sort_snippet_positions` is any function that returns its input
rearranged so that no entry compares below an earlier one
(`compare_snippet_position`). Then `snippet_position_sort` returns the number
`n` of distinct `(position, term_index)` pairs of the input; the first `n`
entries of the array carry exactly these pairs, in strictly increasing order,
each with the bitwise OR of the `query_mask`s of all input entries with its
pair; and the function applied to these `n` entries returns `n` and leaves
them as they are. -/
theorem snippet_position_sort_merges
    (sort_snippet_positions : List snippet_position_t → List snippet_position_t)
    (hperm : ∀ l, (sort_snippet_positions l).Perm l)
    (hsorted : ∀ l, (sort_snippet_positions l).Pairwise
      (fun a b => compare_snippet_position b a = false))
    (positions : List snippet_position_t) :
    (snippet_position_sort sort_snippet_positions positions).1 =
      (snippet_position_sort sort_snippet_positions positions).2.length ∧
    (snippet_position_sort sort_snippet_positions positions).1 =
      (positions.map snippet_position_t.key).toFinset.card ∧
    ((snippet_position_sort sort_snippet_positions positions).2.map
      snippet_position_t.key).Pairwise key_lt ∧
    (∀ k, k ∈ (snippet_position_sort sort_snippet_positions positions).2.map
        snippet_position_t.key ↔ k ∈ positions.map snippet_position_t.key) ∧
    (∀ e ∈ (snippet_position_sort sort_snippet_positions positions).2,
      e.query_mask = mask_of positions e.key) ∧
    snippet_position_sort sort_snippet_positions
        (snippet_position_sort sort_snippet_positions positions).2 =
      snippet_position_sort sort_snippet_positions positions := by
  have hks : (sort_snippet_positions positions).Pairwise (fun a b => ¬ key_lt b.key a.key) := by
    refine (hsorted positions).imp ?_
    intro a b h hlt
    have := (compare_snippet_position_iff b a).2 hlt
    rw [h] at this
    cases this
  obtain ⟨s1, s2, s3⟩ := merge_loop_spec (sort_snippet_positions positions).length
    (sort_snippet_positions positions) (le_refl _) hks
  have hkeys : ∀ k, k ∈ (merge_loop (sort_snippet_positions positions).length
      (sort_snippet_positions positions)).map snippet_position_t.key ↔
      k ∈ positions.map snippet_position_t.key := by
    intro k
    rw [s2 k]
    exact ((hperm positions).map snippet_position_t.key).mem_iff
  have hnodup : ((merge_loop (sort_snippet_positions positions).length
      (sort_snippet_positions positions)).map snippet_position_t.key).Nodup :=
    s1.imp (fun {a b} (h : key_lt a b) (heq : a = b) => key_lt_irrefl b (by rw [heq] at h; exact h))
  have hfix : sort_snippet_positions (merge_loop (sort_snippet_positions positions).length
      (sort_snippet_positions positions)) =
      merge_loop (sort_snippet_positions positions).length (sort_snippet_positions positions) :=
    sorted_perm_of_strict _ _ s1 (hperm _) (hsorted _)
  refine ⟨rfl, ?_, s1, hkeys, ?_, ?_⟩
  · show (merge_loop _ _).length = _
    rw [← List.length_map (merge_loop _ _) snippet_position_t.key,
      ← List.toFinset_card_of_nodup hnodup]
    congr 1
    ext k
    rw [List.mem_toFinset, List.mem_toFinset]
    exact hkeys k
  · intro e he
    rw [s3 e he]
    exact mask_of_perm _ _ (hperm positions) e.key
  · show (_, _) = (_, _)
    simp only [snippet_position_sort, hfix]
    rw [merge_loop_fixed _ _ (le_refl _) s1]

theorem compare_le_total (a b : snippet_position_t) :
    compare_snippet_position b a = false ∨ compare_snippet_position a b = false := by
  by_cases h1 : compare_snippet_position b a = true
  · right
    by_cases h2 : compare_snippet_position a b = true
    · exact absurd (key_lt_trans _ _ _ ((compare_snippet_position_iff _ _).1 h1)
        ((compare_snippet_position_iff _ _).1 h2)) (key_lt_irrefl _)
    · simpa using h2
  · left
    simpa using h1

theorem compare_le_trans (a b c : snippet_position_t)
    (h1 : compare_snippet_position b a = false) (h2 : compare_snippet_position c b = false) :
    compare_snippet_position c a = false := by
  have n1 : ¬ key_lt b.key a.key := fun h => by
    rw [(compare_snippet_position_iff _ _).2 h] at h1; cases h1
  have n2 : ¬ key_lt c.key b.key := fun h => by
    rw [(compare_snippet_position_iff _ _).2 h] at h2; cases h2
  by_cases h3 : compare_snippet_position c a = true
  · have := (compare_snippet_position_iff _ _).1 h3
    unfold key_lt at n1 n2 this
    omega
  · simpa using h3

/-- C28 with an insertion sort for `sort_snippet_positions`, on three entries
of which two share the pair (5, 0): the returned count is 2. -/
theorem snippet_position_sort_merges_witness :
    (snippet_position_sort
      (List.insertionSort (fun a b => compare_snippet_position b a = false))
      [⟨5, 1, 0, 1⟩, ⟨3, 1, 1, 2⟩, ⟨5, 2, 0, 4⟩]).1 =
      (([⟨5, 1, 0, 1⟩, ⟨3, 1, 1, 2⟩, ⟨5, 2, 0, 4⟩] : List snippet_position_t).map
        snippet_position_t.key).toFinset.card := by
  haveI : IsTotal snippet_position_t (fun a b => compare_snippet_position b a = false) :=
    ⟨compare_le_total⟩
  haveI : IsTrans snippet_position_t (fun a b => compare_snippet_position b a = false) :=
    ⟨compare_le_trans⟩
  exact (snippet_position_sort_merges
    (List.insertionSort (fun a b => compare_snippet_position b a = false))
    (fun l => List.perm_insertionSort _ l) (fun l => List.sorted_insertionSort _ l)
    [⟨5, 1, 0, 1⟩, ⟨3, 1, 1, 2⟩, ⟨5, 2, 0, 4⟩]).2.1

theorem rescore_index (first : snippet_t) (mask : Nat) (s : snippet_t) :
    (rescore first mask s).index = s.index := by
  unfold rescore
  split
  · rfl
  · dsimp only
    split <;> rfl

theorem snippets_top_rec_spec (sort_snippets : List snippet_t → List snippet_t)
    (hperm : ∀ l, (sort_snippets l).Perm l) : ∀ (fuel : Nat) (l : List snippet_t),
    (_snippets_top sort_snippets fuel l).1 ≤ l.length ∧
    ((_snippets_top sort_snippets fuel l).2.map snippet_t.index).Perm (l.map snippet_t.index) := by
  intro fuel
  induction fuel with
  | zero => intro l; exact ⟨Nat.zero_le _, List.Perm.refl _⟩
  | succ fuel ih =>
    intro l
    simp only [_snippets_top]
    split
    · exact ⟨Nat.zero_le _, List.Perm.refl _⟩
    · have hp := hperm l
      split
      · rename_i hs
        rw [hs] at hp
        have := hp.length_eq
        simp only [List.length_nil] at this
        omega
      · rename_i first rest hs
        rw [hs] at hp
        have hlen := hp.length_eq
        simp only [List.length_cons] at hlen
        split
        · exact ⟨Nat.zero_le _, hp.map _⟩
        · have hidx : (rest.map (rescore first first.mask)).map snippet_t.index =
              rest.map snippet_t.index := by
            rw [List.map_map]
            apply List.map_congr_left
            intro s _
            exact rescore_index _ _ s
          split
          · obtain ⟨i1, i2⟩ := ih (rest.map (rescore first first.mask))
            constructor
            · rw [List.length_map] at i1
              show _ + 1 ≤ _
              omega
            · show (first.index :: _).Perm _
              have h2 := i2
              rw [hidx] at h2
              exact (List.Perm.cons _ h2).trans (hp.map snippet_t.index)
          · constructor
            · show 1 ≤ _
              omega
            · show (first.index :: _).Perm _
              rw [hidx]
              exact hp.map snippet_t.index

/-- C30: `sort_snippets` and `sort_snippet_by_index` are any functions that
return their input rearranged, the second so that no entry has a smaller
`index` than an earlier one. For every snippet array, `snippets_top` returns a
count `k` at most the array's length (0 for an empty array); on return the
first `k` entries are the snippets kept by `_snippets_top`, in ascending order
of `index`, the entries behind them are as `_snippets_top` left them, and the
`index` members of the array are a rearrangement of those of the input. -/
theorem snippets_top_count_and_order
    (sort_snippets sort_snippet_by_index : List snippet_t → List snippet_t)
    (hperm : ∀ l, (sort_snippets l).Perm l)
    (hperm2 : ∀ l, (sort_snippet_by_index l).Perm l)
    (hsorted : ∀ l, (sort_snippet_by_index l).Pairwise
      (fun a b => compare_snippet_index b a = false))
    (snippets : List snippet_t) :
    (snippets_top sort_snippets sort_snippet_by_index snippets).1 ≤ snippets.length ∧
    (snippets = [] → (snippets_top sort_snippets sort_snippet_by_index snippets).1 = 0) ∧
    ((snippets_top sort_snippets sort_snippet_by_index snippets).2.take
        (snippets_top sort_snippets sort_snippet_by_index snippets).1).Perm
      ((_snippets_top sort_snippets snippets.length snippets).2.take
        (_snippets_top sort_snippets snippets.length snippets).1) ∧
    ((snippets_top sort_snippets sort_snippet_by_index snippets).2.take
        (snippets_top sort_snippets sort_snippet_by_index snippets).1).Pairwise
      (fun a b => a.index ≤ b.index) ∧
    (snippets_top sort_snippets sort_snippet_by_index snippets).2.drop
        (snippets_top sort_snippets sort_snippet_by_index snippets).1 =
      (_snippets_top sort_snippets snippets.length snippets).2.drop
        (_snippets_top sort_snippets snippets.length snippets).1 ∧
    ((snippets_top sort_snippets sort_snippet_by_index snippets).2.map snippet_t.index).Perm
      (snippets.map snippet_t.index) := by
  obtain ⟨h1, h2⟩ := snippets_top_rec_spec sort_snippets hperm snippets.length snippets
  have hlen2 : (_snippets_top sort_snippets snippets.length snippets).2.length =
      snippets.length := by
    have := h2.length_eq
    simpa using this
  have hk : (sort_snippet_by_index ((_snippets_top sort_snippets snippets.length snippets).2.take
      (_snippets_top sort_snippets snippets.length snippets).1)).length =
      (_snippets_top sort_snippets snippets.length snippets).1 := by
    rw [(hperm2 _).length_eq, List.length_take, hlen2]
    omega
  have htake : ((snippets_top sort_snippets sort_snippet_by_index snippets).2.take
      (snippets_top sort_snippets sort_snippet_by_index snippets).1) =
      sort_snippet_by_index ((_snippets_top sort_snippets snippets.length snippets).2.take
        (_snippets_top sort_snippets snippets.length snippets).1) := by
    exact List.take_left' hk
  have hdrop : ((snippets_top sort_snippets sort_snippet_by_index snippets).2.drop
      (snippets_top sort_snippets sort_snippet_by_index snippets).1) =
      (_snippets_top sort_snippets snippets.length snippets).2.drop
        (_snippets_top sort_snippets snippets.length snippets).1 := by
    exact List.drop_left' hk
  refine ⟨h1, ?_, ?_, ?_, hdrop, ?_⟩
  · intro hnil
    subst hnil
    rfl
  · rw [htake]
    exact hperm2 _
  · rw [htake]
    refine (hsorted _).imp ?_
    intro a b h
    unfold compare_snippet_index at h
    simpa using h
  · show List.Perm (List.map _ (_ ++ _)) _
    refine List.Perm.trans ?_ h2
    apply List.Perm.map
    have := (hperm2 ((_snippets_top sort_snippets snippets.length snippets).2.take
      (_snippets_top sort_snippets snippets.length snippets).1)).append_right
      ((_snippets_top sort_snippets snippets.length snippets).2.drop
        (_snippets_top sort_snippets snippets.length snippets).1)
    rw [List.take_append_drop] at this
    exact this

/-- C30 with insertion sorts for the two `macro_sort` instances, on two
snippets: the count is at most 2. -/
theorem snippets_top_count_and_order_witness :
    (snippets_top (List.insertionSort (fun a b => compare_snippet b a = false))
      (List.insertionSort (fun a b => compare_snippet_index b a = false))
      [{ best_init with index := 0, mask := 1, score := 1 },
       { best_init with index := 1, mask := 3, score := 2 }]).1 ≤
      ([{ best_init with index := 0, mask := 1, score := 1 },
        { best_init with index := 1, mask := 3, score := 2 }] : List snippet_t).length := by
  haveI : IsTotal snippet_t (fun a b => compare_snippet_index b a = false) :=
    ⟨fun a b => by
      unfold compare_snippet_index
      simp only [decide_eq_false_iff_not, Nat.not_lt]
      exact Nat.le_total a.index b.index⟩
  haveI : IsTrans snippet_t (fun a b => compare_snippet_index b a = false) :=
    ⟨fun a b c => by
      unfold compare_snippet_index
      simp only [decide_eq_false_iff_not, Nat.not_lt]
      exact Nat.le_trans⟩
  exact (snippets_top_count_and_order
    (List.insertionSort (fun a b => compare_snippet b a = false))
    (List.insertionSort (fun a b => compare_snippet_index b a = false))
    (fun l => List.perm_insertionSort _ l) (fun l => List.perm_insertionSort _ l)
    (fun l => List.sorted_insertionSort _ l)
    [{ best_init with index := 0, mask := 1, score := 1 },
     { best_init with index := 1, mask := 3, score := 2 }]).1

theorem encode_high_bit_high_bits (v : Nat) (hv : v < 2 ^ 28) :
    (∀ i, i + 1 < (encode_high_bit v).length → (encode_high_bit v).getD i 0 &&& 0x80 ≠ 0) ∧
    (encode_high_bit v).getLastD 0 &&& 0x80 = 0 := by
  by_cases h1 : v < 2 ^ 7
  · rw [encode_high_bit_1 v h1]
    refine ⟨fun i hi => ?_, ?_⟩
    · simp at hi
    · exact and_80_low v h1
  · by_cases h2 : v < 2 ^ 14
    · rw [encode_high_bit_2 v (by omega) h2]
      refine ⟨fun i hi => ?_, ?_⟩
      · have hi0 : i = 0 := by
          simp only [List.length_cons, List.length_nil] at hi
          omega
        subst hi0
        exact and_80_high _ (Nat.mod_lt _ (by decide))
      · show (v / 128) &&& 0x80 = 0
        exact and_80_low _ (by omega)
    · by_cases h3 : v < 2 ^ 21
      · rw [encode_high_bit_3 v (by omega) h3]
        refine ⟨fun i hi => ?_, ?_⟩
        · simp only [List.length_cons, List.length_nil] at hi
          have hi0 : i = 0 ∨ i = 1 := by omega
          rcases hi0 with rfl | rfl
          · exact and_80_high _ (Nat.mod_lt _ (by decide))
          · exact and_80_high _ (Nat.mod_lt _ (by decide))
        · show (v / 16384) &&& 0x80 = 0
          exact and_80_low _ (by omega)
      · rw [encode_high_bit_4 v (by omega) hv]
        refine ⟨fun i hi => ?_, ?_⟩
        · simp only [List.length_cons, List.length_nil] at hi
          have hi0 : i = 0 ∨ i = 1 ∨ i = 2 := by omega
          rcases hi0 with rfl | rfl | rfl
          · exact and_80_high _ (Nat.mod_lt _ (by decide))
          · exact and_80_high _ (Nat.mod_lt _ (by decide))
          · exact and_80_high _ (Nat.mod_lt _ (by decide))
        · show (v / 2097152) &&& 0x80 = 0
          exact and_80_low _ (by omega)

/-- C37: for every `v < 2^28`, `__decode_high_bit32` on the bytes written by
`encode_high_bit(v)` returns `v` and the pointer just behind them; they number
1, 2, 3 or 4 according to whether `v` is below 2^7, 2^14, 2^21 or 2^28; every
byte but the last has its high bit set, and the last has it clear. -/
theorem varint_round_trip_below_2_28 (mem : List Nat) (p v : Nat) (hv : v < 2 ^ 28)
    (h : holds mem p (encode_high_bit v)) :
    __decode_high_bit32 mem p = (v, p + (encode_high_bit v).length) ∧
    (encode_high_bit v).length =
      (if v < 2 ^ 7 then 1 else if v < 2 ^ 14 then 2 else if v < 2 ^ 21 then 3 else 4) ∧
    (∀ i, i + 1 < (encode_high_bit v).length → (encode_high_bit v).getD i 0 &&& 0x80 ≠ 0) ∧
    (encode_high_bit v).getLastD 0 &&& 0x80 = 0 :=
  ⟨decode_encode_high_bit mem p v hv h, encode_high_bit_length v hv,
    encode_high_bit_high_bits v hv⟩

/-- C37 at `v = 300`, stored at offset 2 of a buffer. -/
theorem varint_round_trip_300 :
    (300 < 2 ^ 28 ∧ holds ([7, 7] ++ encode_high_bit 300 ++ [9]) 2 (encode_high_bit 300)) ∧
    (__decode_high_bit32 ([7, 7] ++ encode_high_bit 300 ++ [9]) 2 =
        (300, 2 + (encode_high_bit 300).length) ∧
      (encode_high_bit 300).length =
        (if 300 < 2 ^ 7 then 1 else if 300 < 2 ^ 14 then 2 else if 300 < 2 ^ 21 then 3 else 4) ∧
      (∀ i, i + 1 < (encode_high_bit 300).length →
        (encode_high_bit 300).getD i 0 &&& 0x80 ≠ 0) ∧
      (encode_high_bit 300).getLastD 0 &&& 0x80 = 0) :=
  ⟨⟨by decide, holds_mid [7, 7] (encode_high_bit 300) [9]⟩,
    varint_round_trip_below_2_28 _ 2 300 (by decide)
      (holds_mid [7, 7] (encode_high_bit 300) [9])⟩

theorem length_field_of_or (a : Nat) :
    ((a ||| SMALL_GROUP_EXTENDED_POS_LENGTH) &&& SMALL_GROUP_POS_LENGTH_MASK) >>> 2 = 3 := by
  have h1 : (a ||| SMALL_GROUP_EXTENDED_POS_LENGTH) &&& SMALL_GROUP_POS_LENGTH_MASK =
      ((a &&& 0xF) ||| 0xC) := by
    apply Nat.eq_of_testBit_eq
    intro i
    have e1 : SMALL_GROUP_EXTENDED_POS_LENGTH = 0xC := rfl
    have e2 : SMALL_GROUP_POS_LENGTH_MASK = 0xF := rfl
    have h3 : ∀ i, Nat.testBit 0xC i = true → Nat.testBit 0xF i = true := by
      intro i
      by_cases hi : i < 4
      · have : i = 0 ∨ i = 1 ∨ i = 2 ∨ i = 3 := by omega
        rcases this with rfl | rfl | rfl | rfl <;> decide
      · intro h
        have : Nat.testBit 0xC i = false :=
          Nat.testBit_lt_two_pow (lt_of_lt_of_le (by decide : 0xC < 2 ^ 4)
            (Nat.pow_le_pow_right (by decide) (by omega)))
        rw [this] at h
        cases h
    rw [e1, e2]
    simp only [Nat.testBit_and, Nat.testBit_or]
    have := h3 i
    cases ha : a.testBit i <;> cases hc : Nat.testBit 0xC i <;>
      cases hf : Nat.testBit 0xF i <;> simp_all
  rw [h1]
  have h2 : ∀ y, y < 16 → (y ||| 0xC) >>> 2 = 3 := by decide
  have h3 : a &&& 0xF < 16 := by
    rw [show (0xF : Nat) = 2 ^ 4 - 1 from rfl, Nat.and_pow_two_sub_one_eq_mod]
    exact Nat.mod_lt _ (by decide)
  exact h2 _ h3

theorem compress_single_id_extended (sid : Nat) (cur : term_data_t) (rest : List term_data_t)
    (hpos : ¬(rest.length + 1 = 1 ∧ cur.position = 0))
    (h4 : 4 ≤ (single_id_blob cur rest).length)
    (hlt : (single_id_blob cur rest).length ≤ 2 ^ 28) :
    ∃ w vd, (compress_single_id sid cur rest).1 =
        le16 w ++ vd ++ encode_high_bit ((single_id_blob cur rest).length - 1) ++
          single_id_blob cur rest ∧
      (w &&& SMALL_GROUP_POS_LENGTH_MASK) >>> 2 = 3 := by
  rw [compress_single_id_eq, if_neg hpos]
  simp only [positions_code]
  have hb : (encode_term_positions
      ((if decide (cur.position = 0 ∧ cur.value ≠ 0) = true then rest else cur :: rest).map
        term_data_t.position)).1 = single_id_blob cur rest := by
    unfold single_id_blob
    simp only [decide_eq_true_eq]
  rw [hb]
  have hsub : sub32 (single_id_blob cur rest).length 1 = (single_id_blob cur rest).length - 1 :=
    sub32_of_le _ _ (by omega) (by omega)
  rw [hsub, if_neg (by omega)]
  generalize (if decide (cur.position = 0 ∧ cur.value ≠ 0) = true then
    SMALL_GROUP_VALUE_PRESENT_MASK else 0) = h
  generalize (encode_term_positions
      ((if decide (cur.position = 0 ∧ cur.value ≠ 0) = true then rest else cur :: rest).map
        term_data_t.position)).2 = fb
  generalize (if decide (cur.position = 0 ∧ cur.value ≠ 0) = true then
    encode_position_value cur.value else []) = vd
  refine ⟨sid ||| (((h ||| SMALL_GROUP_POS_MASK) ||| (fb >>> 7)) |||
    SMALL_GROUP_EXTENDED_POS_LENGTH), vd, ?_, ?_⟩
  · simp only [List.append_assoc]
  · rw [← Nat.or_assoc]
    exact length_field_of_or _

theorem decode_term_positions_extended (mem : List Nat) (flags p len : Nat)
    (hlen : len < 2 ^ 28)
    (hflags : (flags &&& SMALL_GROUP_POS_LENGTH_MASK) >>> 2 = 3)
    (hmem : holds mem p (encode_high_bit len)) :
    decode_term_positions mem flags p =
      (p + (encode_high_bit len).length,
        ((flags &&& SMALL_GROUP_POS_LENGTH_MASK) &&& 0x3) <<< 7,
        p + (encode_high_bit len).length + len + 1) := by
  unfold decode_term_positions
  simp only [hflags, decode_encode_high_bit mem p len hlen hmem]
  rfl

/-- C31, amended: in a positional inner record whose 2-bit length field is 11
the real length of the positions blob is the varint that follows plus 1: for a
blob of `L >= 4` bytes (`L <= 2^28`) `compress_single_id` writes the control
word with length field 11, the value bytes, the varint `L - 1` and the blob,
and `decode_term_positions` on such a control word returns the pointer
`varint + 1` bytes behind the varint. -/
theorem extended_length_is_varint_plus_one (sid : Nat) (cur : term_data_t)
    (rest : List term_data_t) (mem : List Nat) (flags p : Nat)
    (hpos : ¬(rest.length + 1 = 1 ∧ cur.position = 0))
    (h4 : 4 ≤ (single_id_blob cur rest).length)
    (hlt : (single_id_blob cur rest).length ≤ 2 ^ 28)
    (hflags : (flags &&& SMALL_GROUP_POS_LENGTH_MASK) >>> 2 = 3)
    (hmem : holds mem p (encode_high_bit ((single_id_blob cur rest).length - 1))) :
    (∃ w vd, (compress_single_id sid cur rest).1 =
        le16 w ++ vd ++ encode_high_bit ((single_id_blob cur rest).length - 1) ++
          single_id_blob cur rest ∧
      (w &&& SMALL_GROUP_POS_LENGTH_MASK) >>> 2 = 3) ∧
    (__decode_high_bit32 mem p).1 = (single_id_blob cur rest).length - 1 ∧
    (decode_term_positions mem flags p).1 = (__decode_high_bit32 mem p).2 ∧
    (decode_term_positions mem flags p).2.2 =
      (__decode_high_bit32 mem p).2 + (__decode_high_bit32 mem p).1 + 1 := by
  have hd := decode_encode_high_bit mem p ((single_id_blob cur rest).length - 1)
    (by omega) hmem
  have ht := decode_term_positions_extended mem flags p ((single_id_blob cur rest).length - 1)
    (by omega) hflags hmem
  refine ⟨compress_single_id_extended sid cur rest hpos h4 hlt, ?_, ?_, ?_⟩
  · rw [hd]
  · rw [hd, ht]
  · rw [hd, ht]

/-- C31 on a document with the positions 1, 2, 3, 4 (a blob of 4 bytes): the
record is `2C 00 03 01 01 01 01`. -/
theorem extended_length_is_varint_plus_one_witness :
    (¬(([⟨0, 2, 0⟩, ⟨0, 3, 0⟩, ⟨0, 4, 0⟩] : List term_data_t).length + 1 = 1 ∧
        (⟨0, 1, 0⟩ : term_data_t).position = 0) ∧
      4 ≤ (single_id_blob ⟨0, 1, 0⟩ [⟨0, 2, 0⟩, ⟨0, 3, 0⟩, ⟨0, 4, 0⟩]).length ∧
      (single_id_blob ⟨0, 1, 0⟩ [⟨0, 2, 0⟩, ⟨0, 3, 0⟩, ⟨0, 4, 0⟩]).length ≤ 2 ^ 28 ∧
      (0x2C &&& SMALL_GROUP_POS_LENGTH_MASK) >>> 2 = 3) ∧
    ((__decode_high_bit32 [0x2C, 0, 3, 1, 1, 1, 1] 2).1 =
        (single_id_blob ⟨0, 1, 0⟩ [⟨0, 2, 0⟩, ⟨0, 3, 0⟩, ⟨0, 4, 0⟩]).length - 1 ∧
      (decode_term_positions [0x2C, 0, 3, 1, 1, 1, 1] 0x2C 2).2.2 =
        (__decode_high_bit32 [0x2C, 0, 3, 1, 1, 1, 1] 2).2 +
          (__decode_high_bit32 [0x2C, 0, 3, 1, 1, 1, 1] 2).1 + 1) :=
  have hm : holds [0x2C, 0, 3, 1, 1, 1, 1] 2 (encode_high_bit
      ((single_id_blob ⟨0, 1, 0⟩ [⟨0, 2, 0⟩, ⟨0, 3, 0⟩, ⟨0, 4, 0⟩]).length - 1)) :=
    (⟨rfl, trivial⟩ : holds [0x2C, 0, 3, 1, 1, 1, 1] 2 [3])
  ⟨⟨by decide, by decide, by decide, by decide⟩,
    ((extended_length_is_varint_plus_one 0 ⟨0, 1, 0⟩ [⟨0, 2, 0⟩, ⟨0, 3, 0⟩, ⟨0, 4, 0⟩]
      [0x2C, 0, 3, 1, 1, 1, 1] 0x2C 2 (by decide) (by decide) (by decide) (by decide)
      hm).2.1),
    ((extended_length_is_varint_plus_one 0 ⟨0, 1, 0⟩ [⟨0, 2, 0⟩, ⟨0, 3, 0⟩, ⟨0, 4, 0⟩]
      [0x2C, 0, 3, 1, 1, 1, 1] 0x2C 2 (by decide) (by decide) (by decide) (by decide)
      hm).2.2.2)⟩

/-- C31 fails: for the positions 1, 2, 3, 4 of one document the blob has
`L = 4` bytes and the record is `2C 00 03 01 01 01 01`: the varint written is
`3 = L - 1`, not `0 = L - 4`, and the decoder returns the pointer
`3 + 1 = 4` bytes behind the varint, not `3 + 4`. -/
theorem extended_length_is_not_varint_plus_four :
    compress_single_id 0 ⟨0, 1, 0⟩ [⟨0, 2, 0⟩, ⟨0, 3, 0⟩, ⟨0, 4, 0⟩] =
      ([0x2C, 0, 3, 1, 1, 1, 1], 4) ∧
    (single_id_blob ⟨0, 1, 0⟩ [⟨0, 2, 0⟩, ⟨0, 3, 0⟩, ⟨0, 4, 0⟩]).length = 4 ∧
    __decode_high_bit32 [0x2C, 0, 3, 1, 1, 1, 1] 2 = (3, 3) ∧
    decode_term_positions [0x2C, 0, 3, 1, 1, 1, 1] 0x2C 2 = (3, 0, 7) ∧
    (decode_term_positions [0x2C, 0, 3, 1, 1, 1, 1] 0x2C 2).2.2 ≠ 3 + (3 + 4) := by
  decide

theorem skip_position_value_eq (mem : List Nat) (p : Nat) :
    skip_position_value mem p = (decode_position_value mem p).2 := by
  unfold skip_position_value decode_position_value
  split
  · rfl
  · split
    · rfl
    · rfl

theorem skip_term_positions_eq (mem : List Nat) (flags p : Nat) :
    skip_term_positions mem flags p = (decode_term_positions mem flags p).2.2 := by
  unfold skip_term_positions decode_term_positions
  simp only
  split
  · rfl
  · rfl

theorem skip_single_value_eq (mem : List Nat) (flags p : Nat) :
    skip_single_value flags p = (decode_single_value mem flags p).2 := by
  unfold skip_single_value decode_single_value
  split
  · rfl
  · split
    · rfl
    · split
      · rfl
      · rfl

theorem sil_skip_id_eq_decode_body (mem : List Nat) (t : sil_term_ext_t) (p : Nat) :
    sil_skip_id mem p = (decode_body mem t (rd8 mem p) (p + 1)).p := by
  unfold sil_skip_id decode_body
  simp only
  by_cases h1 : rd8 mem p &&& SMALL_GROUP_POS_MASK ≠ 0
  · rw [if_pos h1, if_pos h1]
    by_cases h2 : rd8 mem p &&& SMALL_GROUP_VALUE_PRESENT_MASK ≠ 0
    · simp only [if_pos h2]
      rw [skip_term_positions_eq, skip_position_value_eq]
    · simp only [if_neg h2]
      rw [skip_term_positions_eq]
  · rw [if_neg h1, if_neg h1]
    exact skip_single_value_eq mem _ _

theorem sil_skip_id_eq_advance_document_id (mem : List Nat) (t : sil_term_ext_t) :
    sil_skip_id mem t.p = (advance_document_id mem t).p := by
  rw [advance_document_id_eq]
  exact sil_skip_id_eq_decode_body mem _ t.p

/-- The bytes of one entry of the term block are walked by `strlen` and
`sil_skip_id`. -/
theorem sil_skip_id_entry (mem term : List Nat) (cur : document_builder.term_data_t)
    (rest : List document_builder.term_data_t) (termp : Nat)
    (hne : ∀ b ∈ term, b ≠ 0) (hv32 : cur.value < 2 ^ 32)
    (hblob : (document_builder.term_blob cur rest).length ≤ 2 ^ 28)
    (h : holds mem termp (document_builder.compress_term term cur rest)) :
    strlen mem termp = term.length ∧
    sil_skip_id mem (termp + term.length + 1) =
      termp + (document_builder.compress_term term cur rest).length := by
  rw [compress_term_eq] at h ⊢
  by_cases h1 : rest.length + 1 = 1 ∧ cur.position = 0
  · rw [if_pos h1] at h ⊢
    rw [holds_append] at h
    obtain ⟨hname, hrest⟩ := h
    rw [holds_append] at hrest
    obtain ⟨hctl, htail⟩ := hrest
    have hstr := strlen_holds mem term termp hne hname
    have hctl' : rd8 mem (termp + term.length + 1) = (value_code cur.value).1 % 256 := by
      have := hctl.1
      simpa [List.length_append, Nat.add_assoc] using this
    have htail' : holds mem (termp + term.length + 1 + 1) (value_code cur.value).2 := by
      simpa [List.length_append, Nat.add_assoc] using htail
    have hF := value_code_lt cur.value
    have hFmod : (value_code cur.value).1 % 256 = (value_code cur.value).1 :=
      Nat.mod_eq_of_lt (by omega)
    have hdec := decode_value_code mem zalloc_term cur.value (termp + term.length + 1 + 1)
      hv32 htail'
    refine ⟨hstr, ?_⟩
    rw [sil_skip_id_eq_decode_body mem zalloc_term, hctl', hFmod, hdec]
    simp only [List.length_append, List.length_cons, List.length_nil]
    omega
  · rw [if_neg h1] at h ⊢
    simp only at h ⊢
    generalize hps : (if decide (cur.position = 0 ∧ cur.value ≠ 0) = true then rest
      else cur :: rest).map document_builder.term_data_t.position = ps at h ⊢
    have hblob' : (encode_term_positions ps).1.length ≤ 2 ^ 28 := by
      rw [← hps]
      unfold document_builder.term_blob at hblob
      simpa only [decide_eq_true_eq] using hblob
    have hne' : ps ≠ [] := by
      rw [← hps]
      by_cases hv : cur.position = 0 ∧ cur.value ≠ 0
      · simp only [hv, and_self, ne_eq, not_false_eq_true, decide_True, if_true]
        intro hnil
        apply h1
        have : rest = [] := List.map_eq_nil_iff.1 hnil
        rw [this]
        exact ⟨rfl, hv.1⟩
      · simp only [hv, decide_False, Bool.false_eq_true, if_false, List.map_cons, ne_eq,
          not_false_eq_true, reduceCtorEq]
    generalize decide (cur.position = 0 ∧ cur.value ≠ 0) = hv at h ⊢
    rw [holds_append] at h
    obtain ⟨hname, hrest⟩ := h
    rw [holds_append] at hrest
    obtain ⟨hctl, htail⟩ := hrest
    have hstr := strlen_holds mem term termp hne hname
    have hctl' : rd8 mem (termp + term.length + 1) =
        (positions_code hv cur.value ps).1 % 256 := by
      have := hctl.1
      simpa [List.length_append, Nat.add_assoc] using this
    have htail' : holds mem (termp + term.length + 1 + 1) (positions_code hv cur.value ps).2 := by
      simpa [List.length_append, Nat.add_assoc] using htail
    obtain ⟨hF, hdec⟩ := decode_positions_code mem zalloc_term hv cur.value ps
      (termp + term.length + 1 + 1) hv32 hne' hblob' htail'
    have hFmod : (positions_code hv cur.value ps).1 % 256 = (positions_code hv cur.value ps).1 :=
      Nat.mod_eq_of_lt (by omega)
    refine ⟨hstr, ?_⟩
    rw [sil_skip_id_eq_decode_body mem zalloc_term, hctl', hFmod, hdec]
    simp only [List.length_append, List.length_cons, List.length_nil]
    omega

theorem holds_refl (a : List Nat) : holds a 0 a := by
  have := holds_self a []
  rwa [List.append_nil] at this

theorem term_block_loop_eq_entries : ∀ (fuel : Nat) (l : List document_builder.record),
    document_builder.term_block_loop fuel l =
      ((document_builder.term_entries fuel l).map document_builder.entry_bytes).flatten := by
  intro fuel
  induction fuel with
  | zero =>
    intro l
    simp [document_builder.term_block_loop, document_builder.term_entries]
  | succ fuel ih =>
    intro l
    cases l with
    | nil => simp [document_builder.term_block_loop, document_builder.term_entries]
    | cons cur rest =>
      simp only [document_builder.term_block_loop, document_builder.term_entries, List.map_cons,
        List.flatten_cons, ih]
      rfl

theorem term_entries_mem : ∀ (fuel : Nat) (l : List document_builder.record),
    ∀ e ∈ document_builder.term_entries fuel l,
      (∃ r ∈ l, r.term = e.1 ∧ r.data = e.2.1) ∧ ∀ d ∈ e.2.2, ∃ r ∈ l, r.data = d := by
  intro fuel
  induction fuel with
  | zero =>
    intro l e he
    simp [document_builder.term_entries] at he
  | succ fuel ih =>
    intro l e he
    cases l with
    | nil => simp [document_builder.term_entries] at he
    | cons cur rest =>
      simp only [document_builder.term_entries, List.mem_cons] at he
      rcases he with rfl | he
      · refine ⟨⟨cur, List.mem_cons_self _ _, rfl, rfl⟩, ?_⟩
        intro d hd
        obtain ⟨r, hr, hrd⟩ := List.mem_map.1 hd
        exact ⟨r, List.mem_cons_of_mem _ ((List.takeWhile_sublist _).subset hr), hrd⟩
      · obtain ⟨⟨r, hr, h1⟩, h2⟩ := ih _ e he
        refine ⟨⟨r, List.mem_cons_of_mem _ ((List.dropWhile_sublist _).subset hr), h1⟩, ?_⟩
        intro d hd
        obtain ⟨r, hr, hrd⟩ := h2 d hd
        exact ⟨r, List.mem_cons_of_mem _ ((List.dropWhile_sublist _).subset hr), hrd⟩

theorem entry_bytes_length_pos (e : List Nat × document_builder.term_data_t ×
    List document_builder.term_data_t) : 2 ≤ (document_builder.entry_bytes e).length := by
  unfold document_builder.entry_bytes
  rw [compress_term_eq]
  split
  · simp only [List.length_append, List.length_cons, List.length_nil]
    omega
  · simp only [List.length_append, List.length_cons, List.length_nil]
    omega

/-- The walk of `sil_document_image_terms` over a buffer that holds the
entries `es` one after the other from `base` on. -/
theorem image_terms_loop_entries (mem : List Nat) :
    ∀ (es : List (List Nat × document_builder.term_data_t ×
      List document_builder.term_data_t)) (base fuel : Nat),
      (∀ e ∈ es, (∀ b ∈ e.1, b ≠ 0) ∧ e.2.1.value < 2 ^ 32 ∧
        (document_builder.term_blob e.2.1 e.2.2).length ≤ 2 ^ 28) →
      holds mem base (es.map document_builder.entry_bytes).flatten →
      es.length ≤ fuel →
      image_terms_loop fuel mem base
        (base + (es.map document_builder.entry_bytes).flatten.length) =
        document_builder.entry_starts base es := by
  intro es
  induction es with
  | nil =>
    intro base fuel _ _ _
    cases fuel with
    | zero => rfl
    | succ fuel =>
      simp [image_terms_loop, document_builder.entry_starts]
  | cons e es ih =>
    intro base fuel hc hm hf
    cases fuel with
    | zero => simp at hf
    | succ fuel =>
      simp only [List.map_cons, List.flatten_cons, List.length_append] at hm ⊢
      rw [holds_append] at hm
      have hce := hc e (List.mem_cons_self _ _)
      have hwalk := sil_skip_id_entry mem e.1 e.2.1 e.2.2 base hce.1 hce.2.1 hce.2.2 hm.1
      have hpos := entry_bytes_length_pos e
      have hlt : base < base + ((document_builder.entry_bytes e).length +
          (es.map document_builder.entry_bytes).flatten.length) := by omega
      rw [image_terms_loop]
      simp only [hlt, if_true, hwalk.1, hwalk.2, document_builder.entry_starts]
      have := ih (base + (document_builder.entry_bytes e).length) fuel
        (fun e' he' => hc e' (List.mem_cons_of_mem _ he')) hm.2 (by simpa using hf)
      rw [← Nat.add_assoc]
      unfold document_builder.entry_bytes at this ⊢
      rw [this]

theorem entries_length_le : ∀ (es : List (List Nat × document_builder.term_data_t ×
    List document_builder.term_data_t)),
    es.length ≤ (es.map document_builder.entry_bytes).flatten.length := by
  intro es
  induction es with
  | nil => simp
  | cons e es ih =>
    have := entry_bytes_length_pos e
    simp only [List.map_cons, List.flatten_cons, List.length_append, List.length_cons]
    omega

/-- C40: `sil_skip_id` returns the pointer `advance_document_id` leaves in
`t->p`, on every buffer; on a buffer that holds the term block of the
single-document builder (term names without zero byte, values below 2^32,
positions blobs shorter than 2^28 bytes) the block is the entries
`compress_term` wrote, one after the other, and at the start of each entry
`strlen` gives the length of the name and `sil_skip_id` behind the name's zero
byte returns the end of the entry, which is the start of the next entry or the
end of the block; the walk of `sil_document_image_terms` yields the starts of
the entries. -/
theorem sil_skip_id_walks_term_block (h : document_builder.sil_document_builder_t)
    (mem : List Nat) (terms : Nat)
    (hrec : ∀ r ∈ h.term_bh, (∀ b ∈ r.term, b ≠ 0) ∧ r.data.value < 2 ^ 32)
    (hblob : ∀ e ∈ document_builder.term_entries h.term_bh.length
        (document_builder.sort_term_data h.term_bh),
      (document_builder.term_blob e.2.1 e.2.2).length < 2 ^ 28)
    (hmem : holds mem terms (document_builder.term_block h)) :
    (∀ t : sil_term_ext_t, sil_skip_id mem t.p = (advance_document_id mem t).p) ∧
    document_builder.term_block h =
      ((document_builder.term_entries h.term_bh.length
        (document_builder.sort_term_data h.term_bh)).map
          document_builder.entry_bytes).flatten ∧
    (∀ pre e post, document_builder.term_entries h.term_bh.length
        (document_builder.sort_term_data h.term_bh) = pre ++ e :: post →
      strlen mem (terms + (pre.map document_builder.entry_bytes).flatten.length) = e.1.length ∧
      sil_skip_id mem
          (terms + (pre.map document_builder.entry_bytes).flatten.length + e.1.length + 1) =
        terms + ((pre ++ [e]).map document_builder.entry_bytes).flatten.length) ∧
    image_terms_loop (document_builder.term_block h).length mem terms
        (terms + (document_builder.term_block h).length) =
      document_builder.entry_starts terms
        (document_builder.term_entries h.term_bh.length
          (document_builder.sort_term_data h.term_bh)) := by
  have hblock : document_builder.term_block h =
      ((document_builder.term_entries h.term_bh.length
        (document_builder.sort_term_data h.term_bh)).map
          document_builder.entry_bytes).flatten := term_block_loop_eq_entries _ _
  have hsorted : ∀ r ∈ document_builder.sort_term_data h.term_bh, r ∈ h.term_bh := by
    intro r hr
    exact (List.perm_insertionSort _ _).subset hr
  have hcond : ∀ e ∈ document_builder.term_entries h.term_bh.length
      (document_builder.sort_term_data h.term_bh),
      (∀ b ∈ e.1, b ≠ 0) ∧ e.2.1.value < 2 ^ 32 ∧
        (document_builder.term_blob e.2.1 e.2.2).length ≤ 2 ^ 28 := by
    intro e he
    obtain ⟨⟨r, hr, hr1, hr2⟩, _⟩ := term_entries_mem _ _ e he
    have := hrec r (hsorted r hr)
    rw [hr1, hr2] at this
    exact ⟨this.1, this.2, Nat.le_of_lt (hblob e he)⟩
  rw [hblock] at hmem
  refine ⟨fun t => sil_skip_id_eq_advance_document_id mem t, hblock, ?_, ?_⟩
  · intro pre e post heq
    rw [heq] at hmem hcond
    simp only [List.map_append, List.map_cons, List.flatten_append, List.flatten_cons] at hmem
    rw [holds_append, holds_append] at hmem
    have hce := hcond e (by simp)
    have hw := sil_skip_id_entry mem e.1 e.2.1 e.2.2 _ hce.1 hce.2.1 hce.2.2 hmem.2.1
    refine ⟨hw.1, ?_⟩
    rw [hw.2]
    simp only [List.map_append, List.map_cons, List.map_nil, List.flatten_append,
      List.flatten_cons, List.flatten_nil, List.append_nil, List.length_append]
    unfold document_builder.entry_bytes
    omega
  · rw [hblock]
    exact image_terms_loop_entries mem _ terms _ hcond hmem (entries_length_le _)

/-- C40 on the term block of scenario S1: the walk of
`sil_document_image_terms` yields the starts of its three entries. -/
theorem sil_skip_id_walks_term_block_s1 :
    ((∀ r ∈ s1_builder.term_bh, (∀ b ∈ r.term, b ≠ 0) ∧ r.data.value < 2 ^ 32) ∧
      (∀ e ∈ document_builder.term_entries s1_builder.term_bh.length
          (document_builder.sort_term_data s1_builder.term_bh),
        (document_builder.term_blob e.2.1 e.2.2).length < 2 ^ 28)) ∧
    image_terms_loop (document_builder.term_block s1_builder).length
        (document_builder.term_block s1_builder) 0
        (0 + (document_builder.term_block s1_builder).length) =
      document_builder.entry_starts 0
        (document_builder.term_entries s1_builder.term_bh.length
          (document_builder.sort_term_data s1_builder.term_bh)) :=
  ⟨⟨by decide, by decide⟩,
    (sil_skip_id_walks_term_block s1_builder (document_builder.term_block s1_builder) 0
      (by decide) (by decide) (holds_refl _)).2.2.2⟩

set_option maxRecDepth 1000000 in
/-- C32 fails on the single-document builder: after `term_position(5, "a")` is
called twice the emitted buffer has 64 bytes, its term block is
`61 00 24 05 00`, and the positions decoded for `a` through an image
initialised at the document header are 5, 5, which do not strictly increase. -/
theorem duplicate_position_is_decoded_twice :
    dup_document.length = 64 ∧
    document_builder.term_block dup_builder = [97, 0, 0x24, 5, 0] ∧
    (sil_document_image_term dup_document (sil_document_image_init dup_document 4 60)
        [97, 0]).map (fun t => (sil_term_decode_positions dup_document t).term_positions) =
      some [5, 5] ∧
    ¬ ([5, 5] : List Nat).Pairwise (fun a b => a < b) := by
  decide

theorem control_word (id10 c : Nat) (hid : id10 < 1024) (hc : c < 64) :
    ((id10 <<< SMALL_GROUP_SHIFT) % 2 ^ 16 ||| c) < 65536 ∧
    ((id10 <<< SMALL_GROUP_SHIFT) % 2 ^ 16 ||| c) >>> SMALL_GROUP_SHIFT = id10 ∧
    ((id10 <<< SMALL_GROUP_SHIFT) % 2 ^ 16 ||| c) &&& SMALL_GROUP_FLAGS = c := by
  have e1 : (id10 <<< SMALL_GROUP_SHIFT) % 2 ^ 16 = id10 * 2 ^ 6 := by
    unfold SMALL_GROUP_SHIFT
    rw [Nat.shiftLeft_eq, Nat.mod_eq_of_lt (by omega)]
  have e2 : id10 * 2 ^ 6 ||| c = id10 * 2 ^ 6 + c := or_eq_add_of_lt id10 c 6 hc
  rw [e1, e2]
  refine ⟨by omega, ?_, ?_⟩
  · unfold SMALL_GROUP_SHIFT
    rw [Nat.shiftRight_eq_div_pow]
    omega
  · have : SMALL_GROUP_FLAGS = 2 ^ 6 - 1 := rfl
    rw [this, Nat.and_pow_two_sub_one_eq_mod]
    omega

/-- The cursor after `advance_id` on an inner record in the positional form,
and the positions `sil_term_decode_positions` then yields. -/
theorem index_record_positions (mem : List Nat) (t : sil_term_ext_t) (id10 : Nat) (hv : Bool)
    (v : Nat) (ps : List Nat) (hid : id10 < 1024) (hv32 : v < 2 ^ 32) (hps : ps ≠ [])
    (hlen : (encode_term_positions ps).1.length ≤ 2 ^ 28)
    (hok : deltas_ok (encode_term_positions ps).2 ps)
    (h : holds mem t.p (le16 ((id10 <<< SMALL_GROUP_SHIFT) % 2 ^ 16 |||
      (positions_code hv v ps).1) ++ (positions_code hv v ps).2)) :
    (sil_term_decode_positions mem (advance_id mem t)).term_positions = ps ∧
    advance_id mem t =
      { t with id := (id10 + t.gid) % 2 ^ 32,
               value := if hv then v else t.value,
               wp := t.p + 2 + (positions_code hv v ps).2.length -
                 (encode_term_positions ps).1.length,
               first_base := (encode_term_positions ps).2,
               p := t.p + 2 + (positions_code hv v ps).2.length } := by
  rw [holds_append] at h
  obtain ⟨hctl, htail⟩ := h
  have htail' : holds mem (t.p + 2) (positions_code hv v ps).2 := by
    simpa [le16] using htail
  obtain ⟨hF, hdec⟩ := decode_positions_code mem
    { t with id := (id10 + t.gid) % 2 ^ 32 } hv v ps (t.p + 2) hv32 hps hlen htail'
  obtain ⟨c1, c2, c3⟩ := control_word id10 (positions_code hv v ps).1 hid hF
  have h16 : rd16 mem t.p = (id10 <<< SMALL_GROUP_SHIFT) % 2 ^ 16 ||| (positions_code hv v ps).1 :=
    rd16_holds mem t.p _ c1 hctl
  have hadv : advance_id mem t =
      { t with id := (id10 + t.gid) % 2 ^ 32,
               value := if hv then v else t.value,
               wp := t.p + 2 + (positions_code hv v ps).2.length -
                 (encode_term_positions ps).1.length,
               first_base := (encode_term_positions ps).2,
               p := t.p + 2 + (positions_code hv v ps).2.length } := by
    rw [advance_id_eq, h16, c2, c3, hdec]
  refine ⟨?_, hadv⟩
  rw [hadv]
  obtain ⟨pre, hpre⟩ := positions_code_tail hv v ps
  have hlenpre : (positions_code hv v ps).2.length =
      pre.length + (encode_term_positions ps).1.length := by
    rw [hpre, List.length_append]
  rw [hpre, holds_append] at htail'
  unfold sil_term_decode_positions
  simp only
  have hwp : t.p + 2 + (positions_code hv v ps).2.length
      - (encode_term_positions ps).1.length = t.p + 2 + pre.length := by
    omega
  have hp : t.p + 2 + (positions_code hv v ps).2.length
      = t.p + 2 + pre.length + (encode_term_positions ps).1.length := by
    omega
  rw [hwp, hp]
  have hloop : (encode_term_positions ps).1 =
      encode_term_positions_loop (encode_term_positions ps).2 ps := rfl
  rw [Nat.add_sub_cancel_left, hloop]
  exact decode_positions_roundtrip mem ps _ _ _ hok (hloop ▸ htail'.2) (le_refl _)

/-- An inner record of the index builder for a document whose records were all
added by `term_position`: `advance_id` followed by
`sil_term_decode_positions` yields the positions of the records. -/
theorem positional_record_round_trip (mem : List Nat) (t : sil_term_ext_t)
    (cur : term_data_t) (run : List term_data_t)
    (hs : ((cur :: run).map term_data_t.position).Pairwise (fun a b => a < b))
    (hb : ∀ r ∈ cur :: run, r.value = 0 ∧ 1 ≤ r.position ∧ r.position < 2 ^ 28)
    (h : holds mem t.p (compress_single_id
      (((cur.id &&& SMALL_GROUP_MASK) <<< SMALL_GROUP_SHIFT) % 2 ^ 16) cur run).1) :
    (sil_term_decode_positions mem (advance_id mem t)).term_positions =
      (cur :: run).map term_data_t.position ∧
    advance_id mem t =
      { t with id := ((cur.id &&& SMALL_GROUP_MASK) + t.gid) % 2 ^ 32,
               wp := t.p + (compress_single_id
                 (((cur.id &&& SMALL_GROUP_MASK) <<< SMALL_GROUP_SHIFT) % 2 ^ 16) cur run).1.length
                 - (encode_term_positions ((cur :: run).map term_data_t.position)).1.length,
               first_base := cur.position &&& FIRST_POSITION_BASE,
               p := t.p + (compress_single_id
                 (((cur.id &&& SMALL_GROUP_MASK) <<< SMALL_GROUP_SHIFT) % 2 ^ 16) cur run).1.length } := by
  have hcur := hb cur (List.mem_cons_self _ _)
  have h1 : ¬ (run.length + 1 = 1 ∧ cur.position = 0) := by
    intro hc
    omega
  have hhv : decide (cur.position = 0 ∧ cur.value ≠ 0) = false := by
    simp only [decide_eq_false_iff_not, not_and]
    intro hc
    omega
  rw [compress_single_id_eq, if_neg h1] at h ⊢
  simp only [hhv, Bool.false_eq_true, if_false] at h ⊢
  have hid : cur.id &&& SMALL_GROUP_MASK < 1024 := by
    rw [and_small_mask]
    exact Nat.mod_lt _ (by decide)
  have hbp : ∀ y ∈ cur.position :: run.map term_data_t.position, 1 ≤ y ∧ y < 2 ^ 28 := by
    intro y hy
    rw [← List.map_cons] at hy
    obtain ⟨r, hr, rfl⟩ := List.mem_map.1 hy
    exact (hb r hr).2
  rw [List.map_cons] at hs h ⊢
  obtain ⟨f1, f2⟩ := ascending_positions_facts cur.position (run.map term_data_t.position) hs hbp
  obtain ⟨r1, r2⟩ := index_record_positions mem t (cur.id &&& SMALL_GROUP_MASK) false cur.value
    (cur.position :: run.map term_data_t.position) hid (by rw [hcur.1]; decide)
    (List.cons_ne_nil _ _) f1 f2 h
  refine ⟨r1, ?_⟩
  rw [r2]
  simp only [Bool.false_eq_true, if_false, List.length_append, le16, List.length_cons,
    List.length_nil]
  have e : (encode_term_positions (cur.position :: run.map term_data_t.position)).2 =
      cur.position &&& FIRST_POSITION_BASE := rfl
  rw [e]
  congr 1 <;> omega

theorem doc_records_positions (records : List term_data_t)
    (hsorted : records.Pairwise sort_lt) (d : Nat) :
    ((doc_records records d).map term_data_t.position).Pairwise (fun a b => a < b) := by
  rw [List.pairwise_map]
  unfold doc_records
  have hsub : (records.filter (fun r => decide (r.id = d))).Pairwise sort_lt :=
    hsorted.sublist (List.filter_sublist _)
  refine hsub.imp_of_mem ?_
  intro a b ha hb hab
  have ha' : a.id = d := by simpa using (List.mem_filter.1 ha).2
  have hb' : b.id = d := by simpa using (List.mem_filter.1 hb).2
  unfold sort_lt at hab
  omega

/-! ## Sizes of the groups of a term -/

theorem encode_high_bit_loop_length_le : ∀ (fuel v : Nat),
    (encode_high_bit_loop fuel v).length ≤ fuel := by
  intro fuel
  induction fuel with
  | zero => intro v; simp [encode_high_bit_loop]
  | succ fuel ih =>
    intro v
    rw [encode_high_bit_loop]
    split
    · have := ih (v >>> 7)
      simp only [List.length_cons]
      omega
    · simp only [List.length_cons, List.length_nil]
      omega

theorem encode_high_bit_length_le_five (v : Nat) : (encode_high_bit v).length ≤ 5 :=
  encode_high_bit_loop_length_le 5 _

theorem encode_term_positions_loop_length_le : ∀ (ps : List Nat) (last : Nat),
    (encode_term_positions_loop last ps).length ≤ 5 * ps.length := by
  intro ps
  induction ps with
  | nil => intro last; simp [encode_term_positions_loop]
  | cons x ps ih =>
    intro last
    rw [encode_term_positions_loop]
    simp only [List.length_append, List.length_cons]
    have h1 := encode_high_bit_length_le_five (sub32 x last)
    have h2 := ih x
    omega

theorem encode_position_value_length_le (v : Nat) : (encode_position_value v).length ≤ 5 := by
  unfold encode_position_value
  split_ifs <;> simp [le16, le32]

theorem value_code_length_le (v : Nat) : (value_code v).2.length ≤ 4 := by
  unfold value_code
  split_ifs <;> simp [le16, le32]

theorem positions_code_length_le (hv : Bool) (v : Nat) (ps : List Nat) :
    (positions_code hv v ps).2.length ≤ 10 + 5 * ps.length := by
  have hvd : (if hv = true then encode_position_value v else []).length ≤ 5 := by
    split
    · exact encode_position_value_length_le _
    · simp
  have henc : (encode_term_positions ps).1.length ≤ 5 * ps.length :=
    encode_term_positions_loop_length_le ps _
  have hl := encode_high_bit_length_le_five (sub32 (encode_term_positions ps).1.length 1)
  unfold positions_code
  simp only
  split
  · simp only [List.length_append]
    omega
  · simp only [List.length_append]
    omega

theorem compress_single_id_length_le (sid : Nat) (cur : term_data_t) (rest : List term_data_t) :
    (compress_single_id sid cur rest).1.length ≤ 17 * (rest.length + 1) := by
  rw [compress_single_id_eq]
  split
  · have := value_code_length_le cur.value
    simp only [List.length_append, le16, List.length_cons, List.length_nil]
    omega
  · simp only [List.length_append, le16, List.length_cons, List.length_nil]
    have h1 := positions_code_length_le (decide (cur.position = 0 ∧ cur.value ≠ 0)) cur.value
      ((if decide (cur.position = 0 ∧ cur.value ≠ 0) = true
        then rest else cur :: rest).map term_data_t.position)
    have hp2 : (if decide (cur.position = 0 ∧ cur.value ≠ 0) = true
        then rest else cur :: rest).length ≤ rest.length + 1 := by
      split <;> simp
    rw [List.length_map] at h1
    omega

theorem takeWhile_dropWhile_length {α : Type} (p : α → Bool) (l : List α) :
    (l.takeWhile p).length + (l.dropWhile p).length = l.length := by
  rw [← List.length_append, List.takeWhile_append_dropWhile]

theorem small_group_length_le : ∀ (fuel : Nat) (l : List term_data_t),
    (compress_small_group_loop fuel l).1.length ≤ 17 * l.length := by
  intro fuel
  induction fuel with
  | zero => intro l; simp [compress_small_group_loop]
  | succ fuel ih =>
    intro l
    cases l with
    | nil => simp [compress_small_group_loop]
    | cons cur rest =>
      simp only [compress_small_group_loop, List.length_append, List.length_cons]
      have h1 := compress_single_id_length_le
        (((cur.id &&& SMALL_GROUP_MASK) <<< SMALL_GROUP_SHIFT) % 2 ^ 16) cur
        (rest.takeWhile (fun r => decide (cur.id &&& SMALL_GROUP_MASK = r.id &&& SMALL_GROUP_MASK)))
      have h2 := ih
        (rest.dropWhile (fun r => decide (cur.id &&& SMALL_GROUP_MASK = r.id &&& SMALL_GROUP_MASK)))
      have h3 := takeWhile_dropWhile_length
        (fun (r : term_data_t) => decide (cur.id &&& SMALL_GROUP_MASK = r.id &&& SMALL_GROUP_MASK))
        rest
      omega

theorem encode_group_to_buffer_length_le (gid : Nat) (group : List Nat) :
    (encode_group_to_buffer gid group).length ≤ 6 + group.length := by
  unfold encode_group_to_buffer
  simp only [List.length_cons, List.length_append, List.length_take]
  have : min (group.length % 2 ^ 32) group.length ≤ group.length := Nat.min_le_right _ _
  split_ifs <;> simp [le16, le32] <;> omega

theorem mid_groups_length_le : ∀ (fuel : Nat) (l : List term_data_t),
    (compress_mid_groups_loop fuel l).1.length ≤ 23 * l.length := by
  intro fuel
  induction fuel with
  | zero => intro l; simp [compress_mid_groups_loop]
  | succ fuel ih =>
    intro l
    cases l with
    | nil => simp [compress_mid_groups_loop]
    | cons cur rest =>
      simp only [compress_mid_groups_loop, List.length_append, List.length_cons]
      have h0 := encode_group_to_buffer_length_le ((cur.id &&& 0x3FC00) >>> 10)
        (compress_small_group_data_into_group (cur :: rest.takeWhile
          (fun r => decide (cur.id &&& 0x3FFFC00 = r.id &&& 0x3FFFC00)))).1
      have h1 : (compress_small_group_data_into_group (cur :: rest.takeWhile
          (fun r => decide (cur.id &&& 0x3FFFC00 = r.id &&& 0x3FFFC00)))).1.length ≤
          17 * (cur :: rest.takeWhile
            (fun r => decide (cur.id &&& 0x3FFFC00 = r.id &&& 0x3FFFC00))).length :=
        small_group_length_le _ _
      have h2 := ih
        (rest.dropWhile (fun r => decide (cur.id &&& 0x3FFFC00 = r.id &&& 0x3FFFC00)))
      have h3 := takeWhile_dropWhile_length
        (fun (r : term_data_t) => decide (cur.id &&& 0x3FFFC00 = r.id &&& 0x3FFFC00)) rest
      simp only [List.length_cons] at h1
      omega

theorem infix_encode_group_to_buffer (gid : Nat) (group : List Nat)
    (h : group.length < 2 ^ 32) : group <:+: encode_group_to_buffer gid group := by
  unfold encode_group_to_buffer
  simp only
  rw [Nat.mod_eq_of_lt h, List.take_length]
  exact (List.suffix_append _ _).isInfix.trans (List.suffix_cons _ _).isInfix

/-! ## The inner records of a term's posting blob -/

/-- The generic step shared by the three grouping loops of `compress_groups`
for the bytes they write: the bytes `wrap` makes of the run of equal keys a
record lies in are part of the loop's output, and the run holds every record
of the record's document. -/
theorem level_infix (k : Nat → Nat) (Q : term_data_t → Prop)
    (wrap : List term_data_t → List Nat) (loopb : Nat → List term_data_t → List Nat)
    (hstep : ∀ fuel cur rest, loopb (fuel + 1) (cur :: rest) =
      wrap (cur :: rest.takeWhile (fun r => decide (k cur.id = k r.id))) ++
        loopb fuel (rest.dropWhile (fun r => decide (k cur.id = k r.id))))
    (hmono : ∀ a b, Q a → Q b → a.id ≤ b.id → k a.id ≤ k b.id) :
    ∀ fuel l, l.length ≤ fuel → l.Pairwise sort_lt → (∀ r ∈ l, Q r) → ∀ r ∈ l,
      ∃ cur run, (cur :: run).Sublist l ∧ (∀ x ∈ run, k x.id = k cur.id) ∧ r ∈ cur :: run ∧
        doc_records (cur :: run) r.id = doc_records l r.id ∧
        wrap (cur :: run) <:+: loopb fuel l := by
  intro fuel
  induction fuel with
  | zero =>
    intro l hl _ _ r hr
    have : l = [] := List.length_eq_zero.1 (Nat.le_zero.1 hl)
    rw [this] at hr
    exact absurd hr (List.not_mem_nil r)
  | succ fuel ih =>
    intro l hl hs hQ r hr
    cases l with
    | nil => exact absurd hr (List.not_mem_nil r)
    | cons cur rest =>
      rw [hstep]
      generalize hsame : (fun (r : term_data_t) => decide (k cur.id = k r.id)) = same
      have hsplit : rest = rest.takeWhile same ++ rest.dropWhile same :=
        (List.takeWhile_append_dropWhile same rest).symm
      have hs' := hs
      rw [List.pairwise_cons] at hs'
      have hrun : ∀ r ∈ rest.takeWhile same, k r.id = k cur.id := by
        rw [← hsame]
        exact mem_takeWhile_key k (k cur.id) rest
      have hQrest : ∀ r ∈ rest, Q r := fun r hr => hQ r (List.mem_cons_of_mem _ hr)
      have hQcur : Q cur := hQ cur (List.mem_cons_self _ _)
      have hkeys : rest.Pairwise (fun a b => k a.id ≤ k b.id) := by
        refine List.Pairwise.imp_of_mem ?_ hs'.2
        intro a b ha hb hab
        exact hmono a b (hQrest a ha) (hQrest b hb) (sort_lt_id_le a b hab)
      have hdrop : ∀ r ∈ rest.dropWhile same, k cur.id < k r.id := by
        rw [← hsame]
        exact mem_dropWhile_key k (k cur.id) rest hkeys
          (fun r hr => hmono cur r hQcur (hQrest r hr) (sort_lt_id_le cur r (hs'.1 r hr)))
      have htw_sub : List.Sublist (rest.takeWhile same) rest := List.takeWhile_sublist _
      have hdw_sub : List.Sublist (rest.dropWhile same) rest := List.dropWhile_sublist _
      have hkrun : ∀ a ∈ cur :: rest.takeWhile same, k a.id = k cur.id := by
        intro a ha
        rcases List.mem_cons.1 ha with h | h
        · rw [h]
        · exact hrun a h
      have hl2 : cur :: rest = (cur :: rest.takeWhile same) ++ rest.dropWhile same := by
        rw [List.cons_append, ← hsplit]
      have hmem : r ∈ cur :: rest.takeWhile same ∨ r ∈ rest.dropWhile same := by
        rw [hl2] at hr
        exact List.mem_append.1 hr
      rcases hmem with hin | hin
      · refine ⟨cur, rest.takeWhile same, List.Sublist.cons₂ _ htw_sub, hrun, hin, ?_,
          (List.prefix_append _ _).isInfix⟩
        rw [hl2, doc_records_append_left]
        intro b hb hbr
        have h1 := hdrop b hb
        rw [hbr, hkrun r hin] at h1
        exact lt_irrefl _ h1
      · have hlen : (rest.dropWhile same).length ≤ fuel := by
          have := hdw_sub.length_le
          simp only [List.length_cons] at hl
          omega
        obtain ⟨c2, run2, i1, i2, i3, i4, i5⟩ := ih _ hlen (hs'.2.sublist hdw_sub)
          (fun x hx => hQrest x (hdw_sub.subset hx)) r hin
        refine ⟨c2, run2, (i1.trans hdw_sub).trans (List.sublist_cons_self _ _), i2, i3, ?_,
          i5.trans (List.suffix_append _ _).isInfix⟩
        rw [i4, hl2, doc_records_append_right]
        intro a ha har
        have h1 := hdrop r hin
        rw [← har, hkrun a ha] at h1
        exact lt_irrefl _ h1

/-- Small groups: the inner record of a document of the group is part of the
bytes of the group. -/
theorem small_group_record (c : Nat) (fuel : Nat) (l : List term_data_t) (hl : l.length ≤ fuel)
    (hs : l.Pairwise sort_lt) (hQ : ∀ r ∈ l, r.id < 2 ^ 26 ∧ r.id &&& 0x3FFFC00 = c)
    (r : term_data_t) (hr : r ∈ l) :
    inner_record (doc_records l r.id) <:+: (compress_small_group_loop fuel l).1 := by
  have hm : ∀ a b : term_data_t, (a.id < 2 ^ 26 ∧ a.id &&& 0x3FFFC00 = c) →
      (b.id < 2 ^ 26 ∧ b.id &&& 0x3FFFC00 = c) → a.id ≤ b.id →
      a.id &&& SMALL_GROUP_MASK ≤ b.id &&& SMALL_GROUP_MASK := by
    intro a b ha hb hab
    have h1 := ha.2
    have h2 := hb.2
    rw [and_group_mask a.id ha.1] at h1
    rw [and_group_mask b.id hb.1] at h2
    rw [and_small_mask, and_small_mask]
    omega
  obtain ⟨cur, run, i1, i2, i3, i4, i5⟩ := level_infix (fun x => x &&& SMALL_GROUP_MASK)
    (fun r => r.id < 2 ^ 26 ∧ r.id &&& 0x3FFFC00 = c) inner_record
    (fun fuel l => (compress_small_group_loop fuel l).1)
    (fun fuel cur rest => rfl) hm fuel l hl hs hQ r hr
  have hids : ∀ x ∈ cur :: run, x.id = cur.id := by
    intro x hx
    rcases List.mem_cons.1 hx with h | h
    · rw [h]
    · have hc := hQ cur (i1.subset (List.mem_cons_self _ _))
      have hx2 := hQ x (i1.subset hx)
      exact id_eq_of_keys cur.id x.id c hc.1 hx2.1 hc.2 hx2.2 (i2 x h)
  have hall : doc_records (cur :: run) r.id = cur :: run := by
    unfold doc_records
    apply filter_all
    intro x hx
    rw [hids x hx, ← hids r i3]
    simp
  rw [← i4, hall]
  exact i5

/-- Mid groups: the inner record of a document is part of the bytes written
for the records of one top group. -/
theorem mid_groups_record (c : Nat) (fuel : Nat) (l : List term_data_t) (hl : l.length ≤ fuel)
    (hN : l.length ≤ 2 ^ 27) (hs : l.Pairwise sort_lt)
    (hQ : ∀ r ∈ l, r.id < 2 ^ 26 ∧ r.id &&& 0x3FC0000 = c)
    (r : term_data_t) (hr : r ∈ l) :
    inner_record (doc_records l r.id) <:+: (compress_mid_groups_loop fuel l).1 := by
  have hm : ∀ a b : term_data_t, (a.id < 2 ^ 26 ∧ a.id &&& 0x3FC0000 = c) →
      (b.id < 2 ^ 26 ∧ b.id &&& 0x3FC0000 = c) → a.id ≤ b.id →
      a.id &&& 0x3FFFC00 ≤ b.id &&& 0x3FFFC00 := by
    intro a b ha hb hab
    rw [and_group_mask a.id ha.1, and_group_mask b.id hb.1]
    omega
  obtain ⟨cur, run, i1, i2, i3, i4, i5⟩ := level_infix (fun x => x &&& 0x3FFFC00)
    (fun r => r.id < 2 ^ 26 ∧ r.id &&& 0x3FC0000 = c)
    (fun g => encode_group_to_buffer (((g.headD ⟨0, 0, 0⟩).id &&& 0x3FC00) >>> 10)
      (compress_small_group_data_into_group g).1)
    (fun fuel l => (compress_mid_groups_loop fuel l).1)
    (fun fuel cur rest => rfl) hm fuel l hl hs hQ r hr
  have h1 : inner_record (doc_records (cur :: run) r.id) <:+:
      (compress_small_group_data_into_group (cur :: run)).1 := by
    refine small_group_record (cur.id &&& 0x3FFFC00) _ _ (le_refl _) (hs.sublist i1) ?_ r i3
    intro x hx
    refine ⟨(hQ x (i1.subset hx)).1, ?_⟩
    rcases List.mem_cons.1 hx with h | h
    · rw [h]
    · exact i2 x h
  have h2 : (compress_small_group_data_into_group (cur :: run)).1.length < 2 ^ 32 := by
    have := small_group_length_le (cur :: run).length (cur :: run)
    have h3 := i1.length_le
    unfold compress_small_group_data_into_group
    omega
  rw [← i4]
  exact (h1.trans (infix_encode_group_to_buffer _ _ h2)).trans i5

/-- Top groups: the inner record of a document is part of the posting blob. -/
theorem groups_record (fuel : Nat) (l : List term_data_t) (hl : l.length ≤ fuel)
    (hN : l.length ≤ 2 ^ 27) (hs : l.Pairwise sort_lt)
    (hQ : ∀ r ∈ l, r.id < 2 ^ 26) (r : term_data_t) (hr : r ∈ l) :
    inner_record (doc_records l r.id) <:+: (compress_groups_loop fuel l).1 := by
  have hm : ∀ a b : term_data_t, a.id < 2 ^ 26 → b.id < 2 ^ 26 → a.id ≤ b.id →
      a.id &&& 0x3FC0000 ≤ b.id &&& 0x3FC0000 := by
    intro a b ha hb hab
    rw [and_top_mask a.id ha, and_top_mask b.id hb]
    omega
  obtain ⟨cur, run, i1, i2, i3, i4, i5⟩ := level_infix (fun x => x &&& 0x3FC0000)
    (fun r => r.id < 2 ^ 26)
    (fun g => encode_group_to_buffer (((g.headD ⟨0, 0, 0⟩).id &&& 0x3FC0000) >>> 18)
      (compress_mid_groups_loop g.length g).1)
    (fun fuel l => (compress_groups_loop fuel l).1)
    (fun fuel cur rest => rfl) hm fuel l hl hs hQ r hr
  have hlen := i1.length_le
  have h1 : inner_record (doc_records (cur :: run) r.id) <:+:
      (compress_mid_groups_loop (cur :: run).length (cur :: run)).1 := by
    refine mid_groups_record (cur.id &&& 0x3FC0000) _ _ (le_refl _) (by omega)
      (hs.sublist i1) ?_ r i3
    intro x hx
    refine ⟨hQ x (i1.subset hx), ?_⟩
    rcases List.mem_cons.1 hx with h | h
    · rw [h]
    · exact i2 x h
  have h2 : (compress_mid_groups_loop (cur :: run).length (cur :: run)).1.length < 2 ^ 32 := by
    have := mid_groups_length_le (cur :: run).length (cur :: run)
    omega
  rw [← i4]
  exact (h1.trans (infix_encode_group_to_buffer _ _ h2)).trans i5

/-- The inner record of each document of a term is part of the term's posting
blob, for a term of at most 2^27 records. -/
theorem inner_record_in_blob (records : List term_data_t) (hN : records.length ≤ 2 ^ 27)
    (hs : records.Pairwise sort_lt) (hQ : ∀ r ∈ records, r.id < 2 ^ 26)
    (d : Nat) (hd : d ∈ doc_ids records) :
    inner_record (doc_records records d) <:+: (compress_groups records).1 := by
  unfold doc_ids at hd
  rw [List.mem_toFinset] at hd
  obtain ⟨r, hr, rfl⟩ := List.mem_map.1 hd
  exact groups_record _ _ (le_refl _) hN hs hQ r hr

theorem doc_id_of_parts (d : Nat) (hd : d < 2 ^ 26) :
    ((d &&& SMALL_GROUP_MASK) + (d &&& 0x3FFFC00)) % 2 ^ 32 = d := by
  rw [and_small_mask, and_group_mask d hd]
  omega

/-- C38: for a term of the index builder whose records (in the order of the
sort, equal keys dropped) have doc ids below 2^26, value 0 and positions in
[1, 2^28), and for each doc id `d` of the term: the inner record written for
`d` is part of the term's posting blob (for a term of at most 2^27 records, so
that every group is shorter than 2^32 bytes); the positions of `d` are strictly
ascending; and wherever the cursor decodes that record, by `advance_id` as by
a call of `advance()` that returns true, `sil_term_decode_positions` yields
exactly the positions of `d`, the decoder's first base is the first position
AND 0x180, and the id shown is `d` when the cursor's group id is the group of
`d`. -/
theorem index_positions_round_trip (records : List term_data_t)
    (hsorted : records.Pairwise sort_lt)
    (hid : ∀ r ∈ records, r.id < 2 ^ 26)
    (hpos : ∀ r ∈ records, r.value = 0 ∧ 1 ≤ r.position ∧ r.position < 2 ^ 28)
    (d : Nat) (hd : d ∈ doc_ids records) :
    (records.length ≤ 2 ^ 27 →
      inner_record (doc_records records d) <:+: (compress_groups records).1) ∧
    ((doc_records records d).map term_data_t.position).Pairwise (fun a b => a < b) ∧
    (∀ (mem : List Nat) (t : sil_term_ext_t),
      holds mem t.p (inner_record (doc_records records d)) →
      (sil_term_decode_positions mem (advance_id mem t)).term_positions =
        (doc_records records d).map term_data_t.position ∧
      (advance_id mem t).first_base =
        ((doc_records records d).map term_data_t.position).headD 0 &&& FIRST_POSITION_BASE ∧
      (advance_id mem t).id = ((d &&& SMALL_GROUP_MASK) + t.gid) % 2 ^ 32 ∧
      (t.gid = d &&& 0x3FFFC00 → (advance_id mem t).id = d)) ∧
    (∀ (mem : List Nat) (t : sil_term_ext_t),
      (advance mem t).1 = true →
      t.advance = advance_cb.sil_search_image_advance →
      holds mem (if t.p < t.ep then t else (advance_group mem t).2).p
        (inner_record (doc_records records d)) →
      (sil_term_decode_positions mem (advance mem t).2).term_positions =
        (doc_records records d).map term_data_t.position ∧
      (advance mem t).2.first_base =
        ((doc_records records d).map term_data_t.position).headD 0 &&& FIRST_POSITION_BASE ∧
      ((if t.p < t.ep then t else (advance_group mem t).2).gid = d &&& 0x3FFFC00 →
        (advance mem t).2.id = d)) := by
  have hd' := hd
  unfold doc_ids at hd'
  rw [List.mem_toFinset] at hd'
  obtain ⟨r0, hr0, hr0d⟩ := List.mem_map.1 hd'
  have hd26 : d < 2 ^ 26 := hr0d ▸ hid r0 hr0
  have hmemd : r0 ∈ doc_records records d := by
    unfold doc_records
    exact List.mem_filter.2 ⟨hr0, by simpa using hr0d⟩
  have hasc := doc_records_positions records hsorted d
  have hcore : ∀ (mem : List Nat) (t : sil_term_ext_t),
      holds mem t.p (inner_record (doc_records records d)) →
      (sil_term_decode_positions mem (advance_id mem t)).term_positions =
        (doc_records records d).map term_data_t.position ∧
      (advance_id mem t).first_base =
        ((doc_records records d).map term_data_t.position).headD 0 &&& FIRST_POSITION_BASE ∧
      (advance_id mem t).id = ((d &&& SMALL_GROUP_MASK) + t.gid) % 2 ^ 32 ∧
      (t.gid = d &&& 0x3FFFC00 → (advance_id mem t).id = d) := by
    intro mem t h
    have hsub : ∀ r ∈ doc_records records d, r ∈ records ∧ r.id = d := by
      intro r hr
      unfold doc_records at hr
      have := List.mem_filter.1 hr
      exact ⟨this.1, by simpa using this.2⟩
    generalize hg : doc_records records d = g at h hmemd hasc hsub ⊢
    cases g with
    | nil => exact absurd hmemd (List.not_mem_nil r0)
    | cons cur run =>
      have hb : ∀ r ∈ cur :: run, r.value = 0 ∧ 1 ≤ r.position ∧ r.position < 2 ^ 28 :=
        fun r hr => hpos r (hsub r hr).1
      obtain ⟨r1, r2⟩ := positional_record_round_trip mem t cur run hasc hb h
      have hcd : cur.id = d := (hsub cur (List.mem_cons_self _ _)).2
      have hidv : (advance_id mem t).id = ((d &&& SMALL_GROUP_MASK) + t.gid) % 2 ^ 32 := by
        rw [r2, hcd]
      refine ⟨r1, ?_, hidv, ?_⟩
      · rw [r2]
        rfl
      · intro hgid
        rw [hidv, hgid]
        exact doc_id_of_parts d hd26
  refine ⟨fun hN => inner_record_in_blob records hN hsorted hid d hd, hasc, hcore, ?_⟩
  intro mem t hres hcb hh
  have hadv : advance mem t = sil_search_image_advance mem t := by
    unfold advance
    rw [hcb]
  rw [hadv] at hres ⊢
  unfold sil_search_image_advance at hres ⊢
  simp only [apply_ite Prod.snd, apply_ite Prod.fst] at hres ⊢
  by_cases hp : t.p < t.ep
  · simp only [if_pos hp] at hh hres ⊢
    obtain ⟨c1, c2, _, c4⟩ := hcore mem t hh
    exact ⟨c1, c2, c4⟩
  · simp only [if_neg hp] at hh hres ⊢
    by_cases hg : (advance_group mem t).1 = true
    · simp only [if_pos hg]
      obtain ⟨c1, c2, _, c4⟩ := hcore mem (advance_group mem t).2 hh
      exact ⟨c1, c2, c4⟩
    · rw [if_neg hg] at hres
      exact absurd hres (by simp)

/-- C38 on the term `pos_records` (document 1 with the positions 5 and 9,
document 2 with the position 4), whose posting blob is
`00 09 00 07 64 00 05 04 A0 00 04`: `advance()` on a cursor at offset 4 decodes
the record of document 1 and the positions 5 and 9. -/
theorem index_positions_round_trip_witness :
    (pos_records.Pairwise sort_lt ∧ (∀ r ∈ pos_records, r.id < 2 ^ 26) ∧
      (∀ r ∈ pos_records, r.value = 0 ∧ 1 ≤ r.position ∧ r.position < 2 ^ 28) ∧
      1 ∈ doc_ids pos_records ∧
      (advance (compress_groups pos_records).1 pos_cursor).1 = true ∧
      pos_cursor.advance = advance_cb.sil_search_image_advance) ∧
    (compress_groups pos_records).1 = [0, 9, 0, 7, 0x64, 0, 5, 4, 0xA0, 0, 4] ∧
    (sil_term_decode_positions (compress_groups pos_records).1
      (advance (compress_groups pos_records).1 pos_cursor).2).term_positions = [5, 9] :=
  have hm : holds (compress_groups pos_records).1
      (if pos_cursor.p < pos_cursor.ep then pos_cursor
        else (advance_group (compress_groups pos_records).1 pos_cursor).2).p
      (inner_record (doc_records pos_records 1)) :=
    holds_mid [0, 9, 0, 7] [0x64, 0, 5, 4] [0xA0, 0, 4]
  ⟨⟨by decide, by decide, by decide, by decide, by decide, by decide⟩, by decide,
    ((index_positions_round_trip pos_records (by decide) (by decide) (by decide) 1
      (by decide)).2.2.2 (compress_groups pos_records).1 pos_cursor (by decide) (by decide)
      hm).1⟩

/-! ## A record with more than 2^28 bytes of positions -/

theorem decode_high_bit32_one (mem : List Nat) (p : Nat) (h : rd8 mem p = 1) :
    __decode_high_bit32 mem p = (1, p + 1) := by
  have e : (1 : Nat) &&& 0x80 = 0 := by decide
  unfold __decode_high_bit32
  simp only [h, e, if_true]

theorem decode_positions_loop_ones (mem : List Nat) : ∀ (k fuel p last : Nat), k ≤ fuel →
    holds mem p (List.replicate k 1) →
    (decode_positions_loop fuel mem p (p + k) last).length = k := by
  intro k
  induction k with
  | zero =>
    intro fuel p last _ _
    cases fuel with
    | zero => rfl
    | succ fuel =>
      rw [decode_positions_loop, if_neg (by omega)]
      rfl
  | succ k ih =>
    intro fuel p last hf h
    cases fuel with
    | zero => omega
    | succ fuel =>
      rw [List.replicate_succ] at h
      rw [decode_positions_loop, if_pos (by omega), decode_high_bit32_one mem p h.1]
      simp only [List.length_cons]
      have := ih fuel (p + 1) ((last + 1) % 2 ^ 32) (by omega) h.2
      rw [show p + 1 + k = p + (k + 1) by omega] at this
      rw [this]

theorem encode_high_bit_one : encode_high_bit 1 = [1] := by decide

theorem encode_ones : ∀ (n s : Nat), s + n < 2 ^ 32 →
    encode_term_positions_loop s (List.range' (s + 1) n) = List.replicate n 1 := by
  intro n
  induction n with
  | zero => intro s _; rfl
  | succ n ih =>
    intro s hs
    rw [List.range'_succ, encode_term_positions_loop, List.replicate_succ]
    rw [sub32_of_le (s + 1) s (by omega) (by omega), Nat.add_sub_cancel_left,
      encode_high_bit_one, ih (s + 1) (by omega)]
    rfl

theorem run_records_positions (n : Nat) :
    (run_records n).map term_data_t.position = List.range' 1 n := by
  unfold run_records
  rw [List.map_map]
  exact List.map_id _

/-- The inner record of `run_records (m + 1)`: the control word `2C 00`, the
varint of `m` and `m + 1` delta bytes `01`; the `num_positions` returned with
it is `m + 1`. -/
theorem run_records_record (m : Nat) (h3 : 3 ≤ m) (hm : m + 1 < 2 ^ 32) :
    ∃ run, run_records (m + 1) = ⟨0, 1, 0⟩ :: run ∧
      compress_single_id 0 ⟨0, 1, 0⟩ run =
        ([0x2C, 0] ++ encode_high_bit m ++ List.replicate (m + 1) 1, m + 1) := by
  refine ⟨(List.range' 2 m).map (fun i => ⟨0, i, 0⟩), ?_, ?_⟩
  · unfold run_records
    rw [List.range'_succ, List.map_cons]
  · have hps : (((⟨0, 1, 0⟩ : term_data_t) ::
        (List.range' 2 m).map (fun i => (⟨0, i, 0⟩ : term_data_t))).map term_data_t.position) =
        List.range' 1 (m + 1) := by
      have := run_records_positions (m + 1)
      unfold run_records at this
      rw [List.range'_succ, List.map_cons] at this
      exact this
    have henc : encode_term_positions (List.range' 1 (m + 1)) =
        (List.replicate (m + 1) 1, 0) := by
      unfold encode_term_positions
      have e0 : (List.range' 1 (m + 1)).headD 0 &&& FIRST_POSITION_BASE = 0 := by
        rw [List.range'_succ]
        show 1 &&& FIRST_POSITION_BASE = 0
        decide
      simp only [e0]
      rw [encode_ones (m + 1) 0 (by omega)]
    rw [compress_single_id_eq]
    have h1 : ¬ (((List.range' 2 m).map (fun i => (⟨0, i, 0⟩ : term_data_t))).length + 1 = 1 ∧
        (⟨0, 1, 0⟩ : term_data_t).position = 0) := by
      intro hc
      exact absurd hc.2 (by decide)
    rw [if_neg h1]
    have hhv : decide ((⟨0, 1, 0⟩ : term_data_t).position = 0 ∧
        (⟨0, 1, 0⟩ : term_data_t).value ≠ 0) = false := by decide
    simp only [hhv, Bool.false_eq_true, if_false]
    rw [hps]
    unfold positions_code
    simp only [henc, List.length_replicate, Bool.false_eq_true, if_false, List.nil_append]
    rw [sub32_of_le (m + 1) 1 (by omega) (by omega), Nat.add_sub_cancel, if_neg (by omega)]
    simp only [List.length_cons, List.length_map, List.length_range']
    rw [Nat.mod_eq_of_lt hm]
    have e1 : (0 ||| (0 ||| SMALL_GROUP_POS_MASK ||| 0 >>> 7 |||
        SMALL_GROUP_EXTENDED_POS_LENGTH)) = 0x2C := by decide
    rw [e1]
    rfl

theorem advance_id_long_positions_window (mem : List Nat) (t : sil_term_ext_t)
    (h : holds mem t.p [0x2C, 0, 128, 129, 128, 128, 1]) :
    (advance_id mem t).wp = t.p + 7 ∧ (advance_id mem t).first_base = 0 := by
  have h' := h
  simp only [holds, and_true] at h'
  obtain ⟨h0, h1, -⟩ := h'
  have hv : holds mem (t.p + 2) [128, 129, 128, 128, 1] := h.2.2
  have hd := decode_high_bit32_long mem (t.p + 2) hv
  have h16 : rd16 mem t.p = 0x2C := by unfold rd16; rw [h0, h1]
  have e1 : (44 : Nat) >>> 6 = 0 := by decide
  have e2 : (44 : Nat) &&& 63 = 44 := by decide
  have e3 : (44 : Nat) &&& 32 = 32 := by decide
  have e4 : (44 : Nat) &&& 16 = 0 := by decide
  have e5 : (44 : Nat) &&& 15 = 12 := by decide
  have e6 : (12 : Nat) >>> 2 = 3 := by decide
  have e7 : ((12 : Nat) &&& 3) <<< 7 = 0 := by decide
  unfold advance_id
  simp only [h16, decode_term_positions, SMALL_GROUP_SHIFT, SMALL_GROUP_FLAGS,
    SMALL_GROUP_POS_MASK, SMALL_GROUP_VALUE_PRESENT_MASK, SMALL_GROUP_POS_LENGTH_MASK,
    e1, e2, e3, e4, e5, e6, e7, hd, ne_eq, not_true_eq_false, if_false, if_true,
    Nat.lt_irrefl, OfNat.ofNat_ne_zero, not_false_eq_true, Nat.zero_add]
  exact ⟨trivial, trivial⟩

theorem run_records_mem (n : Nat) :
    ∀ r ∈ run_records n, r.id = 0 ∧ 1 ≤ r.position ∧ r.value = 0 := by
  intro r hr
  unfold run_records at hr
  obtain ⟨i, hi, rfl⟩ := List.mem_map.1 hr
  rw [List.mem_range'_1] at hi
  exact ⟨rfl, hi.1, rfl⟩

theorem run_records_length (n : Nat) : (run_records n).length = n := by
  unfold run_records
  rw [List.length_map, List.length_range']

theorem run_records_sorted (n : Nat) : (run_records n).Pairwise sort_lt := by
  unfold run_records
  rw [List.pairwise_map]
  refine (List.pairwise_lt_range' 1 n).imp ?_
  intro a b hab
  exact Or.inr ⟨rfl, hab⟩

theorem run_records_stored (n : Nat) : stored_position_count (run_records n) = n := by
  unfold stored_position_count position_count
  have h1 : (run_records n).filter (fun r => decide (r.position ≠ 0)) = run_records n := by
    apply filter_all
    intro r hr
    have := (run_records_mem n r hr).2.1
    simp only [ne_eq, decide_eq_true_eq]
    omega
  have h2 : (run_records n).any (fun r => decide (r.position = 0 ∧ r.value = 0)) = false := by
    rw [List.any_eq_false]
    intro r hr
    have := (run_records_mem n r hr).2.1
    simp only [decide_eq_true_eq, not_and]
    intro h0
    omega
  rw [h1, h2, run_records_length]
  simp

theorem encode_run_positions (n : Nat) (hn : n < 2 ^ 32) :
    (encode_term_positions (List.range' 1 n)).1 = List.replicate n 1 := by
  cases n with
  | zero => rfl
  | succ m =>
    unfold encode_term_positions
    have e0 : (List.range' 1 (m + 1)).headD 0 &&& FIRST_POSITION_BASE = 0 := by
      rw [List.range'_succ]
      show 1 &&& FIRST_POSITION_BASE = 0
      decide
    simp only [e0]
    exact encode_ones (m + 1) 0 (by omega)

/-- The `max_positions` written to the header of the term `run_records n`. -/
theorem run_records_max_positions (n : Nat) (hn : n < 2 ^ 32) :
    (compress_groups (run_records n)).2.2 = n := by
  have h : (compress_groups (run_records n)).2.2 =
      max_over_docs stored_position_count (run_records n) :=
    groups_max _ _ (le_refl _) (by rw [run_records_length]; omega) (run_records_sorted n)
      (fun r hr => by rw [(run_records_mem n r hr).1]; decide)
  rw [h]
  cases n with
  | zero => rfl
  | succ m =>
    have e : run_records (m + 1) =
        ⟨0, 1, 0⟩ :: (List.range' 2 m).map (fun i => (⟨0, i, 0⟩ : term_data_t)) := by
      unfold run_records
      rw [List.range'_succ, List.map_cons]
    have h2 := run_records_stored (m + 1)
    rw [e] at h2 ⊢
    rw [max_over_docs_const, h2]
    intro r hr
    have hr2 : r ∈ run_records (m + 1) := by
      rw [e]
      exact List.mem_cons_of_mem _ hr
    exact (run_records_mem (m + 1) r hr2).1

/-- C39 fails on a term with the positions 1, 2, ..., 2^28 + 129 in document 0
(`run_records`), whose header has `max_positions = 2^28 + 129`. The builder
writes for the document the control word `2C 00`, the blob length 2^28 + 128 as
the varint `80 81 80 80 01`, and a blob of 2^28 + 129 position varints, each
the byte `01`. At that record, followed by any bytes `tail`, `advance_id`
decodes the length as 2^28 and `sil_term_decode_positions` writes 2^28 + 1
positions, not the 2^28 + 129 the record holds. -/
theorem long_record_decodes_fewer_positions (tail : List Nat) :
    inner_record (run_records (2 ^ 28 + 129)) =
      [0x2C, 0, 128, 129, 128, 128, 1] ++ List.replicate (2 ^ 28 + 129) 1 ∧
    (encode_term_positions ((run_records (2 ^ 28 + 129)).map term_data_t.position)).1 =
      List.replicate (2 ^ 28 + 129) 1 ∧
    (compress_groups (run_records (2 ^ 28 + 129))).2.2 = 2 ^ 28 + 129 ∧
    (sil_term_decode_positions
      ([0x2C, 0, 128, 129, 128, 128, 1] ++ List.replicate (2 ^ 28 + 129) 1 ++ tail)
      (advance_id ([0x2C, 0, 128, 129, 128, 128, 1] ++ List.replicate (2 ^ 28 + 129) 1 ++ tail)
        zalloc_term)).term_positions.length = 2 ^ 28 + 1 := by
  have hN : (2 ^ 28 + 129 : Nat) = 2 ^ 28 + 128 + 1 := by norm_num
  have hvar : encode_high_bit (2 ^ 28 + 128) = [128, 129, 128, 128, 1] := by decide
  refine ⟨?_, ?_, run_records_max_positions _ (by norm_num), ?_⟩
  · obtain ⟨run, h1, h2⟩ := run_records_record (2 ^ 28 + 128) (by norm_num) (by norm_num)
    rw [hN, h1]
    show (compress_single_id _ _ run).1 = _
    have e : ((0 &&& SMALL_GROUP_MASK) <<< SMALL_GROUP_SHIFT) % 2 ^ 16 = 0 := by decide
    have e2 : (⟨0, 1, 0⟩ : term_data_t).id = 0 := rfl
    rw [e2, e, h2, hvar]
    rfl
  · rw [run_records_positions]
    exact encode_run_positions _ (by norm_num)
  · have hA : holds ([0x2C, 0, 128, 129, 128, 128, 1] ++ List.replicate (2 ^ 28 + 129) 1 ++ tail)
        0 [0x2C, 0, 128, 129, 128, 128, 1] := by
      rw [List.append_assoc]
      exact holds_self _ _
    have hB : holds ([0x2C, 0, 128, 129, 128, 128, 1] ++ List.replicate (2 ^ 28 + 129) 1 ++ tail)
        7 (List.replicate (2 ^ 28 + 1) 1) :=
      holds_replicate _ tail 1 (2 ^ 28 + 1) (2 ^ 28 + 129) 7 (by norm_num) (by norm_num)
    generalize [0x2C, 0, 128, 129, 128, 128, 1] ++ List.replicate (2 ^ 28 + 129) 1 ++ tail = mem
      at hA hB
    obtain ⟨a1, _, _⟩ := advance_id_long_positions mem zalloc_term hA
    obtain ⟨b1, b2⟩ := advance_id_long_positions_window mem zalloc_term hA
    have hp : (advance_id mem zalloc_term).p = 7 + (2 ^ 28 + 1) := by
      rw [a1]; show 0 + 2 ^ 28 + 8 = 7 + (2 ^ 28 + 1); omega
    have hw : (advance_id mem zalloc_term).wp = 7 := by
      rw [b1]; rfl
    unfold sil_term_decode_positions
    simp only
    rw [hp, hw, b2]
    exact decode_positions_loop_ones mem (2 ^ 28 + 1) _ 7 0 (by omega) hB

/-! ## Evaluations of the cursor on concrete term-data files -/

/-- C7: the varint round trip fails at `v = 2^32 - 1`. `encode_high_bit` writes
the five bytes `FF FF FF FF 0F`, and `__decode_high_bit32` returns
`0xF000007F` for them: its last assignment overwrites the accumulated value
with `v | (bits << 28)`, so bits 7..27 are lost. -/
theorem decode_high_bit32_max_value :
    encode_high_bit (2 ^ 32 - 1) = [255, 255, 255, 255, 15] ∧
    __decode_high_bit32 (encode_high_bit (2 ^ 32 - 1)) 0 = (0xF000007F, 5) := by
  decide

/-- C1: a term added to document 7 by `term_position(2^28 + 512, ..)` is
enumerated with the position `2^28`, not the position that was added. -/
theorem enumerate_large_position :
    advance_trace (term_data_file [[⟨7, 2 ^ 28 + 512, 0⟩]]) 1
        (fill_term (term_data_file [[⟨7, 2 ^ 28 + 512, 0⟩]]) 4)
      = [(true, 7, 0, [2 ^ 28])] := by
  decide

/-- C2: on the S3 posting list, `advance_to(262144)` from the fresh cursor
returns true and leaves the cursor on id 263167, which is not in the list; the
least id `>= 262144` of the list is 262144. -/
theorem advance_to_s3_top_group :
    (fill_term (term_data_file [s3_records]) 4).id = 0 ∧
    (sil_search_image_advance_to (term_data_file [s3_records])
        (fill_term (term_data_file [s3_records]) 4) 262144).1 = true ∧
    (sil_search_image_advance_to (term_data_file [s3_records])
        (fill_term (term_data_file [s3_records]) 4) 262144).2.id = 263167 := by
  decide

/-- C3: two terms with one record each, both in document 0. On the cursor of
the first term, whose only id is 0, `advance_to(262144)` returns true: the scan
of the top groups runs into the record of the second term. -/
theorem advance_to_beyond_last_id :
    term_offsets 4 [[⟨0, 0, 0⟩], [⟨0, 0, 0⟩]] = [4, 22] ∧
    (sil_search_image_advance_to (term_data_file [[⟨0, 0, 0⟩], [⟨0, 0, 0⟩]])
        (fill_term (term_data_file [[⟨0, 0, 0⟩], [⟨0, 0, 0⟩]]) 4) 262144).1 = true := by
  decide

set_option maxRecDepth 1000000 in
/-- C4: a term with the single doc id 0, followed in the term-data file by the
term `wide_records`. The posting list holds one id, and the second call of
`advance()` still returns true, with the id 524288 decoded from the bytes of
the following term. -/
theorem advance_after_last_id :
    (compress_groups [⟨0, 0, 0⟩]).2.1 = 1 ∧
    advance_trace (term_data_file [[⟨0, 0, 0⟩], wide_records]) 2
        (fill_term (term_data_file [[⟨0, 0, 0⟩], wide_records]) 4)
      = [(true, 0, 0, []), (true, 524288, 0, [])] := by
  decide

/-- C6: a term with value 5 in document 1 (`term_value`) and one position in
document 2 (`term_position`, no value). After the second `advance()` the cursor
is on id 2 and still shows the value 5 of id 1. -/
theorem advance_keeps_stale_value :
    advance_trace (term_data_file [[⟨1, 0, 5⟩, ⟨2, 3, 0⟩]]) 2
        (fill_term (term_data_file [[⟨1, 0, 5⟩, ⟨2, 3, 0⟩]]) 4)
      = [(true, 1, 5, []), (true, 2, 5, [3])] := by
  decide

end Sil
